import Mathlib

/-!
# bopt: the release downloader (`brd`)

A shallow embedding of `brd/brd.go` (the fetch-verify-pack unit
`Manager.DownloadAndCompress` with `checkSha1`), of `cmd/brd.go`
(the worker pool of `BrdCommand.runDownload` / `BrdCommand.worker`,
`BrdCommand.Execute` and `convertVarsKV`) and of
`commander/command_runner.go` (`CommandRunner.Run`, `privilegeIfNeeded`
and `createCommandSlice`).

Go strings are lists of characters, byte slices are lists of naturals
(each taken modulo 256 where it is encoded).  Everything the unit asks of
the outside world (the temp directory, the HTTP server, the file system,
the zip stream) is answered by an explicit record `Env`; the state the
unit shares with the other units is the record `World`.
-/

namespace Bopt

abbrev Str := List Char
abbrev Bytes := List Nat
abbrev Error := Str

/-! ## Go standard library: `strings`, `path/filepath`, `fmt`, `crypto/sha1` -/

/-- Go `strings.HasPrefix(s, pre)`. -/
def HasPrefix (s pre : Str) : Bool := pre.isPrefixOf s

/-- Go `strings.HasSuffix(s, suf)`. -/
def HasSuffix (s suf : Str) : Bool := suf.isSuffixOf s

/-- Go `strings.TrimSuffix(s, suf)`: `s` without the trailing `suf`, or `s` itself. -/
def TrimSuffix (s suf : Str) : Str :=
  if HasSuffix s suf then s.take (s.length - suf.length) else s

/-- Go `os.IsPathSeparator` on Unix. -/
def IsPathSeparator (c : Char) : Bool := c == '/'

/-- The loop of Go `filepath.Ext`: `rev` holds `path[i], path[i-1], ..., path[0]`
and `tail` is `path[i+1:]`; the scan stops at a path separator. -/
def extScan : List Char → Str → Str
  | [], _ => []
  | c :: rev, tail =>
    if IsPathSeparator c then []
    else if c == '.' then c :: tail
    else extScan rev (c :: tail)

/-- Go `filepath.Ext(path)`: the suffix beginning at the final dot in the final
element of `path`; empty if there is no dot. -/
def Ext (path : Str) : Str := extScan path.reverse []

/-- Go `filepath.Base(path)` on Unix: the last element of `path`, trailing
separators removed; `"."` for the empty path and `"/"` for a path of separators. -/
def Base (path : Str) : Str :=
  if path = [] then ['.']
  else
    let stripped := path.reverse.dropWhile IsPathSeparator
    let last := (stripped.takeWhile (fun c => !IsPathSeparator c)).reverse
    if last = [] then ['/'] else last

/-- Rotate a 32-bit word left. -/
def rotl32 (x n : Nat) : Nat := ((x <<< n) ||| (x >>> (32 - n))) % 2 ^ 32

/-- Big-endian value of a byte string. -/
def fromBE (b : Bytes) : Nat := b.foldl (fun acc x => acc * 256 + x % 256) 0

/-- Big-endian encoding of `n` on `len` bytes. -/
def toBE (n : Nat) (len : Nat) : Bytes :=
  (List.range len).map (fun i => (n >>> (8 * (len - 1 - i))) % 256)

/-- SHA-1 padding: a one bit, zeros up to 56 modulo 64, the bit length on 8 bytes. -/
def sha1Pad (msg : Bytes) : Bytes :=
  msg ++ [0x80] ++ List.replicate ((119 - msg.length % 64) % 64) 0 ++ toBE (8 * msg.length) 8

/-- The first `n` big-endian 32-bit words of a block. -/
def sha1Words : Nat → Bytes → List Nat
  | 0, _ => []
  | n + 1, b => fromBE (b.take 4) :: sha1Words n (b.drop 4)

/-- The SHA-1 message schedule: `n` more words appended to `w`. -/
def sha1Expand : Nat → List Nat → List Nat
  | 0, w => w
  | n + 1, w =>
    let i := w.length
    sha1Expand n (w ++ [rotl32
      (w.getD (i - 3) 0 ^^^ w.getD (i - 8) 0 ^^^ w.getD (i - 14) 0 ^^^ w.getD (i - 16) 0) 1])

/-- The five 32-bit chaining words of SHA-1. -/
structure Sha1State where
  a : Nat
  b : Nat
  c : Nat
  d : Nat
  e : Nat
deriving DecidableEq, Repr

/-- Round `t` of the SHA-1 compression function with schedule word `wt`. -/
def sha1Round (t wt : Nat) (s : Sha1State) : Sha1State :=
  let m := 2 ^ 32
  let fk : Nat × Nat :=
    if t < 20 then ((s.b &&& s.c) ||| ((s.b ^^^ (m - 1)) &&& s.d), 0x5A827999)
    else if t < 40 then (s.b ^^^ s.c ^^^ s.d, 0x6ED9EBA1)
    else if t < 60 then ((s.b &&& s.c) ||| (s.b &&& s.d) ||| (s.c &&& s.d), 0x8F1BBCDC)
    else (s.b ^^^ s.c ^^^ s.d, 0xCA62C1D6)
  ⟨(rotl32 s.a 5 + fk.1 + s.e + fk.2 + wt) % m, s.a, rotl32 s.b 30, s.c, s.d⟩

/-- The rounds of one block, one per schedule word, numbered from `t`. -/
def sha1Rounds : List Nat → Nat → Sha1State → Sha1State
  | [], _, s => s
  | wt :: ws, t, s => sha1Rounds ws (t + 1) (sha1Round t wt s)

/-- The SHA-1 compression of one 64-byte block. -/
def sha1Block (h : Sha1State) (blk : Bytes) : Sha1State :=
  let s := sha1Rounds (sha1Expand 64 (sha1Words 16 blk)) 0 h
  let m := 2 ^ 32
  ⟨(h.a + s.a) % m, (h.b + s.b) % m, (h.c + s.c) % m, (h.d + s.d) % m, (h.e + s.e) % m⟩

/-- The compression of `n` consecutive blocks. -/
def sha1Blocks : Nat → Sha1State → Bytes → Sha1State
  | 0, h, _ => h
  | n + 1, h, b => sha1Blocks n (sha1Block h (b.take 64)) (b.drop 64)

/-- Go `sha1.New()`, `io.Copy(h, ...)`, `h.Sum(nil)`: the 20-byte SHA-1 digest. -/
def sha1Sum (msg : Bytes) : Bytes :=
  let p := sha1Pad msg
  let h := sha1Blocks (p.length / 64)
    ⟨0x67452301, 0xEFCDAB89, 0x98BADCFE, 0x10325476, 0xC3D2E1F0⟩ p
  toBE h.a 4 ++ toBE h.b 4 ++ toBE h.c 4 ++ toBE h.d 4 ++ toBE h.e 4

/-- One lowercase hexadecimal digit. -/
def hexDigit (n : Nat) : Char := "0123456789abcdef".toList.getD n '0'

/-- Go `fmt.Sprintf("%x", bs)` on a byte slice: two lowercase digits per byte. -/
def hexLower (bs : Bytes) : Str :=
  bs.flatMap (fun b => [hexDigit (b / 16 % 16), hexDigit (b % 16)])

/-! ## Readers and the scratch file -/

/-- An `io.Reader` read to its end: the bytes it yields and the error that ends
the stream (`none` for `io.EOF`). -/
structure Reader where
  data : Bytes
  err : Option Error
deriving DecidableEq, Repr

/-- The type `Hook` of `brd.go`: `func(reader io.Reader) io.Reader`. -/
abbrev Hook := Reader → Reader

/-- An `os.File`: its content and the current offset. -/
structure File where
  data : Bytes
  pos : Nat
deriving DecidableEq, Repr

/-- The file `ioutil.TempFile` returns: empty, offset 0. -/
def File.empty : File := ⟨[], 0⟩

/-- The call `ft.Write(bs)`: the bytes land at the current offset, which advances. -/
def File.write (f : File) (bs : Bytes) : File :=
  ⟨f.data.take f.pos ++ bs ++ f.data.drop (f.pos + bs.length), f.pos + bs.length⟩

/-- The call `ft.Seek(0, 0)`: back to the start. -/
def File.rewind (f : File) : File := ⟨f.data, 0⟩

/-- Reading `ft` to its end: the bytes from the current offset on, and the file
with its offset at the end. -/
def File.readAll (f : File) : Bytes × File := (f.data.drop f.pos, ⟨f.data, f.data.length⟩)

/-- The file seen as an `io.Reader`, from its current offset. -/
def File.reader (f : File) : Reader := ⟨f.data.drop f.pos, none⟩

/-- The pattern of lines 139..143 and 180..183: `reader = r`, and
`reader = hook(r)` when the hook is not nil. -/
def applyHook (hook : Option Hook) (r : Reader) : Reader :=
  match hook with
  | some h => h r
  | none => r

/-- Go `io.Copy(dst, src)` seen from `dst`: the bytes that reach `dst` and the
error returned.  `werr` is the failure of `dst.Write`, if any; a failed copy is
taken to deliver nothing. -/
def ioCopy (werr : Option Error) (src : Reader) : Bytes × Option Error :=
  match werr with
  | some e => ([], some e)
  | none => (src.data, src.err)

/-! ## `brd/brd.go` -/

/-- The struct `Release`. -/
structure Release where
  URL : Str
  SHA1 : Str
  Name : Str
  Version : Str
deriving DecidableEq, Repr

/-- The anonymous struct built at lines 190..198, the `Value` of the result. -/
structure ReleaseValue where
  Name : Str
  Version : Str
  Url : Str
deriving DecidableEq, Repr

/-- The struct `OpDefinition`; the field `Type` is `Type_` here and a nil
`Value` is `none`. -/
structure OpDefinition where
  Type_ : Str
  Path : Str
  Value : Option ReleaseValue
deriving DecidableEq, Repr

/-- The zero value `OpDefinition{}`. -/
def OpDefinition.zero : OpDefinition := ⟨[], [], none⟩

/-- The variable `DirVarName`. -/
def DirVarName : Str := "brd_repo_dir".toList

/-- The constant `zip.Deflate`. -/
def Deflate : Nat := 8

/-- The fields of `zip.FileHeader` the program sets. -/
structure FileHeader where
  Name : Str
  Method : Nat
  UncompressedSize64 : Nat
  UncompressedSize : Nat
  Mode : Nat
deriving DecidableEq, Repr

/-- What `ft.Stat()` tells: an `os.FileInfo`. -/
structure FileInfo where
  Name : Str
  Size : Nat
  Mode : Nat
deriving DecidableEq, Repr

/-- Go `zip.FileInfoHeader(fi)`: name, mode and size of the file, the 32-bit size
capped at its maximum; the method is left at `Store` (0). -/
def FileInfoHeader (fi : FileInfo) : FileHeader :=
  { Name := fi.Name
    Method := 0
    UncompressedSize64 := fi.Size % 2 ^ 64
    UncompressedSize :=
      if fi.Size % 2 ^ 64 > 2 ^ 32 - 1 then 2 ^ 32 - 1 else fi.Size % 2 ^ 64 % 2 ^ 32
    Mode := fi.Mode }

/-- One entry of the archive: the header given to `CreateHeader` and the
(uncompressed) bytes written to the entry so far. -/
structure Entry where
  header : FileHeader
  data : Bytes
deriving DecidableEq, Repr

/-- The `zip.Writer`: the entries in the order of their creation.  The stream is
sequential: bytes written go to the entry created last. -/
abbrev ZipWriter := List Entry

/-- The call `zipWriter.CreateHeader(fh)`: a new, empty entry at the end. -/
def ZipWriter.create (z : ZipWriter) (fh : FileHeader) : ZipWriter := z ++ [⟨fh, []⟩]

/-- Bytes written to the stream: they extend the entry created last. -/
def ZipWriter.write : ZipWriter → Bytes → ZipWriter
  | [], _ => []
  | [e], bs => [⟨e.header, e.data ++ bs⟩]
  | e :: e2 :: es, bs => e :: ZipWriter.write (e2 :: es) bs

/-- What the units of one run share and what they leave behind: the zip writer
and the mutex of the `Manager`, the requests sent by the HTTP client, and the
temp files created and still present. -/
structure World where
  zip : ZipWriter
  mux : Bool
  requests : List Str
  tempCreated : Nat
  tempLive : Nat
deriving DecidableEq, Repr

/-- An `http.Response`, as far as the unit reads it. -/
structure Response where
  StatusCode : Int
  Status : Str
  ContentDisposition : Str
  ContentLength : Int
  Body : Reader
deriving DecidableEq, Repr

/-- The answers of the outside world to one call of `DownloadAndCompress`: for
each fallible operation the error it returns (`none`: success), in the order of
the source lines. -/
structure Env where
  /-- The error of `ioutil.TempFile("", DirVarName)`, line 95. -/
  TempFile : Option Error
  /-- The base name of the temp file. -/
  tempName : Str
  /-- The result of `b.client.Get(release.URL)`, line 104. -/
  Get : Except Error Response
  /-- The field `url.Parse(release.URL).Path`, line 115. -/
  urlPath : Str
  /-- The parameters `mime.ParseMediaType` returns, `none` when `err != nil`, line 118. -/
  ParseMediaType : Str → Option (List (Str × Str))
  /-- The write error of `io.Copy(ft, reader)`, line 145. -/
  copyTemp : Option Error
  /-- The read error of `io.Copy(h, ft)`, line 215. -/
  hashRead : Option Error
  /-- The error of `ft.Seek(0, 0)`, line 155. -/
  Seek : Option Error
  /-- The error of `ft.Stat()`, line 162. -/
  Stat : Option Error
  /-- The error of `zip.FileInfoHeader(info)`, line 168. -/
  InfoHeader : Option Error
  /-- The error of `b.zipWriter.CreateHeader(header)`, line 175. -/
  CreateHeader : Option Error
  /-- The write error of `io.Copy(writer, reader)`, line 185. -/
  copyZip : Option Error

/-- The function `checkSha1` (lines 207..226).  `readErr` is the error of
`io.Copy(h, ft)`.  The result is the error returned and the file as it is left. -/
def checkSha1 (readErr : Option Error) (ft : File) (fileSHA1 : Str) : Option Error × File :=
  if fileSHA1 = [] then (none, ft)
  else
    let ft := ft.rewind
    let (content, ft) := ft.readAll
    match readErr with
    | some err => (some err, ft)
    | none =>
      let bs := sha1Sum content
      if fileSHA1 ≠ hexLower bs then (some "SHA1 mismatch from download".toList, ft)
      else (none, ft)

/-- Lines 115..123: the last element of the URL path, or the `filename`
parameter of `Content-Disposition` when the header parses and has one. -/
def sourceFilename (env : Env) (resp : Response) : Str :=
  let filename := Base env.urlPath
  match env.ParseMediaType resp.ContentDisposition with
  | some params =>
    match params.lookup "filename".toList with
    | some f => f
    | none => filename
  | none => filename

/-- Lines 124..133: with a name and a version the file is called
`<name>-<version><ext>`. -/
def resolveFilename (release : Release) (filename : Str) : Str :=
  if release.Name ≠ [] ∧ release.Version ≠ [] then
    let ext := Ext filename
    let ext :=
      if ext = [] then ".tgz".toList
      else if ext = ".gz".toList ∧ Ext (TrimSuffix filename ext) = ".tar".toList then
        Ext (TrimSuffix filename ext) ++ ext
      else ext
    release.Name ++ "-".toList ++ release.Version ++ ext
  else filename

/-- The local variables of `DownloadAndCompress` that are live at line 160. -/
structure Prepared where
  filename : Str
  ft : File
  hookCompress : Option Hook

/-- Lines 104..158 of `DownloadAndCompress`: the request, the status check, the
file name, the download into the scratch file, the checksum and the rewind.
The result is the error returned, or the local variables at line 160. -/
def download (env : Env) (release : Release) (hooks : Int → Option Hook × Option Hook) :
    Except Error Prepared :=
  match env.Get with
  | .error err => .error err
  | .ok resp =>
    if resp.StatusCode > 302 then .error ("non valid status: ".toList ++ resp.Status)
    else
      let filename := resolveFilename release (sourceFilename env resp)
      let size := resp.ContentLength
      let hk := hooks size
      let reader := applyHook hk.1 resp.Body
      let copied := ioCopy env.copyTemp reader
      let ft := File.empty.write copied.1
      match copied.2 with
      | some err => .error err
      | none =>
        let checked := checkSha1 env.hashRead ft release.SHA1
        match checked.1 with
        | some err => .error err
        | none =>
          match env.Seek with
          | some err => .error err
          | none => .ok ⟨filename, checked.2.rewind, hk.2⟩

/-- How lines 92..158 end: the release is skipped (line 93), an error is
returned, or the scratch file is ready to be packed. -/
inductive Fetched where
  | skip
  | fail (err : Error)
  | ready (p : Prepared)

/-- The deferred `ft.Close(); os.Remove(ft.Name())`. -/
def World.removeTemp (w : World) : World := { w with tempLive := w.tempLive - 1 }

/-- Lines 92..158 of `DownloadAndCompress` with their effects: no effect for a
skipped release; otherwise a temp file is created, a request is sent, and on an
error return the deferred removal of the temp file has run. -/
def fetch (env : Env) (release : Release) (hooks : Int → Option Hook × Option Hook)
    (w : World) : Fetched × World :=
  if !HasPrefix release.URL "http".toList then (.skip, w)
  else
    match env.TempFile with
    | some err => (.fail err, w)
    | none =>
      let w := { w with tempCreated := w.tempCreated + 1, tempLive := w.tempLive + 1 }
      let w := { w with requests := w.requests ++ [release.URL] }
      match download env release hooks with
      | .error err => (.fail err, w.removeTemp)
      | .ok p => (.ready p, w)

/-- Lines 162..178, inside the critical section: the header of the entry, built
from the scratch file and renamed, and the entry created in the archive. -/
def createEntry (env : Env) (p : Prepared) (z : ZipWriter) : Except Error ZipWriter :=
  match env.Stat with
  | some err => .error err
  | none =>
    let info : FileInfo := ⟨env.tempName, p.ft.data.length, 0o600⟩
    match env.InfoHeader with
    | some err => .error err
    | none =>
      let header := { FileInfoHeader info with Name := p.filename, Method := Deflate }
      match env.CreateHeader with
      | some err => .error err
      | none => .ok (z.create header)

/-- Lines 180..183: the reader of the second copy, the scratch file behind
`hookCompress` when there is one. -/
def packReader (p : Prepared) : Reader := applyHook p.hookCompress p.ft.reader

/-- Lines 190..204: the result of a unit that packed `filename`. -/
def opDefinition (release : Release) (filename : Str) : OpDefinition :=
  { Path := "/releases/".toList ++ release.Name
    Type_ := "replace".toList
    Value := some
      { Name := release.Name
        Version := release.Version
        Url := "file://((".toList ++ DirVarName ++ "))/".toList ++ filename } }

/-- Lines 162..204, the critical section run without interruption: the result
and the archive as it is left. -/
def pack (env : Env) (release : Release) (p : Prepared) (z : ZipWriter) :
    (OpDefinition × Option Error) × ZipWriter :=
  match createEntry env p z with
  | .error err => ((OpDefinition.zero, some err), z)
  | .ok z1 =>
    let copied := ioCopy env.copyZip (packReader p)
    let z2 := ZipWriter.write z1 copied.1
    match copied.2 with
    | some err => ((OpDefinition.zero, some err), z2)
    | none => ((opDefinition release p.filename, none), z2)

/-- How a call of `DownloadAndCompress` ends: it returns, or it waits for ever
on `b.mux.Lock()`. -/
inductive Outcome where
  | returned (op : OpDefinition) (err : Option Error)
  | blocked
deriving DecidableEq, Repr

/-- The method `Manager.DownloadAndCompress` (lines 91..205), run without
interference from other units: lines 92..158, then `b.mux.Lock()`, the critical
section, and the deferred `b.mux.Unlock()` and removal of the temp file. -/
def DownloadAndCompress (env : Env) (release : Release)
    (hooks : Int → Option Hook × Option Hook) (w : World) : Outcome × World :=
  match fetch env release hooks w with
  | (.skip, w) => (.returned OpDefinition.zero none, w)
  | (.fail err, w) => (.returned OpDefinition.zero (some err), w)
  | (.ready p, w) =>
    if w.mux then (.blocked, w)
    else
      let w := { w with mux := true }
      let packed := pack env release p w.zip
      let w := { w with zip := packed.2, mux := false }
      (.returned packed.1.1 packed.1.2, w.removeTemp)

/-! ## `cmd/brd.go`: the worker pool -/

/-- The constant `defaultOpsFile`. -/
def defaultOpsFile : Str := "local-release.yml".toList

/-- The struct `Job`: a release (the progress bar is left out), here together
with what the outside world answers while its unit runs and with the result of
the closure `hooks` the worker builds for it (lines 166..180). -/
structure Job where
  release : Release
  env : Env
  hooks : Int → Option Hook × Option Hook

/-- The receiver `c` and the arguments of `runDownload`, with the answers of the
outside world to its last lines. -/
structure Config where
  /-- The field `c.Parallel`. -/
  Parallel : Int
  /-- The argument `releases`, one job each. -/
  releases : List Job
  /-- The result of `yaml.Marshal(opDefs)`, line 245. -/
  Marshal : List OpDefinition → Except Error Bytes
  /-- The error of `zipWriter.CreateHeader(fh)`, line 263. -/
  CreateHeader : Option Error
  /-- The error of `opsWriter.Write(opDefsYml)`, line 268. -/
  Write : Option Error

/-- The capacity of `jobsChan` (line 196). -/
def jobsCap : Nat := 10

/-- The capacity of `opDefChan` (line 195). -/
def opDefCap : Nat := 10

/-- The capacity of `c.errChan` (line 88). -/
def errCap : Nat := 1

/-- Where a worker goroutine stands. -/
inductive Worker where
  /-- At `for job := range jobs` (line 164), waiting for a job. -/
  | recv
  /-- In `DownloadAndCompress`, at `b.mux.Lock()` (brd.go line 160). -/
  | lock (release : Release) (env : Env) (p : Prepared)
  /-- Holding the mutex, before lines 162..178 of brd.go. -/
  | create (release : Release) (env : Env) (p : Prepared)
  /-- Holding the mutex, in `io.Copy(writer, reader)` (brd.go line 185): the
  bytes still to be written and the error the copy ends with. -/
  | copy (release : Release) (filename : Str) (rest : Bytes) (err : Option Error)
  /-- At `opDefChan <- opDef` (line 187). -/
  | sendOp (op : OpDefinition)
  /-- At `c.errChan <- ...` (line 184). -/
  | sendErr (err : Error)
  /-- Returned. -/
  | exit

/-- Where the goroutine of `runDownload` stands. -/
inductive Main where
  /-- In the loop of lines 225..227, `k` jobs sent so far. -/
  | enqueue (k : Nat)
  /-- In the loop of lines 231..241, at iteration `i`. -/
  | collect (i : Nat) (opDefs : List OpDefinition)
  /-- Returned, with the error returned. -/
  | returned (err : Option Error)
deriving DecidableEq, Repr

/-- What a unit does to the mutex and to the zip writer, tagged with the index
of the worker that runs the unit. -/
inductive Event where
  | lock (i : Nat)
  | create (i : Nat) (name : Str)
  | write (i : Nat) (bs : Bytes)
  | unlock (i : Nat)
deriving DecidableEq, Repr

/-- The state of a run of `runDownload`: the shared world, the three channels,
the goroutines, and the history of the units' operations on the mutex and the
zip writer. -/
structure State where
  world : World
  jobsChan : List Job
  closed : Bool
  opDefChan : List OpDefinition
  errChan : List Error
  workers : List Worker
  main : Main
  log : List Event

/-- Line 184: `fmt.Errorf("Errors on release '%s': %s", rel.Name, err.Error())`. -/
def releaseError (rel : Release) (err : Error) : Error :=
  "Errors on release '".toList ++ rel.Name ++ "': ".toList ++ err

/-- Lines 182..187 of the worker: where it goes with the result of the unit. -/
def Worker.deliver (rel : Release) (op : OpDefinition) (err : Option Error) : Worker :=
  match err with
  | some e => .sendErr (releaseError rel e)
  | none => .sendOp op

/-- One step of worker `i`; a worker that cannot move leaves the state as it is.
While copying, the worker writes the next `k + 1` bytes at most. -/
def workerStep (i k : Nat) (s : State) : State :=
  match s.workers[i]? with
  | none => s
  | some .recv =>
    match s.jobsChan with
    | job :: rest =>
      match fetch job.env job.release job.hooks s.world with
      | (.skip, w) =>
        { s with jobsChan := rest, world := w
                 workers := s.workers.set i (Worker.deliver job.release OpDefinition.zero none) }
      | (.fail err, w) =>
        { s with jobsChan := rest, world := w
                 workers := s.workers.set i
                   (Worker.deliver job.release OpDefinition.zero (some err)) }
      | (.ready p, w) =>
        { s with jobsChan := rest, world := w
                 workers := s.workers.set i (.lock job.release job.env p) }
    | [] => if s.closed then { s with workers := s.workers.set i .exit } else s
  | some (.lock rel env p) =>
    if s.world.mux then s
    else
      { s with world := { s.world with mux := true }
               workers := s.workers.set i (.create rel env p)
               log := s.log ++ [.lock i] }
  | some (.create rel env p) =>
    match createEntry env p s.world.zip with
    | .error err =>
      { s with world := { s.world with mux := false }.removeTemp
               workers := s.workers.set i (Worker.deliver rel OpDefinition.zero (some err))
               log := s.log ++ [.unlock i] }
    | .ok z =>
      let copied := ioCopy env.copyZip (packReader p)
      { s with world := { s.world with zip := z }
               workers := s.workers.set i (.copy rel p.filename copied.1 copied.2)
               log := s.log ++ [.create i p.filename] }
  | some (.copy rel filename rest err) =>
    match rest with
    | [] =>
      let res : OpDefinition × Option Error :=
        match err with
        | some e => (OpDefinition.zero, some e)
        | none => (opDefinition rel filename, none)
      { s with world := { s.world with mux := false }.removeTemp
               workers := s.workers.set i (Worker.deliver rel res.1 res.2)
               log := s.log ++ [.unlock i] }
    | b :: bs =>
      let chunk := (b :: bs).take (k + 1)
      { s with world := { s.world with zip := ZipWriter.write s.world.zip chunk }
               workers := s.workers.set i (.copy rel filename ((b :: bs).drop (k + 1)) err)
               log := s.log ++ [.write i chunk] }
  | some (.sendOp op) =>
    if s.opDefChan.length < opDefCap then
      { s with opDefChan := s.opDefChan ++ [op], workers := s.workers.set i .recv }
    else s
  | some (.sendErr err) =>
    if s.errChan.length < errCap then
      { s with errChan := s.errChan ++ [err], workers := s.workers.set i .exit }
    else s
  | some .exit => s

/-- Lines 250..261: the header of the patch document. -/
def patchHeader (opDefsYml : Bytes) : FileHeader :=
  let size64 := opDefsYml.length % 2 ^ 64
  { Name := defaultOpsFile
    Method := Deflate
    UncompressedSize64 := size64
    Mode := 0o666
    UncompressedSize := if size64 > (1 <<< 32) - 1 then (1 <<< 32) - 1 else size64 % 2 ^ 32 }

/-- Lines 245..270: the patch document is serialised and written as one more
entry.  The result is the error `runDownload` returns and the archive. -/
def writePatch (cfg : Config) (opDefs : List OpDefinition) (z : ZipWriter) :
    Option Error × ZipWriter :=
  match cfg.Marshal opDefs with
  | .error err => (some err, z)
  | .ok opDefsYml =>
    match cfg.CreateHeader with
    | some err => (some err, z)
    | none =>
      let z := z.create (patchHeader opDefsYml)
      match cfg.Write with
      | some err => (some err, z)
      | none => (none, ZipWriter.write z opDefsYml)

/-- One step of the goroutine of `runDownload`; when it cannot move the state is
left as it is.  In the `select` of line 232, `takeErr` tells which case is tried. -/
def mainStep (cfg : Config) (takeErr : Bool) (s : State) : State :=
  match s.main with
  | .enqueue k =>
    match cfg.releases[k]? with
    | some job =>
      if s.jobsChan.length < jobsCap then
        { s with jobsChan := s.jobsChan ++ [job], main := .enqueue (k + 1) }
      else s
    | none => { s with closed := true, main := .collect 0 [] }
  | .collect i opDefs =>
    if i < cfg.releases.length then
      if takeErr then
        match s.errChan with
        | err :: rest => { s with errChan := rest, main := .returned (some err) }
        | [] => s
      else
        match s.opDefChan with
        | opDef :: rest =>
          { s with opDefChan := rest, main := .collect (i + 1) (opDefs ++ [opDef]) }
        | [] => s
    else
      let written := writePatch cfg opDefs s.world.zip
      { s with world := { s.world with zip := written.2 }, main := .returned written.1 }
  | .returned _ => s

/-- Which goroutine moves next. -/
inductive Choice where
  | main
  | mainErr
  | worker (i k : Nat)
deriving DecidableEq, Repr

/-- One step of the run. -/
def step (cfg : Config) (c : Choice) (s : State) : State :=
  match c with
  | .main => mainStep cfg false s
  | .mainErr => mainStep cfg true s
  | .worker i k => workerStep i k s

/-- The state when the workers have been started (lines 193..223): an empty
archive, a free mutex, empty channels, `c.Parallel` workers waiting. -/
def State.init (cfg : Config) : State :=
  { world := ⟨[], false, [], 0, 0⟩
    jobsChan := []
    closed := false
    opDefChan := []
    errChan := []
    workers := List.replicate cfg.Parallel.toNat .recv
    main := .enqueue 0
    log := [] }

/-- The state a schedule leads to, from a given state. -/
def run (cfg : Config) (sched : List Choice) (s : State) : State :=
  sched.foldl (fun s c => step cfg c s) s

/-- The method `BrdCommand.runDownload` under a schedule. -/
def runDownload (cfg : Config) (sched : List Choice) : State :=
  run cfg sched (State.init cfg)

/-- Whether a worker is out of `for job := range jobs`: it has taken a job (or
has returned). -/
def Worker.busy : Worker → Bool
  | .recv => false
  | _ => true

/-- Whether a worker is between `b.mux.Lock()` and the deferred `b.mux.Unlock()`. -/
def Worker.holds : Worker → Bool
  | .create _ _ _ => true
  | .copy _ _ _ _ => true
  | _ => false

/-- What the history says of the mutex: free, taken by unit `i` that has not
created its entry yet, taken by unit `i` that has created its entry, or
`broken`: some operation came out of turn. -/
inductive Section where
  | free
  | taken (i : Nat)
  | writing (i : Nat)
  | broken
deriving DecidableEq, Repr

/-- How one operation of a unit moves the mutex: every operation on the zip
writer has to come from the unit that holds the mutex, the entry created first. -/
def Section.next : Section → Event → Section
  | .free, .lock i => .taken i
  | .taken h, .create i _ => if i = h then .writing h else .broken
  | .taken h, .unlock i => if i = h then .free else .broken
  | .writing h, .write i _ => if i = h then .writing h else .broken
  | .writing h, .unlock i => if i = h then .free else .broken
  | _, _ => .broken

/-- The history read from its start. -/
def Section.of (log : List Event) : Section := log.foldl Section.next .free

/-- The message of the integrity error (line 223). -/
def sha1Mismatch : Error := "SHA1 mismatch from download".toList

/-! ## Sample inputs -/

/-- No progress bars: both hooks are nil. -/
def noHooks : Int → Option Hook × Option Hook := fun _ => (none, none)

/-- The world before a run: an empty archive, a free mutex, nothing requested,
no temp file. -/
def World.fresh : World := ⟨[], false, [], 0, 0⟩

/-- A response 200 with the given body and no `Content-Disposition`. -/
def Response.ok (body : Bytes) : Response :=
  ⟨200, "200 OK".toList, [], body.length, ⟨body, none⟩⟩

/-- An outside world in which nothing fails: the URL has the path `path`, the
server answers 200 with `body`, the header `Content-Disposition` does not parse. -/
def Env.serving (path : Str) (body : Bytes) : Env :=
  { TempFile := none
    tempName := "brd_repo_dir123456".toList
    Get := .ok (Response.ok body)
    urlPath := path
    ParseMediaType := fun _ => none
    copyTemp := none
    hashRead := none
    Seek := none
    Stat := none
    InfoHeader := none
    CreateHeader := none
    copyZip := none }

/-- An outside world in which the HTTP client refuses the URL. -/
def Env.refusing (path : Str) : Env :=
  { Env.serving path [] with Get := .error "unsupported protocol scheme".toList }

/-- The release `name`, version 1.0, at https://example.org/<name>.tgz, without
checksum. -/
def Release.sample (name : Str) : Release :=
  ⟨"https://example.org/".toList ++ name ++ ".tgz".toList, [], name, "1.0".toList⟩

/-- A job whose unit succeeds: the server answers 200 with a body of three bytes. -/
def Job.good (name : Str) : Job :=
  ⟨Release.sample name, Env.serving ('/' :: name ++ ".tgz".toList) [1, 2, 3], noHooks⟩

/-- A job whose unit fails: the server answers 404. -/
def Job.bad (name : Str) : Job :=
  ⟨Release.sample name,
   { Env.serving ('/' :: name ++ ".tgz".toList) [] with
     Get := .ok ⟨404, "404 Not Found".toList, [], 0, ⟨[], none⟩⟩ },
   noHooks⟩

/-- The names r0, r1, ... of `n` sample releases. -/
def sampleNames (n : Nat) : List Str := (List.range n).map (fun i => 'r' :: (Nat.repr i).toList)

/-- A stand-in for `yaml.Marshal`: one line per fragment, holding its path. -/
def sampleMarshal (opDefs : List OpDefinition) : Except Error Bytes :=
  .ok (opDefs.flatMap (fun op => op.Path.map Char.toNat ++ [10]))

/-- A run with `p` workers over the given jobs in which the patch document is
written without error. -/
def Config.sample (p : Int) (jobs : List Job) : Config :=
  ⟨p, jobs, sampleMarshal, none, none⟩

/-- Three workers, 24 releases whose units all succeed. -/
def config24 : Config := Config.sample 3 ((sampleNames 24).map Job.good)

/-- Three workers, 24 releases; the unit of the first one fails, the others succeed. -/
def config24bad : Config :=
  Config.sample 3 (Job.bad "r0".toList :: ((sampleNames 24).drop 1).map Job.good)

/-- Three workers, 5 releases whose units all succeed. -/
def config5 : Config := Config.sample 3 ((sampleNames 5).map Job.good)

/-- The moves of worker `i` through one unit that succeeds: it takes the job,
takes the mutex, creates the entry, writes the three bytes, ends the copy and
sends the result. -/
def Choice.unit (i : Nat) : List Choice := List.replicate 6 (.worker i 2)

/-- A schedule for `config5`: the five jobs are sent and the channel closed; the
three workers take a job each; worker 1 packs first, then workers 0 and 2;
workers 0 and 1 run the two jobs left; `runDownload` collects and writes the
patch document. -/
def schedule5 : List Choice :=
  List.replicate 6 .main
    ++ [.worker 0 2, .worker 1 2, .worker 2 2]
    ++ List.replicate 5 (.worker 1 2) ++ List.replicate 5 (.worker 0 2)
    ++ List.replicate 5 (.worker 2 2)
    ++ Choice.unit 0 ++ Choice.unit 1
    ++ List.replicate 6 .main

/-- A schedule for `config24`: ten jobs are sent; ten times worker 0 runs a unit
and one more job is sent; then each of the three workers runs a unit up to the
point where it has to send its result, one more job being sent each time. -/
def schedule24 : List Choice :=
  List.replicate 10 .main
    ++ (List.replicate 10 (Choice.unit 0 ++ [.main])).flatten
    ++ List.replicate 5 (.worker 0 2) ++ [.main]
    ++ List.replicate 5 (.worker 1 2) ++ [.main]
    ++ List.replicate 5 (.worker 2 2) ++ [.main]

/-- Whether a worker stands at `opDefChan <- opDef`. -/
def Worker.sending : Worker → Bool
  | .sendOp _ => true
  | _ => false

/-- Whether a call of `DownloadAndCompress` returned without error. -/
def Outcome.succeeded : Outcome → Bool
  | .returned _ none => true
  | _ => false

/-- A schedule for `config24bad`: ten jobs are sent, worker 0 takes the first
one, its unit fails, and the worker sends the error and returns. -/
def schedule24bad : List Choice :=
  List.replicate 10 .main ++ [.worker 0 0, .worker 0 0]


/-- Progress bars that hand their reader back as it is. -/
def idHooks : Int → Option Hook × Option Hook := fun _ => (some id, some id)

/-- The answer 404 with an empty body. -/
def Response.notFound : Response := ⟨404, "404 Not Found".toList, [], 0, ⟨[], none⟩⟩

/-- The answer 302 with the given body. -/
def Response.found (body : Bytes) : Response :=
  ⟨302, "302 Found".toList, [], body.length, ⟨body, none⟩⟩

/-- An outside world in which nothing fails and the server answers 302 with `body`. -/
def Env.found (path : Str) (body : Bytes) : Env :=
  { Env.serving path body with Get := .ok (Response.found body) }
/-! ## Invariants of a run -/

/-- The state of a run in which `runDownload` is still in the loop of lines
225..227: the job channel is open, the channels are within their capacity, and
each job sent so far is in the job channel, or with a worker that has left
`range jobs`, or has its result in `opDefChan`. -/
def State.sending (cfg : Config) (s : State) : Prop :=
  ∃ k, s.main = .enqueue k ∧ s.closed = false ∧
    s.jobsChan.length ≤ jobsCap ∧ s.opDefChan.length ≤ opDefCap ∧
    s.workers.length = cfg.Parallel.toNat ∧
    k = s.jobsChan.length + s.opDefChan.length + s.workers.countP Worker.busy

/-- How far a worker is into the critical section: 0 outside, 1 with the mutex
and no entry yet, 2 with the mutex and its entry created. -/
def Worker.phase : Worker → Nat
  | .create _ _ _ => 1
  | .copy _ _ _ _ => 2
  | _ => 0

/-- How far the history says worker `j` is into the critical section. -/
def Section.phase : Section → Nat → Nat
  | .taken i, j => if i = j then 1 else 0
  | .writing i, j => if i = j then 2 else 0
  | _, _ => 0

/-- The worker that holds the mutex according to the history. -/
def Section.holder : Section → Option Nat
  | .taken i => some i
  | .writing i => some i
  | _ => none

/-- The mutex, the workers and the history agree: no operation came out of turn,
the mutex is locked exactly when the history has an open section, the holder
is one of the workers, and each worker is as far into the critical section as
the history says. -/
def Exclusive (mux : Bool) (workers : List Worker) (log : List Event) : Prop :=
  Section.of log ≠ .broken ∧
  (mux = true ↔ Section.of log ≠ .free) ∧
  (∀ i, (Section.of log).holder = some i → i < workers.length) ∧
  ∀ j w, workers[j]? = some w → w.phase = (Section.of log).phase j

/-- Whether the unit of a job, run alone on an empty archive, ends without error. -/
def Job.succeeds (job : Job) : Bool :=
  (DownloadAndCompress job.env job.release job.hooks World.fresh).1.succeeded

/-- The results a worker is about to deliver: 1 when the unit it runs ends, or
has ended, without error, 0 otherwise. -/
def Worker.promise : Worker → Nat
  | .lock rel env p => if (pack env rel p []).1.2 = none then 1 else 0
  | .create rel env p => if (pack env rel p []).1.2 = none then 1 else 0
  | .copy _ _ _ err => if err = none then 1 else 0
  | .sendOp _ => 1
  | _ => 0

/-- The results the workers are about to deliver. -/
def promises (workers : List Worker) : Nat := (workers.map Worker.promise).sum

/-- The books of a run in which `sent` jobs have been sent and `i` results
collected: the job channel holds the jobs sent and not yet taken, `t` jobs have
been taken, and the results collected, waiting in `opDefChan` or about to be
delivered are as many as the units that end without error among the jobs taken. -/
def Counted (cfg : Config) (s : State) (sent i : Nat) : Prop :=
  sent ≤ cfg.releases.length ∧
  ∃ t, t ≤ sent ∧ s.jobsChan = (cfg.releases.take sent).drop t ∧
    i + s.opDefChan.length + promises s.workers = (cfg.releases.take t).countP Job.succeeds

/-- The invariant of a run behind its results: the books are kept while
`runDownload` sends and collects, the fragments collected are as many as the
iterations done, and `runDownload` has returned no error only if every unit
ends without error. -/
def State.accounted (cfg : Config) (s : State) : Prop :=
  match s.main with
  | .enqueue k => Counted cfg s k 0
  | .collect i opDefs => Counted cfg s cfg.releases.length i ∧ opDefs.length = i
  | .returned none => cfg.releases.all Job.succeeds = true
  | .returned (some _) => True

/-- The error `e` names a release of the run whose unit ends with an error:
it is "Errors on release '<name>': <cause>" for such a release. -/
def Blames (cfg : Config) (e : Error) : Prop :=
  ∃ job ∈ cfg.releases, job.succeeds = false ∧ ∃ cause, e = releaseError job.release cause

/-- What a worker holds comes from a job of the run: the unit it runs is the
unit of such a job, an error it met or is about to send is the error of a
unit that fails. -/
def Worker.sound (cfg : Config) : Worker → Prop
  | .lock rel env p => ∃ job ∈ cfg.releases, job.release = rel ∧ job.env = env ∧
      (fetch job.env job.release job.hooks World.fresh).1 = .ready p
  | .create rel env p => ∃ job ∈ cfg.releases, job.release = rel ∧ job.env = env ∧
      (fetch job.env job.release job.hooks World.fresh).1 = .ready p
  | .copy rel _ _ err => ∃ job ∈ cfg.releases, job.release = rel ∧
      (err ≠ none → job.succeeds = false)
  | .sendErr e => Blames cfg e
  | _ => True

/-- The invariant of a run behind its errors: the jobs in the channel are jobs of
the run, the workers are sound, the errors in the channel blame a unit that
fails, and so does an error `runDownload` has returned, unless every unit
ends without error (the error then comes from the patch document). -/
def State.blamed (cfg : Config) (s : State) : Prop :=
  (∀ job ∈ s.jobsChan, job ∈ cfg.releases) ∧
  (∀ (j : Nat) (w : Worker), s.workers[j]? = some w → w.sound cfg) ∧
  (∀ e ∈ s.errChan, Blames cfg e) ∧
  (∀ e, s.main = .returned (some e) → Blames cfg e ∨ cfg.releases.all Job.succeeds = true)

/-- Whether a worker is inside `DownloadAndCompress`, past lines 92..158. -/
def Worker.inUnit : Worker → Bool
  | .lock _ _ _ => true
  | .create _ _ _ => true
  | .copy _ _ _ _ => true
  | _ => false

/-- Worker `i` moves alone, at most `n` times, until it is out of
`DownloadAndCompress`. -/
def solo (i k : Nat) : Nat → State → State
  | 0, s => s
  | n + 1, s =>
    match s.workers[i]? with
    | some w => if w.inUnit then solo i k n (workerStep i k s) else s
    | none => s


/-! ## The names of the entries -/

/-- The names of the entries of an archive, in the order of their creation. -/
def ZipWriter.names (z : ZipWriter) : List Str := z.map (fun e => e.header.Name)

/-- The name under which the unit of a job creates its entry, when it gets as far as
line 160: the file name of lines 115..133. -/
def Job.entryName (job : Job) : Option Str :=
  match (fetch job.env job.release job.hooks World.fresh).1 with
  | .ready p => some p.filename
  | _ => none

/-- The entries of name `a` a worker has still to create: one when it is between line
160 and `CreateHeader` with that file name. -/
def Worker.pending (a : Str) : Worker → Nat
  | .lock _ _ p => if p.filename = a then 1 else 0
  | .create _ _ p => if p.filename = a then 1 else 0
  | _ => 0

/-- The entries of name `a` the workers have still to create. -/
def pendings (a : Str) (workers : List Worker) : Nat := (workers.map (Worker.pending a)).sum

/-- The entries of name `a` that `runDownload` itself may have created: the patch
document, once it has returned. -/
def Main.patched (a : Str) : Main → Nat
  | .returned _ => if defaultOpsFile = a then 1 else 0
  | _ => 0

/-- The invariant of a run behind the names of its entries: `t` jobs have been taken
from the channel, and the entries of each name, created or still to be created, are no
more than the jobs taken that resolve to that name, plus the patch document. -/
def State.named (cfg : Config) (s : State) : Prop :=
  ∃ sent t, sent ≤ cfg.releases.length ∧ t ≤ sent ∧ (∀ k, s.main = .enqueue k → sent = k) ∧
    s.jobsChan = (cfg.releases.take sent).drop t ∧
    ∀ a, s.world.zip.names.count a + pendings a s.workers
      ≤ ((cfg.releases.take t).filterMap Job.entryName).count a + s.main.patched a

/-- One worker, the release r0 twice. -/
def configTwice : Config := Config.sample 1 [Job.good "r0".toList, Job.good "r0".toList]

/-- A release without name and version whose file is called like the patch document. -/
def Job.patchNamed : Job :=
  ⟨⟨"https://example.org/local-release.yml".toList, [], [], []⟩,
   Env.serving "/local-release.yml".toList [1, 2, 3], noHooks⟩

/-- One worker, one release whose file is called like the patch document. -/
def configPatchNamed : Config := Config.sample 1 [Job.patchNamed]

/-- A schedule for one worker and `n` releases whose units succeed: the jobs are sent
and the channel closed, the worker runs the units one after the other, the results
are collected and the patch document is written. -/
def scheduleOne (n : Nat) : List Choice :=
  List.replicate (n + 1) .main ++ (List.replicate n (Choice.unit 0)).flatten
    ++ List.replicate (n + 1) .main
/-! ## Go standard library: `strings.Split`, `strings.TrimSpace`, `strings.Join`, UTF-8 -/

/-- Go `strings.Split(s, sep)` for a separator of one character: the pieces between
the occurrences of `sep`, one more than there are occurrences. -/
def Split : Str → Char → List Str
  | [], _ => [[]]
  | c :: s, sep =>
    if c = sep then [] :: Split s sep
    else
      match Split s sep with
      | [] => [[c]]
      | piece :: pieces => (c :: piece) :: pieces

/-- Go `unicode.IsSpace`: the characters with the Unicode property White_Space. -/
def IsSpace (c : Char) : Bool :=
  let r := c.toNat
  (0x09 ≤ r && r ≤ 0x0d) || r == 0x20 || r == 0x85 || r == 0xa0 || r == 0x1680 ||
    (0x2000 ≤ r && r ≤ 0x200a) || r == 0x2028 || r == 0x2029 || r == 0x202f ||
    r == 0x205f || r == 0x3000

/-- Go `strings.TrimSpace(s)`: `s` without its leading and trailing white space. -/
def TrimSpace (s : Str) : Str :=
  ((s.dropWhile IsSpace).reverse.dropWhile IsSpace).reverse

/-- Go `strings.Join(elems, " ")`. -/
def Join (elems : List Str) : Str := List.intercalate [' '] elems

/-- The UTF-8 encoding of one character. -/
def utf8Char (c : Char) : Bytes :=
  let r := c.toNat
  if r ≤ 0x7f then [r]
  else if r ≤ 0x7ff then [0xc0 + r / 64, 0x80 + r % 64]
  else if r ≤ 0xffff then [0xe0 + r / 4096, 0x80 + r / 64 % 64, 0x80 + r % 64]
  else [0xf0 + r / 262144, 0x80 + r / 4096 % 64, 0x80 + r / 64 % 64, 0x80 + r % 64]

/-- The bytes of a Go string: `len(s)` is the length of this list and `s[i]` its
element `i`. -/
def utf8 (s : Str) : Bytes := s.flatMap utf8Char

/-- Go `string(b)` for a byte `b`: the string of the one character with that code. -/
def byteString (b : Nat) : Str := [Char.ofNat b]

/-- The Go string of one double quote. -/
def doubleQuote : Str := [Char.ofNat 0x22]

/-- The Go string of one single quote. -/
def singleQuote : Str := [Char.ofNat 0x27]

/-! ## `commander/command_runner.go`: the arguments of a command -/

/-- The variables of the loop of `createCommandSlice`. -/
structure Slicer where
  finalCommands : List Str
  text : Str
  identifier : Str
deriving DecidableEq, Repr

/-- The test `len(splitCommand) > 1 && string(splitCommand[len(splitCommand)-1]) == identifier`
of `createCommandSlice`; `none` is the run-time panic of an index out of range. -/
def closing (splitCommand identifier : Str) : Option Bool :=
  if (utf8 splitCommand).length > 1 then
    match (utf8 splitCommand)[(utf8 splitCommand).length - 1]? with
    | none => none
    | some b => some (byteString b == identifier)
  else some false

/-- The body of the loop of `createCommandSlice` after the piece has been trimmed;
`none` is the run-time panic of an index out of range. -/
def sliceStep (st : Slicer) (splitCommand : Str) : Option Slicer :=
  if !HasPrefix splitCommand doubleQuote && !HasPrefix splitCommand singleQuote
      && st.text == [] then
    some { st with finalCommands := st.finalCommands ++ [splitCommand] }
  else
    let opened : Option Slicer :=
      if st.identifier == [] then
        match (utf8 splitCommand)[0]? with
        | none => none
        | some b => some { st with identifier := byteString b, text := splitCommand }
      else
        some { st with text := st.text ++ ' ' :: splitCommand }
    match opened with
    | none => none
    | some st =>
      match closing splitCommand st.identifier with
      | none => none
      | some true =>
        some { finalCommands := st.finalCommands ++ [st.text], text := [], identifier := [] }
      | some false => some st

/-- The loop of `createCommandSlice` over pieces that are already trimmed. -/
def sliceTokens : List Str → Slicer → Option Slicer
  | [], st => some st
  | splitCommand :: rest, st =>
    match sliceStep st splitCommand with
    | none => none
    | some st => sliceTokens rest st

/-- The loop of `createCommandSlice` over the pieces of the command: each is trimmed
and handed to the body. -/
def sliceLoop : List Str → Slicer → Option Slicer
  | [], st => some st
  | raw :: rest, st =>
    match sliceStep st (TrimSpace raw) with
    | none => none
    | some st => sliceLoop rest st

/-- Go `CommandRunner.createCommandSlice(command)`: `none` if the run panics. -/
def createCommandSlice (command : Str) : Option (List Str) :=
  (sliceLoop (Split command ' ') ⟨[], [], []⟩).map Slicer.finalCommands

/-- The pieces of a command as the loop sees them: split at the spaces, each trimmed. -/
def tokens (command : Str) : List Str := (Split command ' ').map TrimSpace

/-- A piece opens a quoted group: it starts with a double or a single quote. -/
def opensGroup (t : Str) : Bool := HasPrefix t doubleQuote || HasPrefix t singleQuote

/-- The closing test of the loop seen on characters: the piece has more than one
character and ends in the quote `q`. -/
def closesGroup (q : Char) (t : Str) : Bool :=
  decide (t.length > 1) && t.getLast? == some q

/-- The pieces of a group of the quote `q` from some piece on: none closes the group
but the last one, which does. -/
def closedBy (q : Char) : List Str → Bool
  | [] => false
  | t :: ts => if ts.isEmpty then closesGroup q t else !closesGroup q t && closedBy q ts

/-- A block of pieces that the loop turns into one argument: one piece outside any
quotes, or a group from an opening piece to the first piece that passes the closing
test for its quote. -/
def IsBlock : List Str → Bool
  | [] => false
  | t :: ts =>
    if opensGroup t then
      match t.head? with
      | none => false
      | some q => closedBy q (t :: ts)
    else ts.isEmpty

/-- The pieces each with a space in front, end to end. -/
def spaced (ts : List Str) : Str := ts.flatMap (fun t => ' ' :: t)

/-- The loop is outside any group or inside the group of one quote. -/
def Slicer.ok (st : Slicer) : Prop :=
  (st.text = [] ∧ st.identifier = []) ∨
    (st.text ≠ [] ∧ (st.identifier = doubleQuote ∨ st.identifier = singleQuote))

/-- The command `echo " hi "`: the quotes stand alone between spaces. -/
def loneQuoteCommand : Str := "echo ".toList ++ doubleQuote ++ " hi ".toList ++ doubleQuote

/-- The command `echo "hi "`: the closing quote stands alone after a space. -/
def trailingQuoteCommand : Str := "echo ".toList ++ doubleQuote ++ "hi ".toList ++ doubleQuote

/-- The command `echo "a b" c`. -/
def quotedCommand : Str := "echo ".toList ++ doubleQuote ++ "a b".toList ++ doubleQuote ++ " c".toList

/-- The blocks of `quotedCommand`. -/
def quotedBlocks : List (List Str) :=
  [["echo".toList], [doubleQuote ++ "a".toList, "b".toList ++ doubleQuote], ["c".toList]]

/-! ## `commander/command_runner.go`: running a script on the directors -/

set_option linter.dupNamespace false in
/-- The fields of `commander.Script` that `Run` reads after the instances are found;
`Script` and `AfterAll` hold the contents of the arrays behind the two slices. -/
structure Script where
  Sudo : Bool
  Script : List Str
  AfterAll : List Str
deriving DecidableEq, Repr

/-- What `runner.Run` of the SSH provider answers: success, an `ssh.ErrCommandSsh`,
or another error. -/
inductive RunnerResult where
  | ok
  | commandErr
  | err (e : Error)
deriving DecidableEq, Repr

/-- What one instance answers to `RunCommandByInstance`. -/
structure BoshSshInstance where
  IsRunning : Bool
  NewSSHOpts : Option Error
  SetUpSSH : Option Error
  runnerRun : List Str → RunnerResult

/-- What one director answers to `Run`. -/
structure BoshDirector where
  GenerateDirector : Option Error
  FindBoshSshInstances : Except Error (List BoshSshInstance)

/-- The argument lists handed to `runner.Run`, in order. -/
abbrev Sent := List (List Str)

/-- How a call ends: with a run-time panic or by returning its error value. -/
inductive Ran where
  | panic
  | returned (err : Option Error)
deriving DecidableEq, Repr

/-- A `CommandRunner`: `boshCommanderScript` is the script its pointer refers to. -/
structure CommandRunner where
  boshCommanderScript : Script
deriving DecidableEq, Repr

/-- Go `NewCommandRunner(boshCommanderScript, loggerBosh)`. -/
def NewCommandRunner (boshCommanderScript : Script) : CommandRunner := ⟨boshCommanderScript⟩

/-- Go `CommandRunner.privilegeIfNeeded(commands)`: the contents of the array behind
`commands` when the call returns.  The loop assigns `commands[i]` in place and the
slice returned is `commands` itself, so this is both the result and the new contents
of the caller's slice. -/
def privilegeIfNeeded (a : CommandRunner) (commands : List Str) : List Str :=
  if !a.boshCommanderScript.Sudo || commands.length == 0 then commands
  else commands.map (fun command => "sudo ".toList ++ command)

/-- The loop over the commands in `RunCommandByInstance`. -/
def runCommands (boshSshInstance : BoshSshInstance) : List Str → Sent → Ran × Sent
  | [], sent => (.returned none, sent)
  | command :: rest, sent =>
    match createCommandSlice command with
    | none => (.panic, sent)
    | some args =>
      match boshSshInstance.runnerRun args with
      | .ok => runCommands boshSshInstance rest (sent ++ [args])
      | .commandErr => (.returned none, sent ++ [args])
      | .err e => (.returned (some e), sent ++ [args])

/-- Go `CommandRunner.RunCommandByInstance(boshSshInstance, commands, connOpts)`. -/
def RunCommandByInstance (boshSshInstance : BoshSshInstance) (commands : List Str)
    (sent : Sent) : Ran × Sent :=
  if !boshSshInstance.IsRunning then (.returned none, sent)
  else
    match boshSshInstance.NewSSHOpts with
    | some err => (.returned (some err), sent)
    | none =>
      match boshSshInstance.SetUpSSH with
      | some err => (.returned (some err), sent)
      | none => runCommands boshSshInstance commands sent

/-- Go `CommandRunner.RunCommandByInstances(boshSshInstances, commands, connOpts)`. -/
def RunCommandByInstances : List BoshSshInstance → List Str → Sent → Ran × Sent
  | [], _, sent => (.returned none, sent)
  | boshSshInstance :: rest, commands, sent =>
    match RunCommandByInstance boshSshInstance commands sent with
    | (.returned none, sent) => RunCommandByInstances rest commands sent
    | stopped => stopped

/-- Go `CommandRunner.Run(director)`: how the call ends, the runner afterwards (its
script is written by `privilegeIfNeeded`) and what was sent to the instances. -/
def Run (a : CommandRunner) (director : BoshDirector) : Ran × CommandRunner × Sent :=
  match director.GenerateDirector with
  | some err => (.returned (some err), a, [])
  | none =>
    match director.FindBoshSshInstances with
    | .error err => (.returned (some err), a, [])
    | .ok boshSshInstances =>
      let scripts := privilegeIfNeeded a a.boshCommanderScript.Script
      let a : CommandRunner := ⟨{ a.boshCommanderScript with Script := scripts }⟩
      let afterAll := privilegeIfNeeded a a.boshCommanderScript.AfterAll
      let a : CommandRunner := ⟨{ a.boshCommanderScript with AfterAll := afterAll }⟩
      match RunCommandByInstances boshSshInstances scripts [] with
      | (.returned none, sent) =>
        if afterAll.length == 0 then (.returned none, a, sent)
        else
          let (ran, sent) := RunCommandByInstances boshSshInstances afterAll sent
          (ran, a, sent)
      | (stopped, sent) => (stopped, a, sent)

/-- The loop of `CommanderCommand.Execute` over the environments, each given as the
answer of `FindByNameOrUrl`: an error of `runOnEnv` is logged and the loop goes on.
The result is what was sent to each environment, the runner at the end, and whether
a call panicked. -/
def runOnEnvs : CommandRunner → List (Except Error BoshDirector) →
    List Sent × CommandRunner × Bool
  | cmdRunner, [] => ([], cmdRunner, false)
  | cmdRunner, .error _ :: rest =>
    let (sents, cmdRunner, panicked) := runOnEnvs cmdRunner rest
    ([] :: sents, cmdRunner, panicked)
  | cmdRunner, .ok director :: rest =>
    match Run cmdRunner director with
    | (.panic, cmdRunner, sent) => ([sent], cmdRunner, true)
    | (.returned _, cmdRunner, sent) =>
      let (sents, cmdRunner, panicked) := runOnEnvs cmdRunner rest
      (sent :: sents, cmdRunner, panicked)

/-- An instance that is running and accepts every command. -/
def BoshSshInstance.up : BoshSshInstance :=
  { IsRunning := true, NewSSHOpts := none, SetUpSSH := none, runnerRun := fun _ => .ok }

/-- A director with one instance that is up. -/
def BoshDirector.up : BoshDirector :=
  { GenerateDirector := none, FindBoshSshInstances := .ok [BoshSshInstance.up] }

/-- The script `ls` with `id` after all, in privileged mode. -/
def Script.sample : Bopt.Script :=
  { Sudo := true, Script := ["ls".toList], AfterAll := ["id".toList] }
/-! ## `cmd/brd.go`: the variables of the command line -/

/-- Go `strings.SplitN(s, sep, 2)` for a separator of one character: `s` itself
when it has no separator, else what stands before the first separator and what
stands after it. -/
def SplitN2 (s : Str) (sep : Char) : List Str :=
  match s.span (fun c => c != sep) with
  | (a, []) => [a]
  | (a, _ :: b) => [a, b]

/-- The map `varsKv` of `convertVarsKV`, a `map[string]interface{}` whose values
are strings: the assignments made, the latest first. -/
abbrev VarsMap := List (Str × Str)

/-- The assignment `varsKv[k] = v`. -/
def VarsMap.set (m : VarsMap) (k v : Str) : VarsMap := (k, v) :: m

/-- The value `varsKv[k]`: the one assigned last. -/
def VarsMap.get (m : VarsMap) (k : Str) : Option Str := m.lookup k

/-- The loop of `convertVarsKV` (lines 276..289), from the map built so far. -/
def convertVarsLoop : List Str → VarsMap → VarsMap × Option Error
  | [], varsKv => (varsKv, none)
  | kvRaw :: rest, varsKv =>
    let pieces := SplitN2 kvRaw '='
    if pieces.length ≠ 2 then
      (varsKv, some ("Expected var '".toList ++ kvRaw
        ++ "' to be in format 'name=path'".toList))
    else if (pieces.getD 0 []).length = 0 then
      (varsKv, some ("Expected var '".toList ++ kvRaw
        ++ "' to specify non-empty name".toList))
    else if (pieces.getD 1 []).length = 0 then
      (varsKv, some ("Expected var '".toList ++ kvRaw
        ++ "' to specify non-empty path".toList))
    else convertVarsLoop rest (varsKv.set (pieces.getD 0 []) (pieces.getD 1 []))

/-- The function `convertVarsKV` (lines 273..291): the map and the error returned. -/
def convertVarsKV (kvRawSlice : List Str) : VarsMap × Option Error :=
  convertVarsLoop kvRawSlice []

/-- An entry `name=value` with a name and a value: it has a `=`, something
before the first `=` and something after it. -/
def WellFormedVar (kvRaw : Str) : Prop :=
  ∃ name value : Str, kvRaw = name ++ '=' :: value ∧ name ≠ [] ∧ '=' ∉ name ∧ value ≠ []

/-- The name of an entry: what stands before its first `=`. -/
def varName (kvRaw : Str) : Str := kvRaw.takeWhile (fun c => c != '=')

/-- The value of an entry: all that stands after its first `=`. -/
def varValue (kvRaw : Str) : Str := (kvRaw.dropWhile (fun c => c != '=')).drop 1

/-- The three errors of `convertVarsKV` for an entry. -/
def varErrors (kvRaw : Str) : List Error :=
  ["Expected var '".toList ++ kvRaw ++ "' to be in format 'name=path'".toList,
   "Expected var '".toList ++ kvRaw ++ "' to specify non-empty name".toList,
   "Expected var '".toList ++ kvRaw ++ "' to specify non-empty path".toList]

/-! ## `cmd/brd.go`: `BrdCommand.Execute` -/

/-- The receiver `c` of `Execute` with the answers of the outside world to the lines
before and inside `runDownload`. -/
structure BrdCommand where
  /-- The field `c.Parallel`. -/
  Parallel : Int
  /-- The field `c.VarKVs`. -/
  VarKVs : List Str
  /-- Lines 93..120: the releases of the manifest, once the ops-files are applied and
  the output file is created, or the error of `yaml.Unmarshal` or of `createFile`. -/
  load : VarsMap → Except Error (List Job)
  /-- The result of `yaml.Marshal(opDefs)`, line 245. -/
  Marshal : List OpDefinition → Except Error Bytes
  /-- The error of `zipWriter.CreateHeader(fh)`, line 263. -/
  CreateHeader : Option Error
  /-- The error of `opsWriter.Write(opDefsYml)`, line 268. -/
  Write : Option Error

/-- The receiver as `runDownload` sees it, with its argument `releases`. -/
def BrdCommand.config (c : BrdCommand) (releases : List Job) : Config :=
  ⟨c.Parallel, releases, c.Marshal, c.CreateHeader, c.Write⟩

/-- Go `BrdCommand.Execute` under a schedule of the goroutines: an error of the lines
before `runDownload`, or the state `runDownload` is in at the end of the schedule. -/
def Execute (c : BrdCommand) (sched : List Choice) : Except Error State :=
  let c := if c.Parallel ≤ 0 then { c with Parallel := 3 } else c
  match convertVarsKV c.VarKVs with
  | (_, some err) => .error err
  | (varsKv, none) =>
    match c.load varsKv with
    | .error err => .error err
    | .ok releases => .ok (runDownload (c.config releases) sched)

/-- A command line with parallelism `p` over five releases whose units all succeed. -/
def BrdCommand.sample (p : Int) : BrdCommand :=
  ⟨p, ["a=b".toList], fun _ => .ok ((sampleNames 5).map Job.good), sampleMarshal, none, none⟩

/-! ## The fetch-verify-pack unit -/

theorem sha1Sum_abc :
    hexLower (sha1Sum [97, 98, 99]) = "a9993e364706816aba3e25717850c26c9cd0d89d".toList := by
  decide!

theorem sha1Sum_two_blocks :
    hexLower (sha1Sum
      ("abcdbcdecdefdefgefghfghighijhijkijkljklmklmnlmnomnopnopq".toList.map Char.toNat))
      = "84983e441c3bd26ebaae4aa1f95129e5e54670f1".toList := by
  decide!

theorem checkSha1_fst (readErr : Option Error) (ft : File) (s : Str) :
    (checkSha1 readErr ft s).1 =
      if s = [] then none
      else match readErr with
        | some err => some err
        | none => if s ≠ hexLower (sha1Sum ft.data) then some sha1Mismatch else none := by
  unfold checkSha1
  by_cases hs : s = []
  · simp [hs]
  · cases readErr with
    | some err => simp [hs, File.rewind, File.readAll]
    | none =>
      by_cases hh : s = hexLower (sha1Sum ft.data)
      · simp [hs, ← hh, File.rewind, File.readAll]
      · simp [hs, hh, File.rewind, File.readAll, sha1Mismatch]

/-- C1: when the scratch file is read without error, `checkSha1` succeeds if and
only if the expected checksum is empty or is the lowercase hex encoding of the
SHA-1 of the file content; in every other case the error is
"SHA1 mismatch from download".  The digest of "abc" is accepted in lowercase and
rejected in uppercase. -/
theorem checkSha1_accepts_iff (ft : File) (s : Str) :
    ((checkSha1 none ft s).1 = none ↔ (s = [] ∨ s = hexLower (sha1Sum ft.data))) ∧
    ((checkSha1 none ft s).1 ≠ none → (checkSha1 none ft s).1 = some sha1Mismatch) ∧
    (checkSha1 none ⟨[97, 98, 99], 3⟩ "a9993e364706816aba3e25717850c26c9cd0d89d".toList).1
      = none ∧
    (checkSha1 none ⟨[97, 98, 99], 3⟩ "A9993E364706816ABA3E25717850C26C9CD0D89D".toList).1
      = some "SHA1 mismatch from download".toList := by
  refine ⟨?_, ?_, ?_, ?_⟩
  · rw [checkSha1_fst]
    by_cases hs : s = []
    · simp [hs]
    · by_cases hh : s = hexLower (sha1Sum ft.data) <;> simp [hs, hh]
  · rw [checkSha1_fst]
    by_cases hs : s = []
    · simp [hs]
    · by_cases hh : s = hexLower (sha1Sum ft.data) <;> simp [hs, hh]
  · rw [checkSha1_fst, sha1Sum_abc]; decide
  · rw [checkSha1_fst, sha1Sum_abc]; decide

theorem ZipWriter.write_create (z : ZipWriter) (e : Entry) (bs : Bytes) :
    ZipWriter.write (z ++ [e]) bs = z ++ [⟨e.header, e.data ++ bs⟩] := by
  induction z with
  | nil => rfl
  | cons a z ih =>
    cases z with
    | nil => rfl
    | cons b z => simpa [ZipWriter.write] using ih

theorem fetch_skip (env : Env) (release : Release) (hooks : Int → Option Hook × Option Hook)
    (w : World) (h : HasPrefix release.URL "http".toList = false) :
    fetch env release hooks w = (.skip, w) := by
  unfold fetch
  rw [h]
  rfl

theorem fetch_http (env : Env) (release : Release) (hooks : Int → Option Hook × Option Hook)
    (w : World) (h : HasPrefix release.URL "http".toList = true) :
    fetch env release hooks w =
      match env.TempFile with
      | some err => (.fail err, w)
      | none =>
        match download env release hooks with
        | .error err =>
          (.fail err, { w with requests := w.requests ++ [release.URL]
                               tempCreated := w.tempCreated + 1 })
        | .ok p =>
          (.ready p, { w with requests := w.requests ++ [release.URL]
                              tempCreated := w.tempCreated + 1
                              tempLive := w.tempLive + 1 }) := by
  unfold fetch
  rw [h]
  cases env.TempFile with
  | some e => rfl
  | none =>
    cases download env release hooks with
    | error e => simp [World.removeTemp]
    | ok p => rfl

theorem fetch_shared (env : Env) (release : Release) (hooks : Int → Option Hook × Option Hook)
    (w : World) :
    (fetch env release hooks w).2.zip = w.zip ∧ (fetch env release hooks w).2.mux = w.mux := by
  cases h : HasPrefix release.URL "http".toList with
  | false => rw [fetch_skip _ _ _ _ h]; exact ⟨rfl, rfl⟩
  | true =>
    rw [fetch_http _ _ _ _ h]
    cases env.TempFile with
    | some e => exact ⟨rfl, rfl⟩
    | none =>
      cases download env release hooks with
      | error e => exact ⟨rfl, rfl⟩
      | ok p => exact ⟨rfl, rfl⟩

theorem File.empty_write (bs : Bytes) : File.empty.write bs = ⟨bs, bs.length⟩ := by
  simp [File.empty, File.write]

theorem download_eq_ok (env : Env) (release : Release)
    (hooks : Int → Option Hook × Option Hook) (p : Prepared)
    (h : download env release hooks = .ok p) :
    ∃ resp, env.Get = .ok resp ∧ ¬ resp.StatusCode > 302 ∧
      ioCopy env.copyTemp (applyHook (hooks resp.ContentLength).1 resp.Body)
        = (p.ft.data, none) ∧
      (checkSha1 env.hashRead ⟨p.ft.data, p.ft.data.length⟩ release.SHA1).1 = none ∧
      env.Seek = none ∧
      p.filename = resolveFilename release (sourceFilename env resp) ∧
      p.ft.pos = 0 ∧
      p.hookCompress = (hooks resp.ContentLength).2 := by
  unfold download at h
  cases hG : env.Get with
  | error e => simp [hG] at h
  | ok resp =>
    refine ⟨resp, rfl, ?_⟩
    simp only [hG] at h
    by_cases hS : resp.StatusCode > 302
    · simp [hS] at h
    · rw [if_neg hS] at h
      simp only [File.empty_write] at h
      cases hC : ioCopy env.copyTemp (applyHook (hooks resp.ContentLength).1 resp.Body) with
      | mk bs cerr =>
        simp only [hC] at h
        cases cerr with
        | some e => simp at h
        | none =>
          simp only at h
          cases hK : checkSha1 env.hashRead ⟨bs, bs.length⟩ release.SHA1 with
          | mk kerr ft =>
            simp only [hK] at h
            cases kerr with
            | some e => simp at h
            | none =>
              simp only at h
              cases hSeek : env.Seek with
              | some e => simp [hSeek] at h
              | none =>
                simp only [hSeek] at h
                have hp : p = ⟨resolveFilename release (sourceFilename env resp), ft.rewind,
                    (hooks resp.ContentLength).2⟩ := by
                  injection h with h; exact h.symm
                have hft : ft.data = bs := by
                  have := congrArg Prod.snd hK
                  simp only [checkSha1] at this
                  split at this
                  · simp at this; rw [← this]
                  · simp only [File.rewind, File.readAll] at this
                    split at this
                    · simp at this; rw [← this]
                    · split at this <;> (simp at this; rw [← this])
                subst hp
                subst hft
                refine ⟨hS, rfl, ?_, rfl, rfl, rfl, rfl⟩
                show (checkSha1 env.hashRead ⟨ft.data, ft.data.length⟩ release.SHA1).1 = none
                rw [hK]

theorem download_mismatch (env : Env) (release : Release)
    (hooks : Int → Option Hook × Option Hook) (resp : Response) (c : Bytes)
    (hget : env.Get = .ok resp) (hstatus : ¬ resp.StatusCode > 302)
    (hcopy : ioCopy env.copyTemp (applyHook (hooks resp.ContentLength).1 resp.Body) = (c, none))
    (hsha : release.SHA1 ≠ []) (hmis : release.SHA1 ≠ hexLower (sha1Sum c)) :
    download env release hooks = .error (env.hashRead.getD sha1Mismatch) := by
  unfold download
  simp only [hget]
  rw [if_neg hstatus]
  simp only [hcopy, File.empty_write]
  have hk := checkSha1_fst env.hashRead ⟨c, c.length⟩ release.SHA1
  rw [if_neg hsha] at hk
  cases hr : env.hashRead with
  | some e => rw [hr] at hk; simp only at hk; simp [hk]
  | none => rw [hr] at hk; simp [hk, hmis]

theorem createEntry_eq_ok (env : Env) (p : Prepared) (z z1 : ZipWriter)
    (h : createEntry env p z = .ok z1) :
    ∃ hdr : FileHeader, hdr.Name = p.filename ∧ hdr.Method = Deflate ∧ z1 = z ++ [⟨hdr, []⟩] := by
  unfold createEntry at h
  cases hS : env.Stat with
  | some e => simp [hS] at h
  | none =>
    cases hI : env.InfoHeader with
    | some e => simp [hS, hI] at h
    | none =>
      cases hC : env.CreateHeader with
      | some e => simp [hS, hI, hC] at h
      | none =>
        simp only [hS, hI, hC, ZipWriter.create] at h
        injection h with h
        exact ⟨_, rfl, rfl, h.symm⟩

theorem pack_eq_ok (env : Env) (release : Release) (p : Prepared) (z z1 : ZipWriter)
    (op : OpDefinition) (h : pack env release p z = ((op, none), z1)) :
    op = opDefinition release p.filename ∧
    ioCopy env.copyZip (packReader p) = ((packReader p).data, none) ∧
    ∃ hdr : FileHeader, hdr.Name = p.filename ∧ hdr.Method = Deflate ∧
      z1 = z ++ [⟨hdr, (packReader p).data⟩] := by
  unfold pack at h
  cases hC : createEntry env p z with
  | error e => simp [hC] at h
  | ok z2 =>
    obtain ⟨hdr, hn, hm, rfl⟩ := createEntry_eq_ok env p z z2 hC
    simp only [hC, ZipWriter.write_create, List.nil_append] at h
    cases hW : env.copyZip with
    | some e => simp [ioCopy, hW] at h
    | none =>
      simp only [ioCopy, hW] at h ⊢
      cases hE : (packReader p).err with
      | some e => simp [hE] at h
      | none =>
        simp only [hE, Prod.mk.injEq] at h
        exact ⟨h.1.1.symm, rfl, hdr, hn, hm, h.2.symm⟩

/-- C2: when the unit has downloaded content `c` (network URL, temp file, response
with a status of at most 302, copy into the scratch file without error) and
the release carries a non-empty checksum different from the lowercase hex
SHA-1 of `c`, `DownloadAndCompress` returns an error, which is
"SHA1 mismatch from download" when the scratch file is read back without
error.  It returns whatever the state of the mutex is, and leaves the zip
writer and the mutex as they were: no entry was created, no byte written. -/
theorem DownloadAndCompress_sha1_mismatch (env : Env) (release : Release)
    (hooks : Int → Option Hook × Option Hook) (w : World) (resp : Response) (c : Bytes)
    (hurl : HasPrefix release.URL "http".toList = true)
    (htemp : env.TempFile = none)
    (hget : env.Get = .ok resp) (hstatus : ¬ resp.StatusCode > 302)
    (hcopy : ioCopy env.copyTemp (applyHook (hooks resp.ContentLength).1 resp.Body) = (c, none))
    (hsha : release.SHA1 ≠ []) (hmis : release.SHA1 ≠ hexLower (sha1Sum c)) :
    ∃ err w1, DownloadAndCompress env release hooks w
        = (.returned OpDefinition.zero (some err), w1) ∧
      (env.hashRead = none → err = sha1Mismatch) ∧
      w1.zip = w.zip ∧ w1.mux = w.mux := by
  refine ⟨env.hashRead.getD sha1Mismatch,
    { w with requests := w.requests ++ [release.URL], tempCreated := w.tempCreated + 1 },
    ?_, ?_, rfl, rfl⟩
  · unfold DownloadAndCompress
    rw [fetch_http _ _ _ _ hurl, htemp,
      download_mismatch env release hooks resp c hget hstatus hcopy hsha hmis]
  · intro h
    rw [h]
    rfl

theorem DownloadAndCompress_sha1_mismatch_witness :
    ∃ err w1, DownloadAndCompress (Env.serving "/bar.tar.gz".toList [97, 98, 99])
        ⟨"https://example.org/bar.tar.gz".toList, "00".toList, "foo".toList, "1.2.3".toList⟩
        noHooks { World.fresh with mux := true }
        = (.returned OpDefinition.zero (some err), w1) ∧
      ((Env.serving "/bar.tar.gz".toList [97, 98, 99]).hashRead = none → err = sha1Mismatch) ∧
      w1.zip = [] ∧ w1.mux = true :=
  DownloadAndCompress_sha1_mismatch _ _ _ _ (Response.ok [97, 98, 99]) [97, 98, 99]
    (by decide) rfl rfl (by decide) rfl (by decide) (by rw [sha1Sum_abc]; decide)

/-- C3 as stated fails: the URL "httpd.tgz", a relative path, starts neither
with "http://" nor with "https://", yet the unit creates a temp file, sends a
request and returns the error of the HTTP client. -/
theorem DownloadAndCompress_httpd_not_skipped :
    HasPrefix "httpd.tgz".toList "http://".toList = false ∧
    HasPrefix "httpd.tgz".toList "https://".toList = false ∧
    DownloadAndCompress (Env.refusing "httpd.tgz".toList)
        ⟨"httpd.tgz".toList, [], "httpd".toList, "2.4".toList⟩ noHooks World.fresh
      = (.returned OpDefinition.zero (some "unsupported protocol scheme".toList),
         { World.fresh with requests := ["httpd.tgz".toList], tempCreated := 1 }) := by
  refine ⟨by decide, by decide, ?_⟩
  decide

/-- C3, amended: for every release whose URL does not start with "http", whatever
the outside world, `DownloadAndCompress` returns the empty `OpDefinition` and no
error and leaves the world as it was: no request, no temp file, no entry. -/
theorem DownloadAndCompress_skip (env : Env) (release : Release)
    (hooks : Int → Option Hook × Option Hook) (w : World)
    (hurl : HasPrefix release.URL "http".toList = false) :
    DownloadAndCompress env release hooks w = (.returned OpDefinition.zero none, w) := by
  unfold DownloadAndCompress
  rw [fetch_skip _ _ _ _ hurl]

theorem DownloadAndCompress_skip_witness :
    HasPrefix "file:///var/vcap/bar.tgz".toList "http".toList = false ∧
    DownloadAndCompress (Env.serving "/var/vcap/bar.tgz".toList [1, 2, 3])
        ⟨"file:///var/vcap/bar.tgz".toList, "00".toList, "foo".toList, "1.2.3".toList⟩
        noHooks World.fresh
      = (.returned OpDefinition.zero none, World.fresh) :=
  ⟨by decide, DownloadAndCompress_skip _ _ _ _ (by decide)⟩

/-! ### File names -/

theorem extScan_dot (e : List Char) (rest tail : Str)
    (he : ∀ c ∈ e, c ≠ '.' ∧ c ≠ '/') :
    extScan (e ++ '.' :: rest) tail = '.' :: (e.reverse ++ tail) := by
  induction e generalizing tail with
  | nil => simp [extScan, IsPathSeparator]
  | cons c e ih =>
    have hc := he c (List.mem_cons_self _ _)
    have he1 : ∀ d ∈ e, d ≠ '.' ∧ d ≠ '/' := fun d hd => he d (List.mem_cons_of_mem _ hd)
    simp [extScan, IsPathSeparator, hc.1, hc.2, ih _ he1]

theorem Ext_dot (stem e : Str) (he : ∀ c ∈ e, c ≠ '.' ∧ c ≠ '/') :
    Ext (stem ++ '.' :: e) = '.' :: e := by
  unfold Ext
  have h := extScan_dot e.reverse stem.reverse [] (by simpa using he)
  simpa using h

theorem extScan_no_dot (rev tail : Str) (h : ∀ c ∈ rev, c ≠ '.') : extScan rev tail = [] := by
  induction rev generalizing tail with
  | nil => rfl
  | cons c rev ih =>
    have hc := h c (List.mem_cons_self _ _)
    have h1 : ∀ d ∈ rev, d ≠ '.' := fun d hd => h d (List.mem_cons_of_mem _ hd)
    simp [extScan, hc, ih _ h1]

theorem Ext_no_dot (s : Str) (h : ∀ c ∈ s, c ≠ '.') : Ext s = [] := by
  unfold Ext
  exact extScan_no_dot _ _ (by simpa using h)

theorem extScan_suffix (rev tail : Str) :
    extScan rev tail = [] ∨ ∃ pre, rev.reverse ++ tail = pre ++ extScan rev tail := by
  induction rev generalizing tail with
  | nil => exact Or.inl rfl
  | cons c rev ih =>
    unfold extScan
    by_cases h1 : IsPathSeparator c = true
    · simp [h1]
    · by_cases h2 : (c == '.') = true
      · right
        refine ⟨rev.reverse, ?_⟩
        simp [h1, h2]
      · simp only [h1, h2, if_false, Bool.false_eq_true]
        rcases ih (c :: tail) with h | ⟨pre, h⟩
        · exact Or.inl h
        · right
          exact ⟨pre, by simpa using h⟩

theorem Ext_suffix (s : Str) : Ext s = [] ∨ ∃ pre, s = pre ++ Ext s := by
  unfold Ext
  rcases extScan_suffix s.reverse [] with h | ⟨pre, h⟩
  · exact Or.inl h
  · exact Or.inr ⟨pre, by simpa using h⟩

theorem TrimSuffix_append (s suf : Str) : TrimSuffix (s ++ suf) suf = s := by
  unfold TrimSuffix HasSuffix
  have : suf.isSuffixOf (s ++ suf) = true := by
    rw [List.isSuffixOf_iff_suffix]
    exact List.suffix_append _ _
  simp [this]

theorem resolveFilename_named (release : Release) (filename : Str)
    (hn : release.Name ≠ []) (hv : release.Version ≠ []) :
    resolveFilename release filename =
      release.Name ++ "-".toList ++ release.Version ++
        (if Ext filename = [] then ".tgz".toList
         else if Ext filename = ".gz".toList
              ∧ Ext (TrimSuffix filename (Ext filename)) = ".tar".toList then
           Ext (TrimSuffix filename (Ext filename)) ++ Ext filename
         else Ext filename) := by
  unfold resolveFilename
  rw [if_pos ⟨hn, hv⟩]

theorem extScan_spec (rev tail e : Str) (h : extScan rev tail = e) (he : e ≠ [])
    (ht : ∀ c ∈ tail, c ≠ '.' ∧ c ≠ '/') :
    ∃ stem rest, rev.reverse ++ tail = stem ++ '.' :: rest ∧ e = '.' :: rest ∧
      ∀ c ∈ rest, c ≠ '.' ∧ c ≠ '/' := by
  induction rev generalizing tail with
  | nil => simp [extScan] at h; exact absurd h he
  | cons c rev ih =>
    unfold extScan at h
    by_cases h1 : IsPathSeparator c = true
    · simp [h1] at h; exact absurd h he
    · by_cases h2 : (c == '.') = true
      · simp only [h1, h2, if_true, if_false, Bool.false_eq_true] at h
        have hc : c = '.' := by simpa using h2
        subst hc
        exact ⟨rev.reverse, tail, by simp, h.symm, ht⟩
      · simp only [h1, h2, if_false, Bool.false_eq_true] at h
        have hc : c ≠ '.' ∧ c ≠ '/' := by
          constructor
          · simpa using h2
          · simpa [IsPathSeparator] using h1
        have ht1 : ∀ d ∈ c :: tail, d ≠ '.' ∧ d ≠ '/' := by
          intro d hd
          rcases List.mem_cons.mp hd with rfl | hd
          · exact hc
          · exact ht d hd
        obtain ⟨stem, rest, h3, h4, h5⟩ := ih (c :: tail) h ht1
        exact ⟨stem, rest, by simpa using h3, h4, h5⟩

theorem Ext_spec (filename : Str) (he : Ext filename ≠ []) :
    ∃ stem rest, filename = stem ++ '.' :: rest ∧ Ext filename = '.' :: rest ∧
      ∀ c ∈ rest, c ≠ '.' ∧ c ≠ '/' := by
  obtain ⟨stem, rest, h1, h2, h3⟩ :=
    extScan_spec filename.reverse [] (Ext filename) rfl he (by simp)
  exact ⟨stem, rest, by simpa using h1, h2, h3⟩

/-- C4: for every release with a non-empty name `n` and a non-empty version `v`,
(1) a source file name ending in ".tar.gz" resolves to `n-v.tar.gz`; (2) a source
file name that has any other extension `e` (`filepath.Ext` is not empty and the
name does not end in ".tar.gz") resolves to `n-v` followed by `e`, and `e` is
the suffix of the name from its last dot; (3) every name `stem.rest` with
neither dot nor separator in `rest` has the extension `.rest`.  With name foo
and version 1.2.3, bar.tar.gz gives foo-1.2.3.tar.gz, bar.bin gives
foo-1.2.3.bin and bar.gz gives foo-1.2.3.gz. -/
theorem resolveFilename_extension (release : Release)
    (hn : release.Name ≠ []) (hv : release.Version ≠ []) :
    (∀ stem : Str, resolveFilename release (stem ++ ".tar.gz".toList)
      = release.Name ++ "-".toList ++ release.Version ++ ".tar.gz".toList) ∧
    (∀ filename : Str, Ext filename ≠ [] → HasSuffix filename ".tar.gz".toList = false →
      resolveFilename release filename
        = release.Name ++ "-".toList ++ release.Version ++ Ext filename ∧
      ∃ stem rest, filename = stem ++ '.' :: rest ∧ Ext filename = '.' :: rest ∧
        '.' ∉ rest) ∧
    (∀ stem rest : Str, (∀ c ∈ rest, c ≠ '.' ∧ c ≠ '/') →
      Ext (stem ++ '.' :: rest) = '.' :: rest) ∧
    resolveFilename ⟨[], [], "foo".toList, "1.2.3".toList⟩ "bar.tar.gz".toList
      = "foo-1.2.3.tar.gz".toList ∧
    resolveFilename ⟨[], [], "foo".toList, "1.2.3".toList⟩ "bar.bin".toList
      = "foo-1.2.3.bin".toList ∧
    resolveFilename ⟨[], [], "foo".toList, "1.2.3".toList⟩ "bar.gz".toList
      = "foo-1.2.3.gz".toList := by
  refine ⟨?_, ?_, fun stem rest h => Ext_dot stem rest h, by decide, by decide, by decide⟩
  · intro stem
    have h1 : Ext (stem ++ ".tar.gz".toList) = ".gz".toList := by
      have := Ext_dot (stem ++ ".tar".toList) "gz".toList (by decide)
      simpa using this
    have h2 : TrimSuffix (stem ++ ".tar.gz".toList) ".gz".toList = stem ++ ".tar".toList := by
      have := TrimSuffix_append (stem ++ ".tar".toList) ".gz".toList
      simpa using this
    have h3 : Ext (stem ++ ".tar".toList) = ".tar".toList := by
      have := Ext_dot stem "tar".toList (by decide)
      simpa using this
    rw [resolveFilename_named _ _ hn hv, h1, h2, h3]
    simp
  · intro filename hne hs
    obtain ⟨stem, rest, hf, he, hrest⟩ := Ext_spec filename hne
    refine ⟨?_, stem, rest, hf, he, fun hmem => (hrest _ hmem).1 rfl⟩
    rw [resolveFilename_named _ _ hn hv, if_neg hne]
    by_cases hgz : (Ext filename = ".gz".toList ∧
        Ext (TrimSuffix filename (Ext filename)) = ".tar".toList)
    · exfalso
      obtain ⟨hg, ht⟩ := hgz
      have htrim : TrimSuffix filename (Ext filename) = stem := by
        rw [he]
        conv => lhs; rw [hf]
        exact TrimSuffix_append stem ('.' :: rest)
      rw [htrim] at ht
      rcases Ext_suffix stem with h0 | ⟨pre, hpre⟩
      · rw [h0] at ht; simp at ht
      · rw [ht] at hpre
        have : HasSuffix filename ".tar.gz".toList = true := by
          unfold HasSuffix
          rw [List.isSuffixOf_iff_suffix, hf, ← he, hg, hpre]
          exact ⟨pre, by simp⟩
        rw [this] at hs
        exact Bool.noConfusion hs
    · rw [if_neg hgz]

theorem resolveFilename_extension_witness :
    Ext "bar.bin".toList ≠ [] ∧
    HasSuffix "bar.bin".toList ".tar.gz".toList = false ∧
    (resolveFilename ⟨[], [], "foo".toList, "1.2.3".toList⟩ "bar.bin".toList
        = "foo".toList ++ "-".toList ++ "1.2.3".toList ++ Ext "bar.bin".toList ∧
      ∃ stem rest, "bar.bin".toList = stem ++ '.' :: rest ∧
        Ext "bar.bin".toList = '.' :: rest ∧ '.' ∉ rest) :=
  ⟨by decide, by decide,
    (resolveFilename_extension ⟨[], [], "foo".toList, "1.2.3".toList⟩
      (by decide) (by decide)).2.1 "bar.bin".toList (by decide) (by decide)⟩

theorem sourceFilename_base (env : Env) (resp : Response)
    (h : (env.ParseMediaType resp.ContentDisposition).bind
      (fun params => params.lookup "filename".toList) = none) :
    sourceFilename env resp = Base env.urlPath := by
  unfold sourceFilename
  cases hp : env.ParseMediaType resp.ContentDisposition with
  | none => rfl
  | some params =>
    rw [hp] at h
    simp only [Option.bind] at h
    simp only [h]

/-- C5, which the code does not meet.  For the URL http://host, whose path is
empty, the source file name is ".", the value of `filepath.Base("")`; its
extension is "." and not empty, so the default of line 126 is not taken and the
entry of release foo 1.2.3 is named "foo-1.2.3." where the claim says
"foo-1.2.3.tgz".  For the URL http://host/, whose path is "/", the same release
does get "foo-1.2.3.tgz". -/
theorem resolveFilename_empty_path :
    sourceFilename (Env.serving [] [1, 2, 3]) (Response.ok [1, 2, 3]) = ".".toList ∧
    resolveFilename ⟨"http://host".toList, [], "foo".toList, "1.2.3".toList⟩
        (sourceFilename (Env.serving [] [1, 2, 3]) (Response.ok [1, 2, 3]))
      = "foo-1.2.3.".toList ∧
    resolveFilename ⟨"http://host".toList, [], "foo".toList, "1.2.3".toList⟩
        (sourceFilename (Env.serving [] [1, 2, 3]) (Response.ok [1, 2, 3]))
      ≠ "foo-1.2.3.tgz".toList ∧
    ((DownloadAndCompress (Env.serving [] [1, 2, 3])
        ⟨"http://host".toList, [], "foo".toList, "1.2.3".toList⟩ noHooks World.fresh).2.zip.map
      (fun e => e.header.Name)) = ["foo-1.2.3.".toList] ∧
    ((DownloadAndCompress (Env.serving "/".toList [1, 2, 3])
        ⟨"http://host/".toList, [], "foo".toList, "1.2.3".toList⟩ noHooks World.fresh).2.zip.map
      (fun e => e.header.Name)) = ["foo-1.2.3.tgz".toList] := by
  decide

/-- Where the default extension is taken: for every release with a non-empty
name `n` and a non-empty version `v`, a source file name for which `filepath.Ext`
is empty resolves to `n-v.tgz`.  When no `Content-Disposition` file name is
given, this covers every URL whose last path element, as `filepath.Base` gives
it, has no dot, the path "/" included; the empty path is not among them. -/
theorem resolveFilename_default (release : Release)
    (hn : release.Name ≠ []) (hv : release.Version ≠ []) :
    (∀ filename : Str, Ext filename = [] →
      resolveFilename release filename
        = release.Name ++ "-".toList ++ release.Version ++ ".tgz".toList) ∧
    (∀ (env : Env) (resp : Response),
      (env.ParseMediaType resp.ContentDisposition).bind
        (fun params => params.lookup "filename".toList) = none →
      (∀ c ∈ Base env.urlPath, c ≠ '.') →
      resolveFilename release (sourceFilename env resp)
        = release.Name ++ "-".toList ++ release.Version ++ ".tgz".toList) ∧
    (∀ (env : Env) (resp : Response),
      (env.ParseMediaType resp.ContentDisposition).bind
        (fun params => params.lookup "filename".toList) = none →
      env.urlPath = "/".toList →
      resolveFilename release (sourceFilename env resp)
        = release.Name ++ "-".toList ++ release.Version ++ ".tgz".toList) := by
  have key : ∀ filename : Str, Ext filename = [] →
      resolveFilename release filename
        = release.Name ++ "-".toList ++ release.Version ++ ".tgz".toList := by
    intro filename he
    rw [resolveFilename_named _ _ hn hv, if_pos he]
  refine ⟨key, ?_, ?_⟩
  · intro env resp hd hb
    rw [sourceFilename_base env resp hd]
    exact key _ (Ext_no_dot _ hb)
  · intro env resp hd hp
    rw [sourceFilename_base env resp hd, hp]
    exact key _ (by decide)

/-- The default extension at the file name bar of release foo 1.2.3. -/
theorem resolveFilename_default_witness :
    Ext "bar".toList = [] ∧
    resolveFilename ⟨[], [], "foo".toList, "1.2.3".toList⟩ "bar".toList
      = "foo".toList ++ "-".toList ++ "1.2.3".toList ++ ".tgz".toList :=
  ⟨by decide,
    (resolveFilename_default ⟨[], [], "foo".toList, "1.2.3".toList⟩
      (by decide) (by decide)).1 "bar".toList (by decide)⟩

/-- C6: when `DownloadAndCompress` returns without error for a release with a
network URL, the result has type "replace", path "/releases/<name>" and a value
with the name and the version of the release and the url
"file://((brd_repo_dir))/f", where `f` is the name in the header of the one
entry the call has added to the archive. -/
theorem DownloadAndCompress_opDefinition (env : Env) (release : Release)
    (hooks : Int → Option Hook × Option Hook) (w w1 : World) (op : OpDefinition)
    (hurl : HasPrefix release.URL "http".toList = true)
    (h : DownloadAndCompress env release hooks w = (.returned op none, w1)) :
    ∃ (f : Str) (hdr : FileHeader) (data : Bytes),
      op = ⟨"replace".toList, "/releases/".toList ++ release.Name,
        some ⟨release.Name, release.Version, "file://((brd_repo_dir))/".toList ++ f⟩⟩ ∧
      hdr.Name = f ∧ w1.zip = w.zip ++ [⟨hdr, data⟩] := by
  unfold DownloadAndCompress at h
  rw [fetch_http _ _ _ _ hurl] at h
  cases hT : env.TempFile with
  | some e => simp [hT] at h
  | none =>
    cases hD : download env release hooks with
    | error e => simp [hT, hD] at h
    | ok p =>
      simp only [hT, hD] at h
      by_cases hm : w.mux = true
      · simp [hm] at h
      · simp only [hm, if_false, Bool.false_eq_true, Prod.mk.injEq, Outcome.returned.injEq] at h
        obtain ⟨⟨hop, herr⟩, hw⟩ := h
        have hpack : pack env release p w.zip
            = ((op, none), (pack env release p w.zip).2) := by
          rw [← hop, ← herr]
        obtain ⟨hop2, -, hdr, hn, -, hz⟩ := pack_eq_ok env release p w.zip _ op hpack
        refine ⟨p.filename, hdr, (packReader p).data, ?_, hn, ?_⟩
        · rw [hop2]
          simp [opDefinition, DirVarName]
        · rw [← hw]
          exact hz

theorem DownloadAndCompress_opDefinition_witness :
    HasPrefix "https://example.org/bar.tar.gz".toList "http".toList = true ∧
    (DownloadAndCompress (Env.serving "/bar.tar.gz".toList [97, 98, 99])
        ⟨"https://example.org/bar.tar.gz".toList, [], "foo".toList, "1.2.3".toList⟩
        noHooks World.fresh).1
      = .returned (opDefinition
          ⟨"https://example.org/bar.tar.gz".toList, [], "foo".toList, "1.2.3".toList⟩
          "foo-1.2.3.tar.gz".toList) none ∧
    ∃ (f : Str) (hdr : FileHeader) (data : Bytes),
      opDefinition ⟨"https://example.org/bar.tar.gz".toList, [], "foo".toList, "1.2.3".toList⟩
          "foo-1.2.3.tar.gz".toList
        = ⟨"replace".toList, "/releases/".toList ++ "foo".toList,
          some ⟨"foo".toList, "1.2.3".toList, "file://((brd_repo_dir))/".toList ++ f⟩⟩ ∧
      hdr.Name = f ∧
      (DownloadAndCompress (Env.serving "/bar.tar.gz".toList [97, 98, 99])
        ⟨"https://example.org/bar.tar.gz".toList, [], "foo".toList, "1.2.3".toList⟩
        noHooks World.fresh).2.zip = World.fresh.zip ++ [⟨hdr, data⟩] :=
  ⟨by decide, by decide,
    DownloadAndCompress_opDefinition (Env.serving "/bar.tar.gz".toList [97, 98, 99])
      ⟨"https://example.org/bar.tar.gz".toList, [], "foo".toList, "1.2.3".toList⟩
      noHooks World.fresh _ _ (by decide) (by decide)⟩

/-! ## The worker pool -/

theorem countP_busy_set (l : List Worker) (i : Nat) (x y : Worker) (h : l[i]? = some x) :
    (l.set i y).countP Worker.busy + (if x.busy then 1 else 0)
      = l.countP Worker.busy + (if y.busy then 1 else 0) := by
  induction l generalizing i with
  | nil => simp at h
  | cons a l ih =>
    cases i with
    | zero =>
      simp only [List.getElem?_cons_zero, Option.some.injEq] at h
      subst h
      simp only [List.set_cons_zero, List.countP_cons]
      omega
    | succ i =>
      simp only [List.getElem?_cons_succ] at h
      have := ih i h
      simp only [List.set_cons_succ, List.countP_cons]
      omega

theorem length_of_getElem? {α : Type} (l : List α) (i : Nat) (x : α) (h : l[i]? = some x) :
    i < l.length := by
  by_contra hn
  rw [List.getElem?_eq_none (by omega)] at h
  exact Option.noConfusion h

theorem sending_init (cfg : Config) : (State.init cfg).sending cfg := by
  refine ⟨0, rfl, rfl, by simp [State.init], by simp [State.init], by simp [State.init], ?_⟩
  simp [State.init, List.countP_replicate, Worker.busy]

theorem sending_workerStep (cfg : Config) (i k : Nat) (s : State) (h : s.sending cfg) :
    (workerStep i k s).sending cfg := by
  obtain ⟨n, hmain, hclosed, hq, ho, hlen, hn⟩ := h
  unfold workerStep
  cases hw : s.workers[i]? with
  | none => exact ⟨n, hmain, hclosed, hq, ho, hlen, hn⟩
  | some x =>
    cases x with
    | recv =>
      simp only
      cases hj : s.jobsChan with
      | nil =>
        simp only [hclosed]
        exact ⟨n, hmain, hclosed, hq, ho, hlen, hn⟩
      | cons job rest =>
        have hc := fun y => countP_busy_set s.workers i .recv y hw
        rw [hj] at hq hn
        simp only [List.length_cons] at hq hn
        simp only
        cases hf : fetch job.env job.release job.hooks s.world with
        | mk r w =>
          cases r with
          | skip =>
            refine ⟨n, hmain, hclosed, by simp; omega, ho, by simpa using hlen, ?_⟩
            have := hc (Worker.deliver job.release OpDefinition.zero none)
            simp [Worker.deliver, Worker.busy] at this ⊢
            omega
          | fail e =>
            refine ⟨n, hmain, hclosed, by simp; omega, ho, by simpa using hlen, ?_⟩
            have := hc (Worker.deliver job.release OpDefinition.zero (some e))
            simp [Worker.deliver, Worker.busy] at this ⊢
            omega
          | ready p =>
            refine ⟨n, hmain, hclosed, by simp; omega, ho, by simpa using hlen, ?_⟩
            have := hc (.lock job.release job.env p)
            simp [Worker.busy] at this ⊢
            omega
    | lock rel env p =>
      simp only
      by_cases hm : s.world.mux = true
      · rw [if_pos hm]
        exact ⟨n, hmain, hclosed, hq, ho, hlen, hn⟩
      · rw [if_neg hm]
        refine ⟨n, hmain, hclosed, hq, ho, by simpa using hlen, ?_⟩
        have := countP_busy_set s.workers i _ (.create rel env p) hw
        simp [Worker.busy] at this ⊢
        omega
    | create rel env p =>
      simp only
      cases hc : createEntry env p s.world.zip with
      | error e =>
        refine ⟨n, hmain, hclosed, hq, ho, by simpa using hlen, ?_⟩
        have := countP_busy_set s.workers i _
          (Worker.deliver rel OpDefinition.zero (some e)) hw
        simp [Worker.deliver, Worker.busy] at this ⊢
        omega
      | ok z =>
        refine ⟨n, hmain, hclosed, hq, ho, by simpa using hlen, ?_⟩
        have := countP_busy_set s.workers i _
          (.copy rel p.filename (ioCopy env.copyZip (packReader p)).1
            (ioCopy env.copyZip (packReader p)).2) hw
        simp [Worker.busy] at this ⊢
        omega
    | copy rel filename rest err =>
      simp only
      cases rest with
      | nil =>
        refine ⟨n, hmain, hclosed, hq, ho, by simpa using hlen, ?_⟩
        cases err with
        | none =>
          have := countP_busy_set s.workers i _
            (Worker.deliver rel (opDefinition rel filename) none) hw
          simp [Worker.deliver, Worker.busy] at this ⊢
          omega
        | some e =>
          have := countP_busy_set s.workers i _
            (Worker.deliver rel OpDefinition.zero (some e)) hw
          simp [Worker.deliver, Worker.busy] at this ⊢
          omega
      | cons b bs =>
        refine ⟨n, hmain, hclosed, hq, ho, by simpa using hlen, ?_⟩
        have := countP_busy_set s.workers i _
          (.copy rel filename ((b :: bs).drop (k + 1)) err) hw
        simp [Worker.busy] at this ⊢
        omega
    | sendOp op =>
      simp only
      by_cases hfull : s.opDefChan.length < opDefCap
      · rw [if_pos hfull]
        refine ⟨n, hmain, hclosed, hq, by simp; omega, by simpa using hlen, ?_⟩
        have := countP_busy_set s.workers i _ .recv hw
        simp [Worker.busy] at this ⊢
        omega
      · rw [if_neg hfull]
        exact ⟨n, hmain, hclosed, hq, ho, hlen, hn⟩
    | sendErr e =>
      simp only
      by_cases hfull : s.errChan.length < errCap
      · rw [if_pos hfull]
        refine ⟨n, hmain, hclosed, hq, ho, by simpa using hlen, ?_⟩
        have := countP_busy_set s.workers i _ .exit hw
        simp [Worker.busy] at this ⊢
        omega
      · rw [if_neg hfull]
        exact ⟨n, hmain, hclosed, hq, ho, hlen, hn⟩
    | exit => exact ⟨n, hmain, hclosed, hq, ho, hlen, hn⟩

theorem sending_bound (cfg : Config) (s : State) (k : Nat)
    (h : s.main = .enqueue k ∧ s.closed = false ∧
      s.jobsChan.length ≤ jobsCap ∧ s.opDefChan.length ≤ opDefCap ∧
      s.workers.length = cfg.Parallel.toNat ∧
      k = s.jobsChan.length + s.opDefChan.length + s.workers.countP Worker.busy) :
    k ≤ jobsCap + opDefCap + cfg.Parallel.toNat := by
  obtain ⟨-, -, hq, ho, hlen, hn⟩ := h
  have := List.countP_le_length Worker.busy (l := s.workers)
  omega

theorem sending_mainStep (cfg : Config)
    (hbig : jobsCap + opDefCap + cfg.Parallel.toNat < cfg.releases.length)
    (takeErr : Bool) (s : State) (h : s.sending cfg) :
    (mainStep cfg takeErr s).sending cfg := by
  obtain ⟨n, hall⟩ := h
  have hb := sending_bound cfg s n hall
  obtain ⟨hmain, hclosed, hq, ho, hlen, hn⟩ := hall
  have hk : n < cfg.releases.length := by omega
  unfold mainStep
  rw [hmain]
  simp only [List.getElem?_eq_getElem hk]
  by_cases hfull : s.jobsChan.length < jobsCap
  · rw [if_pos hfull]
    refine ⟨n + 1, rfl, hclosed, by simp; omega, ho, hlen, ?_⟩
    simp
    omega
  · rw [if_neg hfull]
    exact ⟨n, hmain, hclosed, hq, ho, hlen, hn⟩

theorem sending_step (cfg : Config)
    (hbig : jobsCap + opDefCap + cfg.Parallel.toNat < cfg.releases.length)
    (c : Choice) (s : State) (h : s.sending cfg) : (step cfg c s).sending cfg := by
  cases c with
  | main => exact sending_mainStep cfg hbig false s h
  | mainErr => exact sending_mainStep cfg hbig true s h
  | worker i k => exact sending_workerStep cfg i k s h

theorem sending_run (cfg : Config)
    (hbig : jobsCap + opDefCap + cfg.Parallel.toNat < cfg.releases.length)
    (sched : List Choice) (s : State) (h : s.sending cfg) : (run cfg sched s).sending cfg := by
  induction sched generalizing s with
  | nil => exact h
  | cons c sched ih => exact ih _ (sending_step cfg hbig c s h)

/-- With more releases than the two channels and the workers can hold
(`10 + 10 + c.Parallel`), `runDownload` never leaves the loop that sends the
jobs, whatever the schedule and whatever the units do. -/
theorem runDownload_never_sent (cfg : Config)
    (hbig : jobsCap + opDefCap + cfg.Parallel.toNat < cfg.releases.length)
    (sched : List Choice) :
    ∃ k, (runDownload cfg sched).main = .enqueue k ∧ k < cfg.releases.length := by
  obtain ⟨k, hall⟩ := sending_run cfg hbig sched _ (sending_init cfg)
  have hb := sending_bound cfg _ k hall
  exact ⟨k, hall.1, by omega⟩

theorem step_stuck (cfg : Config) (s : State) (k : Nat)
    (hmain : s.main = .enqueue k) (hk : k < cfg.releases.length)
    (hq : ¬ s.jobsChan.length < jobsCap) (ho : ¬ s.opDefChan.length < opDefCap)
    (hw : s.workers.all Worker.sending = true) (c : Choice) : step cfg c s = s := by
  have hm : ∀ b, mainStep cfg b s = s := by
    intro b
    unfold mainStep
    rw [hmain]
    simp only [List.getElem?_eq_getElem hk]
    rw [if_neg hq]
  cases c with
  | main => exact hm false
  | mainErr => exact hm true
  | worker i j =>
    show workerStep i j s = s
    unfold workerStep
    cases h : s.workers[i]? with
    | none => rfl
    | some x =>
      have hx : x ∈ s.workers := List.getElem?_mem h
      have hs : x.sending = true := (List.all_eq_true.mp hw) x hx
      cases x with
      | sendOp op =>
        simp only
        rw [if_neg ho]
      | recv => simp [Worker.sending] at hs
      | lock _ _ _ => simp [Worker.sending] at hs
      | create _ _ _ => simp [Worker.sending] at hs
      | copy _ _ _ _ => simp [Worker.sending] at hs
      | sendErr _ => simp [Worker.sending] at hs
      | exit => simp [Worker.sending] at hs

theorem config24_big :
    jobsCap + opDefCap + config24.Parallel.toNat < config24.releases.length := by decide

theorem config24bad_big :
    jobsCap + opDefCap + config24bad.Parallel.toNat < config24bad.releases.length := by decide

/-- C9, which the code does not meet.  With three workers and 24 releases, each
of which the unit packs without error when run alone, `runDownload` is in every
schedule still in the loop that sends the jobs (lines 225..227), with a job left
to send: it reaches neither the patch document nor the early error return.  The
schedule `schedule24` leads to a state in which no goroutine can move: the job
channel and the result channel are full, every worker waits to send a result. -/
theorem runDownload_stalls :
    config24.releases.length = 24 ∧
    config24.releases.all Job.succeeds = true ∧
    (∀ sched : List Choice,
      ∃ k, (runDownload config24 sched).main = .enqueue k ∧ k < 24) ∧
    (runDownload config24 schedule24).main = .enqueue 23 ∧
    (runDownload config24 schedule24).jobsChan.length = 10 ∧
    (runDownload config24 schedule24).opDefChan.length = 10 ∧
    (runDownload config24 schedule24).workers.all Worker.sending = true ∧
    (∀ c : Choice,
      step config24 c (runDownload config24 schedule24) = runDownload config24 schedule24) := by
  refine ⟨by decide, by decide!, ?_, by decide!, by decide!, by decide!, by decide!, ?_⟩
  · intro sched
    exact runDownload_never_sent config24 config24_big sched
  · exact step_stuck config24 _ 23 (by decide!) (by decide) (by decide!) (by decide!)
      (by decide!)

/-- C7, which the code does not meet.  With three workers and 24 releases, each
of which the unit packs without error when run alone, no schedule makes
`runDownload` return or collect a fragment: it never returns "no error" with 24
fragments and 25 entries.  The example of the claim does come out: with three
workers and 5 releases the schedule `schedule5` collects five fragments, in the
order of their arrival, and ends with no error and six entries, the last one
named local-release.yml and holding the serialised fragments. -/
theorem runDownload_24_never_returns :
    config24.releases.length = 24 ∧
    config24.releases.all Job.succeeds = true ∧
    (∀ (sched : List Choice) (err : Option Error),
      (runDownload config24 sched).main ≠ .returned err) ∧
    (∀ (sched : List Choice) (i : Nat) (opDefs : List OpDefinition),
      (runDownload config24 sched).main ≠ .collect i opDefs) ∧
    (runDownload config5 (schedule5.take 41)).main
      = .collect 5 (["r1", "r0", "r2", "r3", "r4"].map (fun n =>
          opDefinition (Release.sample n.toList) (n.toList ++ "-1.0.tgz".toList))) ∧
    (runDownload config5 schedule5).main = .returned none ∧
    (runDownload config5 schedule5).world.zip.map (fun e => e.header.Name)
      = ["r1-1.0.tgz".toList, "r0-1.0.tgz".toList, "r2-1.0.tgz".toList,
         "r3-1.0.tgz".toList, "r4-1.0.tgz".toList, "local-release.yml".toList] ∧
    (runDownload config5 schedule5).world.zip.getLast?.map (fun e => e.data)
      = (config5.Marshal (["r1", "r0", "r2", "r3", "r4"].map (fun n =>
          opDefinition (Release.sample n.toList) (n.toList ++ "-1.0.tgz".toList)))).toOption := by
  refine ⟨by decide, by decide!, ?_, ?_, by decide!, by decide!, by decide!, by decide!⟩
  · intro sched err h
    obtain ⟨k, hk, -⟩ := runDownload_never_sent config24 config24_big sched
    rw [hk] at h
    exact Main.noConfusion h
  · intro sched i opDefs h
    obtain ⟨k, hk, -⟩ := runDownload_never_sent config24 config24_big sched
    rw [hk] at h
    exact Main.noConfusion h

/-- C8, which the code does not meet.  With three workers and 24 releases of
which the first one is answered 404, so that its unit fails, no schedule makes
`runDownload` return: the error is never returned.  On `schedule24bad` the
worker has put the error "Errors on release 'r0': non valid status: 404 Not
Found" into the error channel, where it stays. -/
theorem runDownload_24_error_lost :
    config24bad.releases.length = 24 ∧
    (Job.bad "r0".toList).succeeds = false ∧
    (DownloadAndCompress (Job.bad "r0".toList).env (Job.bad "r0".toList).release noHooks
        World.fresh).1
      = .returned OpDefinition.zero (some "non valid status: 404 Not Found".toList) ∧
    (∀ (sched : List Choice) (err : Option Error),
      (runDownload config24bad sched).main ≠ .returned err) ∧
    (runDownload config24bad schedule24bad).errChan
      = ["Errors on release 'r0': non valid status: 404 Not Found".toList] := by
  refine ⟨by decide, by decide!, by decide!, ?_, by decide!⟩
  intro sched err h
  obtain ⟨k, hk, -⟩ := runDownload_never_sent config24bad config24bad_big sched
  rw [hk] at h
  exact Main.noConfusion h

/-! ### Mutual exclusion -/

theorem Section.of_append (log : List Event) (e : Event) :
    Section.of (log ++ [e]) = (Section.of log).next e := by
  simp [Section.of, List.foldl_append]

theorem getElem?_set_self {α : Type} (l : List α) (i : Nat) (x y : α) (h : l[i]? = some x) :
    (l.set i y)[i]? = some y := by
  have := length_of_getElem? l i x h
  simp [List.getElem?_set, this]

theorem getElem?_set_other {α : Type} (l : List α) (i j : Nat) (y : α) (h : j ≠ i) :
    (l.set i y)[j]? = l[j]? := by
  simp [List.getElem?_set, Ne.symm h]

theorem Exclusive.same (mux : Bool) (ws : List Worker) (log : List Event) (i : Nat)
    (x y : Worker) (h : Exclusive mux ws log) (hx : ws[i]? = some x)
    (hy : y.phase = x.phase) : Exclusive mux (ws.set i y) log := by
  obtain ⟨h1, h2, h3, h4⟩ := h
  refine ⟨h1, h2, fun k hk => by simpa using h3 k hk, ?_⟩
  intro j w hj
  by_cases hji : j = i
  · subst hji
    rw [getElem?_set_self ws j x y hx] at hj
    injection hj with hj
    rw [← hj, hy]
    exact h4 j x hx
  · rw [getElem?_set_other ws i j y hji] at hj
    exact h4 j w hj

theorem Exclusive.lock (ws : List Worker) (log : List Event) (i : Nat)
    (x y : Worker) (h : Exclusive false ws log) (hx : ws[i]? = some x)
    (hy : y.phase = 1) : Exclusive true (ws.set i y) (log ++ [.lock i]) := by
  obtain ⟨h1, h2, h3, h4⟩ := h
  have hfree : Section.of log = .free := by
    by_contra hne
    exact Bool.noConfusion (h2.mpr hne)
  have hsec : Section.of (log ++ [.lock i]) = .taken i := by
    rw [Section.of_append, hfree]
    rfl
  rw [Exclusive, hsec]
  refine ⟨by simp, by simp, ?_, ?_⟩
  · intro k hk
    simp only [Section.holder, Option.some.injEq] at hk
    subst hk
    simpa using length_of_getElem? ws _ x hx
  · intro j w hj
    by_cases hji : j = i
    · subst hji
      rw [getElem?_set_self ws j x y hx] at hj
      injection hj with hj
      rw [← hj, hy]
      simp [Section.phase]
    · rw [getElem?_set_other ws i j y hji] at hj
      have := h4 j w hj
      rw [hfree] at this
      rw [this]
      simp [Section.phase, Ne.symm hji]

theorem Exclusive.held (mux : Bool) (ws : List Worker) (log : List Event) (i : Nat)
    (x : Worker) (h : Exclusive mux ws log) (hx : ws[i]? = some x) (hp : x.phase ≠ 0) :
    mux = true ∧
      ((x.phase = 1 ∧ Section.of log = .taken i) ∨ (x.phase = 2 ∧ Section.of log = .writing i)) := by
  obtain ⟨h1, h2, h3, h4⟩ := h
  have hph := h4 i x hx
  cases hs : Section.of log with
  | free => rw [hs] at hph; simp [Section.phase] at hph; exact absurd hph hp
  | broken => exact absurd hs h1
  | taken k =>
    rw [hs] at hph
    simp only [Section.phase] at hph
    by_cases hk : k = i
    · subst hk
      simp at hph
      exact ⟨h2.mpr (by simp [hs]), Or.inl ⟨hph, rfl⟩⟩
    · simp [hk] at hph
      exact absurd hph hp
  | writing k =>
    rw [hs] at hph
    simp only [Section.phase] at hph
    by_cases hk : k = i
    · subst hk
      simp at hph
      exact ⟨h2.mpr (by simp [hs]), Or.inr ⟨hph, rfl⟩⟩
    · simp [hk] at hph
      exact absurd hph hp

theorem Exclusive.others (mux : Bool) (ws : List Worker) (log : List Event) (i j : Nat)
    (w : Worker) (h : Exclusive mux ws log) (hi : (Section.of log).holder = some i)
    (hji : j ≠ i) (hj : ws[j]? = some w) : w.phase = 0 := by
  have := h.2.2.2 j w hj
  rw [this]
  cases hs : Section.of log with
  | free => rfl
  | broken => rfl
  | taken k =>
    rw [hs] at hi
    simp only [Section.holder, Option.some.injEq] at hi
    subst hi
    simp [Section.phase, Ne.symm hji]
  | writing k =>
    rw [hs] at hi
    simp only [Section.holder, Option.some.injEq] at hi
    subst hi
    simp [Section.phase, Ne.symm hji]

theorem Exclusive.advance (mux : Bool) (ws : List Worker) (log : List Event) (i : Nat)
    (x y : Worker) (e : Event) (sec : Section) (h : Exclusive mux ws log)
    (hx : ws[i]? = some x) (hcur : (Section.of log).holder = some i)
    (hnext : (Section.of log).next e = sec) (hsec : sec.holder = some i)
    (hy : y.phase = sec.phase i) : Exclusive true (ws.set i y) (log ++ [e]) := by
  have hs : Section.of (log ++ [e]) = sec := by rw [Section.of_append, hnext]
  rw [Exclusive, hs]
  refine ⟨?_, ?_, ?_, ?_⟩
  · intro hb; rw [hb] at hsec; exact Option.noConfusion hsec
  · constructor
    · intro _ hb; rw [hb] at hsec; exact Option.noConfusion hsec
    · intro _; rfl
  · intro k hk
    rw [hsec] at hk
    injection hk with hk
    subst hk
    simpa using length_of_getElem? ws _ x hx
  · intro j w hj
    by_cases hji : j = i
    · subst hji
      rw [getElem?_set_self ws j x y hx] at hj
      injection hj with hj
      rw [← hj, hy]
    · rw [getElem?_set_other ws i j y hji] at hj
      rw [Exclusive.others mux ws log i j w h hcur hji hj]
      cases sec with
      | free => rfl
      | broken => rfl
      | taken k =>
        simp only [Section.holder, Option.some.injEq] at hsec
        subst hsec
        simp [Section.phase, Ne.symm hji]
      | writing k =>
        simp only [Section.holder, Option.some.injEq] at hsec
        subst hsec
        simp [Section.phase, Ne.symm hji]

theorem Exclusive.unlock (mux : Bool) (ws : List Worker) (log : List Event) (i : Nat)
    (x y : Worker) (h : Exclusive mux ws log)
    (hx : ws[i]? = some x) (hcur : (Section.of log).holder = some i)
    (hy : y.phase = 0) : Exclusive false (ws.set i y) (log ++ [.unlock i]) := by
  have hs : Section.of (log ++ [.unlock i]) = .free := by
    rw [Section.of_append]
    cases hsec : Section.of log with
    | free => rw [hsec] at hcur; exact Option.noConfusion hcur
    | broken => rw [hsec] at hcur; exact Option.noConfusion hcur
    | taken k =>
      rw [hsec] at hcur
      simp only [Section.holder, Option.some.injEq] at hcur
      subst hcur
      simp [Section.next]
    | writing k =>
      rw [hsec] at hcur
      simp only [Section.holder, Option.some.injEq] at hcur
      subst hcur
      simp [Section.next]
  rw [Exclusive, hs]
  refine ⟨by simp, by simp, ?_, ?_⟩
  · intro k hk
    exact Option.noConfusion hk
  · intro j w hj
    by_cases hji : j = i
    · subst hji
      rw [getElem?_set_self ws j x y hx] at hj
      injection hj with hj
      rw [← hj, hy]
      rfl
    · rw [getElem?_set_other ws i j y hji] at hj
      rw [Exclusive.others mux ws log i j w h hcur hji hj]
      rfl

theorem exclusive_init (cfg : Config) :
    Exclusive (State.init cfg).world.mux (State.init cfg).workers (State.init cfg).log := by
  refine ⟨by simp [State.init, Section.of], by simp [State.init, Section.of], ?_, ?_⟩
  · intro i hi
    simp [State.init, Section.of, Section.holder] at hi
  · intro j w hj
    have hw : w ∈ (State.init cfg).workers := List.getElem?_mem hj
    simp only [State.init, List.mem_replicate] at hw
    rw [hw.2]
    rfl

theorem exclusive_workerStep (i k : Nat) (s : State)
    (h : Exclusive s.world.mux s.workers s.log) :
    Exclusive (workerStep i k s).world.mux (workerStep i k s).workers (workerStep i k s).log := by
  unfold workerStep
  cases hw : s.workers[i]? with
  | none => exact h
  | some x =>
    cases x with
    | recv =>
      simp only
      cases hj : s.jobsChan with
      | nil =>
        simp only
        by_cases hc : s.closed = true
        · rw [if_pos hc]
          exact Exclusive.same _ _ _ i _ .exit h hw rfl
        · rw [if_neg hc]
          exact h
      | cons job rest =>
        simp only
        have hm := (fetch_shared job.env job.release job.hooks s.world).2
        cases hf : fetch job.env job.release job.hooks s.world with
        | mk r w =>
          rw [hf] at hm
          simp only at hm
          cases r with
          | skip =>
            simp only [hm]
            exact Exclusive.same _ _ _ i _ _ h hw rfl
          | fail e =>
            simp only [hm]
            exact Exclusive.same _ _ _ i _ _ h hw rfl
          | ready p =>
            simp only [hm]
            exact Exclusive.same _ _ _ i _ _ h hw rfl
    | lock rel env p =>
      simp only
      by_cases hm : s.world.mux = true
      · rw [if_pos hm]
        exact h
      · rw [if_neg hm]
        simp only [Bool.not_eq_true] at hm
        rw [hm] at h
        exact Exclusive.lock _ _ i _ _ h hw rfl
    | create rel env p =>
      simp only
      obtain ⟨hmux, hsec⟩ := Exclusive.held _ _ _ i _ h hw (by simp [Worker.phase])
      have hsec1 : Section.of s.log = .taken i := by
        rcases hsec with ⟨-, h1⟩ | ⟨h2, -⟩
        · exact h1
        · simp [Worker.phase] at h2
      cases hc : createEntry env p s.world.zip with
      | error e =>
        exact Exclusive.unlock _ _ _ i _ _ h hw (by rw [hsec1]; rfl) (by
          simp only [Worker.deliver]; rfl)
      | ok z =>
        simp only
        rw [hmux]
        exact Exclusive.advance _ _ _ i _ _ _ (.writing i) h hw (by rw [hsec1]; rfl)
          (by rw [hsec1]; simp [Section.next]) rfl (by simp [Worker.phase, Section.phase])
    | copy rel filename rest err =>
      simp only
      obtain ⟨hmux, hsec⟩ := Exclusive.held _ _ _ i _ h hw (by simp [Worker.phase])
      have hsec1 : Section.of s.log = .writing i := by
        rcases hsec with ⟨h1, -⟩ | ⟨-, h2⟩
        · simp [Worker.phase] at h1
        · exact h2
      cases rest with
      | nil =>
        refine Exclusive.unlock _ _ _ i _ _ h hw (by rw [hsec1]; rfl) ?_
        cases err <;> rfl
      | cons b bs =>
        simp only
        rw [hmux]
        exact Exclusive.advance _ _ _ i _ _ _ (.writing i) h hw (by rw [hsec1]; rfl)
          (by rw [hsec1]; simp [Section.next]) rfl (by simp [Worker.phase, Section.phase])
    | sendOp op =>
      simp only
      by_cases hfull : s.opDefChan.length < opDefCap
      · rw [if_pos hfull]
        exact Exclusive.same _ _ _ i _ .recv h hw rfl
      · rw [if_neg hfull]
        exact h
    | sendErr e =>
      simp only
      by_cases hfull : s.errChan.length < errCap
      · rw [if_pos hfull]
        exact Exclusive.same _ _ _ i _ .exit h hw rfl
      · rw [if_neg hfull]
        exact h
    | exit => exact h

theorem exclusive_mainStep (cfg : Config) (b : Bool) (s : State)
    (h : Exclusive s.world.mux s.workers s.log) :
    Exclusive (mainStep cfg b s).world.mux (mainStep cfg b s).workers (mainStep cfg b s).log := by
  unfold mainStep
  cases hm : s.main with
  | enqueue k =>
    simp only
    cases cfg.releases[k]? with
    | none => exact h
    | some job =>
      simp only
      by_cases hq : s.jobsChan.length < jobsCap
      · rw [if_pos hq]; exact h
      · rw [if_neg hq]; exact h
  | collect i opDefs =>
    simp only
    by_cases hi : i < cfg.releases.length
    · rw [if_pos hi]
      cases b with
      | true =>
        simp only [if_true]
        cases s.errChan with
        | nil => exact h
        | cons e rest => exact h
      | false =>
        simp only [Bool.false_eq_true, if_false]
        cases s.opDefChan with
        | nil => exact h
        | cons op rest => exact h
    · rw [if_neg hi]
      exact h
  | returned e => exact h

theorem exclusive_run (cfg : Config) (sched : List Choice) (s : State)
    (h : Exclusive s.world.mux s.workers s.log) :
    Exclusive (run cfg sched s).world.mux (run cfg sched s).workers (run cfg sched s).log := by
  induction sched generalizing s with
  | nil => exact h
  | cons c sched ih =>
    apply ih
    cases c with
    | main => exact exclusive_mainStep cfg false s h
    | mainErr => exact exclusive_mainStep cfg true s h
    | worker i k => exact exclusive_workerStep i k s h

theorem Worker.holds_iff (w : Worker) : w.holds = true ↔ w.phase ≠ 0 := by
  cases w <;> simp [Worker.holds, Worker.phase]

theorem workerStep_zip (i k : Nat) (s : State)
    (h : (workerStep i k s).world.zip ≠ s.world.zip) :
    ∃ w, s.workers[i]? = some w ∧ w.holds = true := by
  unfold workerStep at h
  cases hw : s.workers[i]? with
  | none => simp [hw] at h
  | some x =>
    refine ⟨x, rfl, ?_⟩
    cases x with
    | recv =>
      exfalso
      simp only [hw] at h
      cases hj : s.jobsChan with
      | nil =>
        simp only [hj] at h
        by_cases hc : s.closed = true
        · simp [hc] at h
        · simp [hc] at h
      | cons job rest =>
        simp only [hj] at h
        have hz := (fetch_shared job.env job.release job.hooks s.world).1
        cases hf : fetch job.env job.release job.hooks s.world with
        | mk r w =>
          rw [hf] at hz h
          simp only at hz
          cases r <;> exact h hz
    | lock rel env p =>
      exfalso
      simp only [hw] at h
      by_cases hm : s.world.mux = true
      · simp [hm] at h
      · simp [hm] at h
    | create rel env p => rfl
    | copy rel filename rest err => rfl
    | sendOp op =>
      exfalso
      simp only [hw] at h
      by_cases hfull : s.opDefChan.length < opDefCap
      · simp [hfull] at h
      · simp [hfull] at h
    | sendErr e =>
      exfalso
      simp only [hw] at h
      by_cases hfull : s.errChan.length < errCap
      · simp [hfull] at h
      · simp [hfull] at h
    | exit => simp [hw] at h

/-- C10: in every schedule of a run, (1) the history of the units' operations on
the mutex and the zip writer is a sequence of sections `lock i`, `create i`,
`write i` ..., `unlock i`, each by one unit, the last one possibly unfinished:
no operation of a unit on the zip writer falls outside its own section or into
the section of another unit; (2) at most one worker is between `b.mux.Lock()`
and the deferred `b.mux.Unlock()`; (3) the mutex is locked exactly when some
worker is there, so that it is free once the unit has left by whatever path;
(4) a step of a worker that changes the zip writer is a step of the worker
that holds the mutex. -/
theorem mutual_exclusion (cfg : Config) (sched : List Choice) :
    Section.of (runDownload cfg sched).log ≠ .broken ∧
    (∀ (i j : Nat) (wi wj : Worker),
      (runDownload cfg sched).workers[i]? = some wi →
      (runDownload cfg sched).workers[j]? = some wj →
      wi.holds = true → wj.holds = true → i = j) ∧
    ((runDownload cfg sched).world.mux = true ↔
      ∃ (i : Nat) (w : Worker), (runDownload cfg sched).workers[i]? = some w ∧ w.holds = true) ∧
    (∀ i k : Nat,
      (workerStep i k (runDownload cfg sched)).world.zip ≠ (runDownload cfg sched).world.zip →
      (runDownload cfg sched).world.mux = true ∧
      ∃ w : Worker, (runDownload cfg sched).workers[i]? = some w ∧ w.holds = true) := by
  have hex := exclusive_run cfg sched _ (exclusive_init cfg)
  have hheld : ∀ (i : Nat) (w : Worker), (runDownload cfg sched).workers[i]? = some w →
      w.holds = true → (runDownload cfg sched).world.mux = true ∧
        (Section.of (runDownload cfg sched).log).holder = some i := by
    intro i w hw hh
    obtain ⟨hm, hs⟩ := Exclusive.held _ _ _ i w hex hw ((Worker.holds_iff w).mp hh)
    refine ⟨hm, ?_⟩
    rcases hs with ⟨-, h1⟩ | ⟨-, h2⟩
    · show (Section.of (run cfg sched (State.init cfg)).log).holder = some i
      rw [h1]; rfl
    · show (Section.of (run cfg sched (State.init cfg)).log).holder = some i
      rw [h2]; rfl
  refine ⟨hex.1, ?_, ?_, ?_⟩
  · intro i j wi wj hi hj hhi hhj
    have h1 := (hheld i wi hi hhi).2
    have h2 := (hheld j wj hj hhj).2
    rw [h1] at h2
    injection h2
  · constructor
    · intro hm
      have hne := hex.2.1.mp hm
      obtain ⟨hb, -, hlen, hph⟩ := hex
      cases hs : Section.of (run cfg sched (State.init cfg)).log with
      | free => exact absurd hs hne
      | broken => exact absurd hs hb
      | taken i =>
        have hi := hlen i (by rw [hs]; rfl)
        refine ⟨i, (run cfg sched (State.init cfg)).workers[i], List.getElem?_eq_getElem hi, ?_⟩
        rw [Worker.holds_iff, hph i _ (List.getElem?_eq_getElem hi), hs]
        simp [Section.phase]
      | writing i =>
        have hi := hlen i (by rw [hs]; rfl)
        refine ⟨i, (run cfg sched (State.init cfg)).workers[i], List.getElem?_eq_getElem hi, ?_⟩
        rw [Worker.holds_iff, hph i _ (List.getElem?_eq_getElem hi), hs]
        simp [Section.phase]
    · rintro ⟨i, w, hw, hh⟩
      exact (hheld i w hw hh).1
  · intro i k hz
    obtain ⟨w, hw, hh⟩ := workerStep_zip i k _ hz
    exact ⟨(hheld i w hw hh).1, w, hw, hh⟩

/-! ### What a run returns -/

theorem promises_set (l : List Worker) (i : Nat) (x y : Worker) (h : l[i]? = some x) :
    promises (l.set i y) + x.promise = promises l + y.promise := by
  unfold promises
  induction l generalizing i with
  | nil => simp at h
  | cons a l ih =>
    cases i with
    | zero =>
      simp only [List.getElem?_cons_zero, Option.some.injEq] at h
      subst h
      simp only [List.set_cons_zero, List.map_cons, List.sum_cons]
      omega
    | succ i =>
      simp only [List.getElem?_cons_succ] at h
      have := ih i h
      simp only [List.set_cons_succ, List.map_cons, List.sum_cons]
      omega

theorem fetch_fst (env : Env) (release : Release) (hooks : Int → Option Hook × Option Hook)
    (w w1 : World) :
    (fetch env release hooks w).1 = (fetch env release hooks w1).1 := by
  cases h : HasPrefix release.URL "http".toList with
  | false => rw [fetch_skip _ _ _ _ h, fetch_skip _ _ _ _ h]
  | true =>
    rw [fetch_http _ _ _ _ h, fetch_http _ _ _ _ h]
    cases env.TempFile with
    | some e => rfl
    | none =>
      cases download env release hooks with
      | error e => rfl
      | ok p => rfl

theorem createEntry_nil (env : Env) (p : Prepared) (z : ZipWriter) :
    (∀ e, createEntry env p z = .error e → createEntry env p [] = .error e) ∧
    (∀ z1, createEntry env p z = .ok z1 → ∃ z2, createEntry env p [] = .ok z2) := by
  unfold createEntry
  cases env.Stat with
  | some e => simp
  | none =>
    cases env.InfoHeader with
    | some e => simp
    | none =>
      cases env.CreateHeader with
      | some e => simp
      | none => simp

theorem pack_err (env : Env) (release : Release) (p : Prepared) (z : ZipWriter) :
    (pack env release p z).1.2 =
      match createEntry env p z with
      | .error e => some e
      | .ok _ => (ioCopy env.copyZip (packReader p)).2 := by
  unfold pack
  cases createEntry env p z with
  | error e => rfl
  | ok z1 =>
    simp only
    cases (ioCopy env.copyZip (packReader p)).2 with
    | none => rfl
    | some e => rfl

theorem Job.succeeds_eq (job : Job) (w : World) :
    job.succeeds =
      match (fetch job.env job.release job.hooks w).1 with
      | .skip => true
      | .fail _ => false
      | .ready p => decide ((pack job.env job.release p []).1.2 = none) := by
  unfold Job.succeeds DownloadAndCompress
  rw [fetch_fst job.env job.release job.hooks w World.fresh]
  cases hf : fetch job.env job.release job.hooks World.fresh with
  | mk r w1 =>
    cases r with
    | skip => rfl
    | fail e => rfl
    | ready p =>
      have hm : w1.mux = false := by
        have := (fetch_shared job.env job.release job.hooks World.fresh).2
        rw [hf] at this
        exact this
      have hz : w1.zip = [] := by
        have := (fetch_shared job.env job.release job.hooks World.fresh).1
        rw [hf] at this
        exact this
      simp only [hm, hz, Bool.false_eq_true, if_false]
      cases h : (pack job.env job.release p []).1.2 with
      | none => simp [Outcome.succeeded]
      | some e => simp [Outcome.succeeded]

theorem take_drop_cons {α : Type} (l : List α) (sent t : Nat) (a : α) (rest : List α)
    (h : (l.take sent).drop t = a :: rest) (hs : sent ≤ l.length) :
    t < sent ∧ rest = (l.take sent).drop (t + 1) ∧ l.take (t + 1) = l.take t ++ [a] := by
  have hlen : t < (l.take sent).length := by
    by_contra hn
    rw [List.drop_eq_nil_of_le (by omega)] at h
    exact List.noConfusion h
  have hts : t < sent := by
    rw [List.length_take] at hlen
    omega
  rw [List.drop_eq_getElem_cons hlen] at h
  injection h with h1 h2
  refine ⟨hts, h2.symm, ?_⟩
  have ht : t < l.length := by omega
  rw [List.take_succ, List.getElem?_eq_getElem ht]
  rw [List.getElem_take] at h1
  simp [h1]

theorem counted_workerStep (cfg : Config) (j k : Nat) (s : State) (sent i : Nat)
    (h : Counted cfg s sent i) : Counted cfg (workerStep j k s) sent i := by
  obtain ⟨hsent, t, ht, hjobs, hcount⟩ := h
  unfold workerStep
  cases hw : s.workers[j]? with
  | none => exact ⟨hsent, t, ht, hjobs, hcount⟩
  | some x =>
    have hset := fun y => promises_set s.workers j x y hw
    cases x with
    | recv =>
      simp only
      cases hj : s.jobsChan with
      | nil =>
        simp only
        rw [hj] at hjobs
        by_cases hc : s.closed = true
        · rw [if_pos hc]
          refine ⟨hsent, t, ht, hjobs, ?_⟩
          have := hset .exit
          simp only [Worker.promise] at this
          simp only
          omega
        · rw [if_neg hc]
          exact ⟨hsent, t, ht, by rw [hj]; exact hjobs, hcount⟩
      | cons job rest =>
        simp only
        rw [hj] at hjobs
        obtain ⟨hts, hrest, htake⟩ := take_drop_cons cfg.releases sent t job rest hjobs.symm hsent
        have hgood : (cfg.releases.take (t + 1)).countP Job.succeeds
            = (cfg.releases.take t).countP Job.succeeds + (if job.succeeds then 1 else 0) := by
          rw [htake, List.countP_append]
          simp [List.countP_cons]
        have hsucc := Job.succeeds_eq job s.world
        cases hf : fetch job.env job.release job.hooks s.world with
        | mk r w =>
          rw [hf] at hsucc
          cases r with
          | skip =>
            simp only at hsucc
            refine ⟨hsent, t + 1, hts, hrest, ?_⟩
            have := hset (Worker.deliver job.release OpDefinition.zero none)
            simp only [Worker.promise, Worker.deliver] at this ⊢
            simp only [hgood, hsucc, if_true]
            omega
          | fail e =>
            simp only at hsucc
            refine ⟨hsent, t + 1, hts, hrest, ?_⟩
            have := hset (Worker.deliver job.release OpDefinition.zero (some e))
            simp only [Worker.promise, Worker.deliver] at this ⊢
            simp only [hgood, hsucc, Bool.false_eq_true, if_false]
            omega
          | ready p =>
            simp only at hsucc
            refine ⟨hsent, t + 1, hts, hrest, ?_⟩
            have := hset (.lock job.release job.env p)
            simp only [Worker.promise] at this
            simp only [hgood, hsucc, decide_eq_true_eq]
            omega
    | lock rel env p =>
      simp only
      by_cases hm : s.world.mux = true
      · rw [if_pos hm]
        exact ⟨hsent, t, ht, hjobs, hcount⟩
      · rw [if_neg hm]
        refine ⟨hsent, t, ht, hjobs, ?_⟩
        have := hset (.create rel env p)
        simp only [Worker.promise] at this
        simp only
        omega
    | create rel env p =>
      simp only
      have hp := pack_err env rel p []
      cases hc : createEntry env p s.world.zip with
      | error e =>
        rw [(createEntry_nil env p s.world.zip).1 e hc] at hp
        refine ⟨hsent, t, ht, hjobs, ?_⟩
        have := hset (Worker.deliver rel OpDefinition.zero (some e))
        simp only [Worker.promise, Worker.deliver, hp] at this ⊢
        simp at this
        omega
      | ok z =>
        obtain ⟨z2, hz2⟩ := (createEntry_nil env p s.world.zip).2 z hc
        rw [hz2] at hp
        refine ⟨hsent, t, ht, hjobs, ?_⟩
        have := hset (.copy rel p.filename (ioCopy env.copyZip (packReader p)).1
          (ioCopy env.copyZip (packReader p)).2)
        simp only [Worker.promise, hp] at this
        simp only
        omega
    | copy rel filename rest err =>
      simp only
      cases rest with
      | nil =>
        refine ⟨hsent, t, ht, hjobs, ?_⟩
        cases err with
        | none =>
          have := hset (Worker.deliver rel (opDefinition rel filename) none)
          simp only [Worker.promise, Worker.deliver] at this ⊢
          simp at this
          omega
        | some e =>
          have := hset (Worker.deliver rel OpDefinition.zero (some e))
          simp only [Worker.promise, Worker.deliver] at this ⊢
          simp at this
          omega
      | cons b bs =>
        refine ⟨hsent, t, ht, hjobs, ?_⟩
        have := hset (.copy rel filename ((b :: bs).drop (k + 1)) err)
        simp only [Worker.promise] at this
        simp only
        omega
    | sendOp op =>
      simp only
      by_cases hfull : s.opDefChan.length < opDefCap
      · rw [if_pos hfull]
        refine ⟨hsent, t, ht, hjobs, ?_⟩
        have := hset .recv
        simp only [Worker.promise] at this
        simp only [List.length_append, List.length_singleton]
        omega
      · rw [if_neg hfull]
        exact ⟨hsent, t, ht, hjobs, hcount⟩
    | sendErr e =>
      simp only
      by_cases hfull : s.errChan.length < errCap
      · rw [if_pos hfull]
        refine ⟨hsent, t, ht, hjobs, ?_⟩
        have := hset .exit
        simp only [Worker.promise] at this
        simp only
        omega
      · rw [if_neg hfull]
        exact ⟨hsent, t, ht, hjobs, hcount⟩
    | exit => exact ⟨hsent, t, ht, hjobs, hcount⟩

theorem accounted_init (cfg : Config) : (State.init cfg).accounted cfg := by
  show Counted cfg (State.init cfg) 0 0
  refine ⟨Nat.zero_le _, 0, Nat.le_refl _, by simp [State.init], ?_⟩
  simp [State.init, promises, Worker.promise]

theorem accounted_workerStep (cfg : Config) (j k : Nat) (s : State) (h : s.accounted cfg) :
    (workerStep j k s).accounted cfg := by
  have hmain : (workerStep j k s).main = s.main := by
    unfold workerStep
    repeat' split
    all_goals rfl
  unfold State.accounted at h ⊢
  rw [hmain]
  cases hm : s.main with
  | enqueue n =>
    rw [hm] at h
    exact counted_workerStep cfg j k s _ _ h
  | collect i opDefs =>
    rw [hm] at h
    exact ⟨counted_workerStep cfg j k s _ _ h.1, h.2⟩
  | returned r =>
    rw [hm] at h
    cases r with
    | none => exact h
    | some e => exact True.intro

theorem accounted_mainStep (cfg : Config) (b : Bool) (s : State) (h : s.accounted cfg) :
    (mainStep cfg b s).accounted cfg := by
  unfold State.accounted at h
  unfold mainStep
  cases hm : s.main with
  | enqueue k =>
    rw [hm] at h
    obtain ⟨hsent, t, ht, hjobs, hcount⟩ := h
    simp only
    cases hk : cfg.releases[k]? with
    | none =>
      have hkn : k = cfg.releases.length := by
        have := List.getElem?_eq_none_iff.mp hk
        omega
      subst hkn
      exact ⟨⟨hsent, t, ht, hjobs, hcount⟩, rfl⟩
    | some job =>
      simp only
      by_cases hq : s.jobsChan.length < jobsCap
      · rw [if_pos hq]
        have hkn : k < cfg.releases.length := length_of_getElem? _ _ _ hk
        show Counted cfg _ (k + 1) 0
        refine ⟨hkn, t, by omega, ?_, hcount⟩
        have htake : cfg.releases.take (k + 1) = cfg.releases.take k ++ [job] := by
          rw [List.take_succ, hk]
          rfl
        show s.jobsChan ++ [job] = _
        rw [htake, hjobs, List.drop_append_of_le_length]
        rw [List.length_take]
        omega
      · rw [if_neg hq]
        show State.accounted cfg s
        unfold State.accounted
        rw [hm]
        exact ⟨hsent, t, ht, hjobs, hcount⟩
  | collect i opDefs =>
    rw [hm] at h
    obtain ⟨⟨hsent, t, ht, hjobs, hcount⟩, hlen⟩ := h
    simp only
    by_cases hi : i < cfg.releases.length
    · rw [if_pos hi]
      cases b with
      | true =>
        simp only [if_true]
        cases he : s.errChan with
        | nil =>
          show State.accounted cfg s
          unfold State.accounted
          rw [hm]
          exact ⟨⟨hsent, t, ht, hjobs, hcount⟩, hlen⟩
        | cons e rest => exact True.intro
      | false =>
        simp only [Bool.false_eq_true, if_false]
        cases ho : s.opDefChan with
        | nil =>
          show State.accounted cfg s
          unfold State.accounted
          rw [hm]
          exact ⟨⟨hsent, t, ht, hjobs, hcount⟩, hlen⟩
        | cons op rest =>
          rw [ho] at hcount
          simp only [List.length_cons] at hcount
          exact ⟨⟨hsent, t, ht, hjobs, by simp only; omega⟩, by simp [hlen]⟩
    · rw [if_neg hi]
      cases hw : (writePatch cfg opDefs s.world.zip).1 with
      | some e => simp only [State.accounted, hw]
      | none =>
        simp only [State.accounted, hw]
        have h1 := List.countP_le_length Job.succeeds (l := cfg.releases.take t)
        have h2 : (cfg.releases.take t).length ≤ t := by
          rw [List.length_take]; omega
        have ht2 : t = cfg.releases.length := by omega
        have hall : (cfg.releases.take t).countP Job.succeeds
            = (cfg.releases.take t).length := by omega
        rw [ht2, List.take_length] at hall
        rw [List.all_eq_true]
        exact List.countP_eq_length.mp hall
  | returned r =>
    show State.accounted cfg s
    unfold State.accounted
    rw [hm]
    rw [hm] at h
    exact h

theorem accounted_run (cfg : Config) (sched : List Choice) (s : State) (h : s.accounted cfg) :
    (run cfg sched s).accounted cfg := by
  induction sched generalizing s with
  | nil => exact h
  | cons c sched ih =>
    apply ih
    cases c with
    | main => exact accounted_mainStep cfg false s h
    | mainErr => exact accounted_mainStep cfg true s h
    | worker i k => exact accounted_workerStep cfg i k s h

theorem writePatch_eq_ok (cfg : Config) (opDefs : List OpDefinition) (z z1 : ZipWriter)
    (h : writePatch cfg opDefs z = (none, z1)) :
    ∃ opDefsYml, cfg.Marshal opDefs = .ok opDefsYml ∧
      z1 = z ++ [⟨patchHeader opDefsYml, opDefsYml⟩] := by
  unfold writePatch at h
  cases hM : cfg.Marshal opDefs with
  | error e => simp [hM] at h
  | ok yml =>
    cases hC : cfg.CreateHeader with
    | some e => simp [hM, hC] at h
    | none =>
      cases hW : cfg.Write with
      | some e => simp [hM, hC, hW] at h
      | none =>
        simp only [hM, hC, hW, ZipWriter.create, ZipWriter.write_create, List.nil_append,
          Prod.mk.injEq, true_and] at h
        exact ⟨yml, rfl, h.symm⟩

/-- Whatever the schedule, `runDownload` returns no error only if every unit
ends without error, and at each iteration of the loop of lines 231..241 it
holds as many fragments as iterations done. -/
theorem runDownload_accounted (cfg : Config) (sched : List Choice) :
    ((runDownload cfg sched).main = .returned none →
      cfg.releases.all Job.succeeds = true) ∧
    (∀ i opDefs, (runDownload cfg sched).main = .collect i opDefs → opDefs.length = i) := by
  have h := accounted_run cfg sched _ (accounted_init cfg)
  unfold State.accounted at h
  constructor
  · intro hm
    rw [show (run cfg sched (State.init cfg)).main = .returned none from hm] at h
    exact h
  · intro i opDefs hm
    rw [show (run cfg sched (State.init cfg)).main = .collect i opDefs from hm] at h
    exact h.2

theorem sound_set (cfg : Config) (ws : List Worker) (j : Nat) (y : Worker)
    (h : ∀ (i : Nat) (w : Worker), ws[i]? = some w → w.sound cfg) (hy : y.sound cfg) :
    ∀ (i : Nat) (w : Worker), (ws.set j y)[i]? = some w → w.sound cfg := by
  intro i w hw
  by_cases hij : i = j
  · subst hij
    rw [List.getElem?_set] at hw
    simp only [if_true] at hw
    split at hw
    · injection hw with hw; rw [← hw]; exact hy
    · exact Option.noConfusion hw
  · rw [getElem?_set_other ws j i y hij] at hw
    exact h i w hw

theorem blamed_workerStep (cfg : Config) (j k : Nat) (s : State) (h : s.blamed cfg) :
    (workerStep j k s).blamed cfg := by
  have hmain : (workerStep j k s).main = s.main := by
    unfold workerStep
    repeat' split
    all_goals rfl
  obtain ⟨hJ, hW, hE, hM⟩ := h
  have hM1 : ∀ e, (workerStep j k s).main = .returned (some e) →
      Blames cfg e ∨ cfg.releases.all Job.succeeds = true := by
    rw [hmain]; exact hM
  refine ⟨?_, ?_, ?_, hM1⟩ <;> clear hM1 <;> unfold workerStep
  all_goals
    cases hw : s.workers[j]? with
    | none => first | exact hJ | exact hW | exact hE
    | some x =>
      have hx := hW j x hw
      cases x with
      | recv =>
        simp only
        cases hj : s.jobsChan with
        | nil =>
          simp only
          by_cases hc : s.closed = true
          · rw [if_pos hc]
            first
              | (intro job hjob; exact absurd hjob (List.not_mem_nil _))
              | exact sound_set cfg _ j _ hW True.intro
              | exact hE
          · rw [if_neg hc]
            first | exact hJ | exact hW | exact hE
        | cons job rest =>
          simp only
          have hjob : job ∈ cfg.releases := hJ job (by rw [hj]; exact List.mem_cons_self _ _)
          have hrest : ∀ a ∈ rest, a ∈ cfg.releases :=
            fun a ha => hJ a (by rw [hj]; exact List.mem_cons_of_mem _ ha)
          have hsucc := Job.succeeds_eq job s.world
          have hfst := fetch_fst job.env job.release job.hooks s.world World.fresh
          cases hf : fetch job.env job.release job.hooks s.world with
          | mk r w =>
            rw [hf] at hsucc hfst
            cases r with
            | skip =>
              first
                | exact hrest
                | exact sound_set cfg _ j _ hW True.intro
                | exact hE
            | fail e =>
              first
                | exact hrest
                | exact sound_set cfg _ j _ hW ⟨job, hjob, hsucc, e, rfl⟩
                | exact hE
            | ready p =>
              first
                | exact hrest
                | exact sound_set cfg _ j _ hW ⟨job, hjob, rfl, rfl, hfst.symm⟩
                | exact hE
      | lock rel env p =>
        simp only
        by_cases hm : s.world.mux = true
        · rw [if_pos hm]
          first | exact hJ | exact hW | exact hE
        · rw [if_neg hm]
          first | exact hJ | exact sound_set cfg _ j _ hW hx | exact hE
      | create rel env p =>
        simp only
        obtain ⟨job, hjob, hrel, henv, hfetch⟩ := hx
        have hsucc := Job.succeeds_eq job World.fresh
        rw [hfetch, hrel, henv] at hsucc
        simp only at hsucc
        have hp := pack_err env rel p []
        cases hc : createEntry env p s.world.zip with
        | error e =>
          rw [(createEntry_nil env p s.world.zip).1 e hc] at hp
          simp only at hp
          rw [hp] at hsucc
          first
            | exact hJ
            | exact sound_set cfg _ j _ hW ⟨job, hjob, by simpa using hsucc, e, by rw [hrel]⟩
            | exact hE
        | ok z =>
          obtain ⟨z2, hz2⟩ := (createEntry_nil env p s.world.zip).2 z hc
          rw [hz2] at hp
          simp only at hp
          rw [hp] at hsucc
          first
            | exact hJ
            | exact sound_set cfg _ j _ hW
                ⟨job, hjob, hrel, fun hne => by rw [hsucc]; simpa using hne⟩
            | exact hE
      | copy rel filename rest err =>
        simp only
        obtain ⟨job, hjob, hrel, herr⟩ := hx
        cases rest with
        | nil =>
          cases err with
          | none =>
            first | exact hJ | exact sound_set cfg _ j _ hW True.intro | exact hE
          | some e =>
            first
              | exact hJ
              | exact sound_set cfg _ j _ hW
                  ⟨job, hjob, herr (by simp), e, by rw [hrel]⟩
              | exact hE
        | cons b bs =>
          first
            | exact hJ
            | exact sound_set cfg _ j _ hW ⟨job, hjob, hrel, herr⟩
            | exact hE
      | sendOp op =>
        simp only
        by_cases hfull : s.opDefChan.length < opDefCap
        · rw [if_pos hfull]
          first | exact hJ | exact sound_set cfg _ j _ hW True.intro | exact hE
        · rw [if_neg hfull]
          first | exact hJ | exact hW | exact hE
      | sendErr e =>
        simp only
        by_cases hfull : s.errChan.length < errCap
        · rw [if_pos hfull]
          first
            | exact hJ
            | exact sound_set cfg _ j _ hW True.intro
            | (intro e1 he1
               rcases List.mem_append.mp he1 with h1 | h1
               · exact hE e1 h1
               · rw [List.mem_singleton.mp h1]; exact hx)
        · rw [if_neg hfull]
          first | exact hJ | exact hW | exact hE
      | exit => first | exact hJ | exact hW | exact hE

theorem counted_all (cfg : Config) (s : State) (i : Nat)
    (h : Counted cfg s cfg.releases.length i) (hi : cfg.releases.length ≤ i) :
    cfg.releases.all Job.succeeds = true := by
  obtain ⟨-, t, ht, -, hcount⟩ := h
  have h1 := List.countP_le_length Job.succeeds (l := cfg.releases.take t)
  have h2 : (cfg.releases.take t).length ≤ t := by
    rw [List.length_take]; omega
  have ht2 : t = cfg.releases.length := by omega
  have hall : (cfg.releases.take t).countP Job.succeeds
      = (cfg.releases.take t).length := by omega
  rw [ht2, List.take_length] at hall
  rw [List.all_eq_true]
  exact List.countP_eq_length.mp hall

theorem blamed_init (cfg : Config) : (State.init cfg).blamed cfg := by
  refine ⟨?_, ?_, ?_, ?_⟩
  · intro job hjob
    simp [State.init] at hjob
  · intro j w hw
    have hmem : w ∈ (State.init cfg).workers := List.getElem?_mem hw
    simp only [State.init, List.mem_replicate] at hmem
    rw [hmem.2]
    exact True.intro
  · intro e he
    simp [State.init] at he
  · intro e he
    simp [State.init] at he

theorem blamed_mainStep (cfg : Config) (b : Bool) (s : State) (ha : s.accounted cfg)
    (h : s.blamed cfg) : (mainStep cfg b s).blamed cfg := by
  have h0 := h
  obtain ⟨hJ, hW, hE, hM⟩ := h
  unfold State.accounted at ha
  unfold mainStep
  cases hm : s.main with
  | enqueue k =>
    simp only
    cases hk : cfg.releases[k]? with
    | none => exact ⟨hJ, hW, hE, fun e he => Main.noConfusion he⟩
    | some job =>
      simp only
      by_cases hq : s.jobsChan.length < jobsCap
      · rw [if_pos hq]
        refine ⟨?_, hW, hE, fun e he => Main.noConfusion he⟩
        intro a ha1
        rcases List.mem_append.mp ha1 with h1 | h1
        · exact hJ a h1
        · rw [List.mem_singleton.mp h1]
          exact List.getElem?_mem hk
      · rw [if_neg hq]
        exact h0
  | collect i opDefs =>
    rw [hm] at ha
    simp only
    by_cases hi : i < cfg.releases.length
    · rw [if_pos hi]
      cases b with
      | true =>
        simp only [if_true]
        cases he : s.errChan with
        | nil => exact h0
        | cons e rest =>
          rw [he] at hE
          refine ⟨hJ, hW, fun a ha1 => hE a (List.mem_cons_of_mem _ ha1), ?_⟩
          intro e1 he1
          injection he1 with he1
          injection he1 with he1
          rw [← he1]
          exact Or.inl (hE e (List.mem_cons_self _ _))
      | false =>
        simp only [Bool.false_eq_true, if_false]
        cases ho : s.opDefChan with
        | nil => exact h0
        | cons op rest => exact ⟨hJ, hW, hE, fun e he => Main.noConfusion he⟩
    · rw [if_neg hi]
      refine ⟨hJ, hW, hE, fun e _ => Or.inr (counted_all cfg s i ha.1 (by omega))⟩
  | returned r => exact h0

theorem audited_run (cfg : Config) (sched : List Choice) (s : State)
    (h : s.accounted cfg ∧ s.blamed cfg) :
    (run cfg sched s).accounted cfg ∧ (run cfg sched s).blamed cfg := by
  induction sched generalizing s with
  | nil => exact h
  | cons c sched ih =>
    apply ih
    cases c with
    | main => exact ⟨accounted_mainStep cfg false s h.1, blamed_mainStep cfg false s h.1 h.2⟩
    | mainErr => exact ⟨accounted_mainStep cfg true s h.1, blamed_mainStep cfg true s h.1 h.2⟩
    | worker i k => exact ⟨accounted_workerStep cfg i k s h.1, blamed_workerStep cfg i k s h.2⟩

/-- The safety half of the partial-failure semantics.  When the unit of some
release of the run ends with an error then, whatever the schedule: a result
`runDownload` returns is an error "Errors on release '<name>': <cause>" that
names a release of the run whose unit ends with an error, never "no error";
and `runDownload` never gets through the loop of lines 231..241, so that the
patch document is neither serialised nor written. -/
theorem runDownload_failure (cfg : Config) (sched : List Choice)
    (hfail : ∃ job ∈ cfg.releases, job.succeeds = false) :
    (∀ r, (runDownload cfg sched).main = .returned r → ∃ e, r = some e ∧ Blames cfg e) ∧
    (∀ i opDefs, (runDownload cfg sched).main = .collect i opDefs →
      i < cfg.releases.length) := by
  obtain ⟨ha, hb⟩ := audited_run cfg sched _ ⟨accounted_init cfg, blamed_init cfg⟩
  have hnot : ¬ cfg.releases.all Job.succeeds = true := by
    intro hall
    obtain ⟨job, hjob, hj⟩ := hfail
    have := List.all_eq_true.mp hall job hjob
    rw [hj] at this
    exact Bool.noConfusion this
  unfold State.accounted at ha
  constructor
  · intro r hr
    change (run cfg sched (State.init cfg)).main = .returned r at hr
    cases r with
    | none =>
      rw [hr] at ha
      exact absurd ha hnot
    | some e =>
      rcases hb.2.2.2 e hr with h1 | h1
      · exact ⟨e, rfl, h1⟩
      · exact absurd h1 hnot
  · intro i opDefs hc
    change (run cfg sched (State.init cfg)).main = .collect i opDefs at hc
    rw [hc] at ha
    by_contra hge
    exact hnot (counted_all cfg _ i ha.1 (by omega))

/-! ### The unit inside the pool -/

theorem ZipWriter.write_nil (z : ZipWriter) (e : Entry) :
    ZipWriter.write (z ++ [e]) [] = z ++ [e] := by
  rw [ZipWriter.write_create]
  simp

/-- The steps of a worker through one unit add up to `DownloadAndCompress`: a
worker that takes a job while the mutex is free and then moves alone, copying
in one piece, leaves the world as a call of `DownloadAndCompress` does and
stands with the result of that call in its hand (lines 182..187). -/
theorem worker_runs_DownloadAndCompress (s : State) (i k : Nat) (job : Job) (rest : List Job)
    (hw : s.workers[i]? = some .recv) (hj : s.jobsChan = job :: rest)
    (hm : s.world.mux = false)
    (hk : ∀ p, (fetch job.env job.release job.hooks s.world).1 = .ready p →
      (ioCopy job.env.copyZip (packReader p)).1.length ≤ k + 1) :
    ∃ op err,
      (DownloadAndCompress job.env job.release job.hooks s.world).1 = .returned op err ∧
      (solo i k 4 (workerStep i k s)).world
        = (DownloadAndCompress job.env job.release job.hooks s.world).2 ∧
      (solo i k 4 (workerStep i k s)).workers[i]?
        = some (Worker.deliver job.release op err) := by
  have hlen := length_of_getElem? _ _ _ hw
  have hshared := fetch_shared job.env job.release job.hooks s.world
  unfold DownloadAndCompress
  cases hf : fetch job.env job.release job.hooks s.world with
  | mk r w =>
    rw [hf] at hshared hk
    have h1 : workerStep i k s =
        match r with
        | .skip => { s with jobsChan := rest, world := w
                            workers := s.workers.set i
                              (Worker.deliver job.release OpDefinition.zero none) }
        | .fail e => { s with jobsChan := rest, world := w
                              workers := s.workers.set i
                                (Worker.deliver job.release OpDefinition.zero (some e)) }
        | .ready p => { s with jobsChan := rest, world := w
                               workers := s.workers.set i (.lock job.release job.env p) } := by
      unfold workerStep
      simp only [hw, hj, hf]
      cases r <;> rfl
    cases r with
    | skip =>
      refine ⟨OpDefinition.zero, none, rfl, ?_, ?_⟩
      · rw [h1]; simp [solo, hlen, Worker.deliver, Worker.inUnit]
      · rw [h1]; simp [solo, hlen, Worker.deliver, Worker.inUnit]
    | fail e =>
      refine ⟨OpDefinition.zero, some e, rfl, ?_, ?_⟩
      · rw [h1]; simp [solo, hlen, Worker.deliver, Worker.inUnit]
      · rw [h1]; simp [solo, hlen, Worker.deliver, Worker.inUnit]
    | ready p =>
      have hwm : w.mux = false := by rw [← hm]; exact hshared.2
      have hk1 := hk p rfl
      simp only [hwm, Bool.false_eq_true, if_false]
      rw [h1]
      unfold pack
      cases hc : createEntry job.env p w.zip with
      | error e =>
        refine ⟨OpDefinition.zero, some e, rfl, ?_, ?_⟩
        · simp [solo, workerStep, hlen, Worker.inUnit, hwm, hc, Worker.deliver]
        · simp [solo, workerStep, hlen, Worker.inUnit, hwm, hc, Worker.deliver]
      | ok z =>
        obtain ⟨hdr, -, -, hz⟩ := createEntry_eq_ok job.env p w.zip z hc
        cases hio : ioCopy job.env.copyZip (packReader p) with
        | mk data err =>
          rw [hio] at hk1
          simp only at hk1
          cases data with
          | nil =>
            cases err with
            | none =>
              refine ⟨opDefinition job.release p.filename, none, rfl, ?_, ?_⟩
              · simp [solo, workerStep, hlen, Worker.inUnit, hwm, hc, hio, Worker.deliver,
                  hz, ZipWriter.write_nil]
              · simp [solo, workerStep, hlen, Worker.inUnit, hwm, hc, hio, Worker.deliver]
            | some e =>
              refine ⟨OpDefinition.zero, some e, rfl, ?_, ?_⟩
              · simp [solo, workerStep, hlen, Worker.inUnit, hwm, hc, hio, Worker.deliver,
                  hz, ZipWriter.write_nil]
              · simp [solo, workerStep, hlen, Worker.inUnit, hwm, hc, hio, Worker.deliver]
          | cons b bs =>
            simp only [List.length_cons] at hk1
            have htake : List.take k bs = bs := List.take_of_length_le (by omega)
            have hdrop : List.drop k bs = [] := List.drop_eq_nil_of_le (by omega)
            cases err with
            | none =>
              refine ⟨opDefinition job.release p.filename, none, rfl, ?_, ?_⟩
              · simp [solo, workerStep, hlen, Worker.inUnit, hwm, hc, hio, Worker.deliver,
                  htake, hdrop]
              · simp [solo, workerStep, hlen, Worker.inUnit, hwm, hc, hio, Worker.deliver,
                  htake, hdrop]
            | some e =>
              refine ⟨OpDefinition.zero, some e, rfl, ?_, ?_⟩
              · simp [solo, workerStep, hlen, Worker.inUnit, hwm, hc, hio, Worker.deliver,
                  htake, hdrop]
              · simp [solo, workerStep, hlen, Worker.inUnit, hwm, hc, hio, Worker.deliver,
                  htake, hdrop]

/-! ## The names of the entries -/

theorem pendings_set (a : Str) (l : List Worker) (i : Nat) (x y : Worker)
    (h : l[i]? = some x) :
    pendings a (l.set i y) + x.pending a = pendings a l + y.pending a := by
  unfold pendings
  induction l generalizing i with
  | nil => simp at h
  | cons b l ih =>
    cases i with
    | zero =>
      simp only [List.getElem?_cons_zero, Option.some.injEq] at h
      subst h
      simp only [List.set_cons_zero, List.map_cons, List.sum_cons]
      omega
    | succ i =>
      simp only [List.getElem?_cons_succ] at h
      have := ih i h
      simp only [List.set_cons_succ, List.map_cons, List.sum_cons]
      omega

theorem ZipWriter.names_write (z : ZipWriter) (bs : Bytes) :
    (ZipWriter.write z bs).names = z.names := by
  induction z with
  | nil => rfl
  | cons e z ih =>
    cases z with
    | nil => rfl
    | cons e2 z =>
      unfold ZipWriter.names at ih ⊢
      simp only [ZipWriter.write, List.map_cons] at ih ⊢
      rw [ih]

theorem ZipWriter.names_create (z : ZipWriter) (fh : FileHeader) :
    (z.create fh).names = z.names ++ [fh.Name] := by
  simp [ZipWriter.create, ZipWriter.names]

theorem writePatch_names (cfg : Config) (opDefs : List OpDefinition) (z : ZipWriter) :
    (writePatch cfg opDefs z).2.names = z.names ∨
      (writePatch cfg opDefs z).2.names = z.names ++ [defaultOpsFile] := by
  unfold writePatch
  cases cfg.Marshal opDefs with
  | error e => exact Or.inl rfl
  | ok yml =>
    cases cfg.CreateHeader with
    | some e => exact Or.inl rfl
    | none =>
      cases cfg.Write with
      | some e => exact Or.inr (ZipWriter.names_create z (patchHeader yml))
      | none =>
        right
        simp only
        rw [ZipWriter.names_write, ZipWriter.names_create]
        rfl

theorem Job.entryName_eq (job : Job) (w : World) :
    job.entryName =
      match (fetch job.env job.release job.hooks w).1 with
      | .ready p => some p.filename
      | _ => none := by
  unfold Job.entryName
  rw [fetch_fst job.env job.release job.hooks World.fresh w]

theorem count_snoc (a b : Str) (l : List Str) :
    (l ++ [b]).count a = l.count a + if b = a then 1 else 0 := by
  rw [List.count_append, List.count_singleton]
  by_cases h : b = a
  · simp [h]
  · have : ¬ a = b := fun h2 => h h2.symm
    simp [h, this]

theorem named_init (cfg : Config) : (State.init cfg).named cfg := by
  refine ⟨0, 0, Nat.zero_le _, Nat.le_refl _, ?_, by simp [State.init], ?_⟩
  · intro k hk
    simp only [State.init, Main.enqueue.injEq] at hk
    exact hk
  · intro a
    simp [State.init, ZipWriter.names, pendings, Worker.pending]

theorem named_workerStep (cfg : Config) (j k : Nat) (s : State) (h : s.named cfg) :
    (workerStep j k s).named cfg := by
  obtain ⟨sent, t, hsent, ht, hmain, hjobs, hcount⟩ := h
  unfold workerStep
  cases hw : s.workers[j]? with
  | none => exact ⟨sent, t, hsent, ht, hmain, hjobs, hcount⟩
  | some x =>
    have hset := fun a y => pendings_set a s.workers j x y hw
    cases x with
    | recv =>
      simp only
      cases hj : s.jobsChan with
      | nil =>
        simp only
        rw [hj] at hjobs
        by_cases hc : s.closed = true
        · rw [if_pos hc]
          refine ⟨sent, t, hsent, ht, hmain, hjobs, fun a => ?_⟩
          have := hset a .exit
          have := hcount a
          simp only [Worker.pending] at *
          omega
        · rw [if_neg hc]
          exact ⟨sent, t, hsent, ht, hmain, by rw [hj]; exact hjobs, hcount⟩
      | cons job rest =>
        simp only
        rw [hj] at hjobs
        obtain ⟨hts, hrest, htake⟩ := take_drop_cons cfg.releases sent t job rest hjobs.symm hsent
        have hname := Job.entryName_eq job s.world
        have hzip := (fetch_shared job.env job.release job.hooks s.world).1
        cases hf : fetch job.env job.release job.hooks s.world with
        | mk r w =>
          rw [hf] at hname hzip
          simp only at hzip
          have hgrow : ∀ a, ((cfg.releases.take (t + 1)).filterMap Job.entryName).count a
              = ((cfg.releases.take t).filterMap Job.entryName).count a
                + (match job.entryName with
                   | some f => if f = a then 1 else 0
                   | none => 0) := by
            intro a
            rw [htake, List.filterMap_append]
            cases he : job.entryName with
            | none => simp [List.filterMap_cons, he]
            | some f =>
              simp only [List.filterMap_cons, he, List.filterMap_nil]
              exact count_snoc a f _
          cases r with
          | skip =>
            simp only at hname
            refine ⟨sent, t + 1, hsent, hts, hmain, hrest, fun a => ?_⟩
            have h1 := hset a (Worker.deliver job.release OpDefinition.zero none)
            have h2 := hcount a
            have h3 := hgrow a
            rw [hname] at h3
            simp only [Worker.pending, Worker.deliver, hzip] at *
            omega
          | fail e =>
            simp only at hname
            refine ⟨sent, t + 1, hsent, hts, hmain, hrest, fun a => ?_⟩
            have h1 := hset a (Worker.deliver job.release OpDefinition.zero (some e))
            have h2 := hcount a
            have h3 := hgrow a
            rw [hname] at h3
            simp only [Worker.pending, Worker.deliver, hzip] at *
            omega
          | ready p =>
            simp only at hname
            refine ⟨sent, t + 1, hsent, hts, hmain, hrest, fun a => ?_⟩
            have h1 := hset a (.lock job.release job.env p)
            have h2 := hcount a
            have h3 := hgrow a
            rw [hname] at h3
            simp only [Worker.pending, hzip] at *
            omega
    | lock rel env p =>
      simp only
      by_cases hm : s.world.mux = true
      · rw [if_pos hm]
        exact ⟨sent, t, hsent, ht, hmain, hjobs, hcount⟩
      · rw [if_neg hm]
        refine ⟨sent, t, hsent, ht, hmain, hjobs, fun a => ?_⟩
        have h1 := hset a (.create rel env p)
        have h2 := hcount a
        simp only [Worker.pending] at *
        omega
    | create rel env p =>
      simp only
      cases hc : createEntry env p s.world.zip with
      | error e =>
        refine ⟨sent, t, hsent, ht, hmain, hjobs, fun a => ?_⟩
        have h1 := hset a (Worker.deliver rel OpDefinition.zero (some e))
        have h2 := hcount a
        simp only [Worker.pending, Worker.deliver, World.removeTemp] at *
        omega
      | ok z =>
        obtain ⟨hdr, hn, -, rfl⟩ := createEntry_eq_ok env p s.world.zip z hc
        refine ⟨sent, t, hsent, ht, hmain, hjobs, fun a => ?_⟩
        have h1 := hset a (.copy rel p.filename (ioCopy env.copyZip (packReader p)).1
          (ioCopy env.copyZip (packReader p)).2)
        have h2 := hcount a
        have h3 : (s.world.zip ++ [⟨hdr, []⟩] : ZipWriter).names.count a
            = s.world.zip.names.count a + if p.filename = a then 1 else 0 := by
          have e : (s.world.zip ++ [⟨hdr, []⟩] : ZipWriter).names
              = s.world.zip.names ++ [p.filename] := by
            simp [ZipWriter.names, hn]
          rw [e, count_snoc]
        simp only [Worker.pending] at *
        omega
    | copy rel filename rest err =>
      simp only
      cases rest with
      | nil =>
        refine ⟨sent, t, hsent, ht, hmain, hjobs, fun a => ?_⟩
        have h2 := hcount a
        cases err with
        | none =>
          have h1 := hset a (Worker.deliver rel (opDefinition rel filename) none)
          simp only [Worker.pending, Worker.deliver, World.removeTemp] at *
          omega
        | some e =>
          have h1 := hset a (Worker.deliver rel OpDefinition.zero (some e))
          simp only [Worker.pending, Worker.deliver, World.removeTemp] at *
          omega
      | cons b bs =>
        refine ⟨sent, t, hsent, ht, hmain, hjobs, fun a => ?_⟩
        have h1 := hset a (.copy rel filename ((b :: bs).drop (k + 1)) err)
        have h2 := hcount a
        simp only [Worker.pending, ZipWriter.names_write] at *
        omega
    | sendOp op =>
      simp only
      by_cases hfull : s.opDefChan.length < opDefCap
      · rw [if_pos hfull]
        refine ⟨sent, t, hsent, ht, hmain, hjobs, fun a => ?_⟩
        have h1 := hset a .recv
        have h2 := hcount a
        simp only [Worker.pending] at *
        omega
      · rw [if_neg hfull]
        exact ⟨sent, t, hsent, ht, hmain, hjobs, hcount⟩
    | sendErr e =>
      simp only
      by_cases hfull : s.errChan.length < errCap
      · rw [if_pos hfull]
        refine ⟨sent, t, hsent, ht, hmain, hjobs, fun a => ?_⟩
        have h1 := hset a .exit
        have h2 := hcount a
        simp only [Worker.pending] at *
        omega
      · rw [if_neg hfull]
        exact ⟨sent, t, hsent, ht, hmain, hjobs, hcount⟩
    | exit => exact ⟨sent, t, hsent, ht, hmain, hjobs, hcount⟩

theorem named_mainStep (cfg : Config) (b : Bool) (s : State) (h : s.named cfg) :
    (mainStep cfg b s).named cfg := by
  obtain ⟨sent, t, hsent, ht, hmain, hjobs, hcount⟩ := h
  unfold mainStep
  cases hm : s.main with
  | enqueue k =>
    have hk := hmain k hm
    subst hk
    rw [hm] at hcount
    simp only
    cases hk : cfg.releases[sent]? with
    | none =>
      exact ⟨sent, t, hsent, ht, fun k hk2 => Main.noConfusion hk2, hjobs, hcount⟩
    | some job =>
      simp only
      by_cases hq : s.jobsChan.length < jobsCap
      · rw [if_pos hq]
        have hkn : sent < cfg.releases.length := length_of_getElem? _ _ _ hk
        have htake : cfg.releases.take (sent + 1) = cfg.releases.take sent ++ [job] := by
          rw [List.take_succ, hk]
          rfl
        refine ⟨sent + 1, t, hkn, by omega, ?_, ?_, hcount⟩
        · intro k hk2
          simp only [Main.enqueue.injEq] at hk2
          exact hk2
        · show s.jobsChan ++ [job] = _
          rw [htake, hjobs, List.drop_append_of_le_length]
          rw [List.length_take]
          omega
      · rw [if_neg hq]
        exact ⟨sent, t, hsent, ht, hmain, hjobs, by rw [hm]; exact hcount⟩
  | collect i opDefs =>
    rw [hm] at hcount
    have hkeep : s.named cfg := ⟨sent, t, hsent, ht, hmain, hjobs, by rw [hm]; exact hcount⟩
    simp only
    by_cases hi : i < cfg.releases.length
    · rw [if_pos hi]
      cases b with
      | true =>
        simp only [if_true]
        cases he : s.errChan with
        | nil => exact hkeep
        | cons e rest =>
          refine ⟨sent, t, hsent, ht, fun k hk2 => Main.noConfusion hk2, hjobs, fun a => ?_⟩
          have := hcount a
          simp only [Main.patched] at *
          omega
      | false =>
        simp only [Bool.false_eq_true, if_false]
        cases ho : s.opDefChan with
        | nil => exact hkeep
        | cons op rest =>
          exact ⟨sent, t, hsent, ht, fun k hk2 => Main.noConfusion hk2, hjobs, hcount⟩
    · rw [if_neg hi]
      refine ⟨sent, t, hsent, ht, fun k hk2 => Main.noConfusion hk2, hjobs, fun a => ?_⟩
      have := hcount a
      simp only [Main.patched] at *
      rcases writePatch_names cfg opDefs s.world.zip with hn | hn
      · rw [hn]
        omega
      · rw [hn, count_snoc]
        omega
  | returned r =>
    exact ⟨sent, t, hsent, ht, hmain, hjobs, hcount⟩

theorem named_run (cfg : Config) (sched : List Choice) (s : State) (h : s.named cfg) :
    (run cfg sched s).named cfg := by
  induction sched generalizing s with
  | nil => exact h
  | cons c sched ih =>
    apply ih
    cases c with
    | main => exact named_mainStep cfg false s h
    | mainErr => exact named_mainStep cfg true s h
    | worker i k => exact named_workerStep cfg i k s h

theorem count_inst (a : Str) (l : List Str) :
    @List.count Str List.instBEq a l = @List.count Str instBEqOfDecidableEq a l := by
  unfold List.count
  congr 1
  funext x
  rw [Bool.eq_iff_iff]
  simp

theorem named_count (cfg : Config) (s : State) (h : s.named cfg) (a : Str) :
    s.world.zip.names.count a
      ≤ (cfg.releases.filterMap Job.entryName ++ [defaultOpsFile]).count a := by
  obtain ⟨sent, t, -, -, -, -, hcount⟩ := h
  have h1 := hcount a
  have h2 : ((cfg.releases.take t).filterMap Job.entryName).count a
      ≤ (cfg.releases.filterMap Job.entryName).count a :=
    ((List.take_sublist t cfg.releases).filterMap _).count_le a
  have h3 : s.main.patched a ≤ if defaultOpsFile = a then 1 else 0 := by
    unfold Main.patched
    split
    · exact Nat.le_refl _
    · exact Nat.zero_le _
  rw [count_snoc]
  omega

/-- C11, counterexample to the claim as written: a run over the release r0 listed twice
ends with two entries called r0-1.0.tgz, and a run over a release without name and version
whose file is called local-release.yml ends with two entries of that name, one of them the
patch document. -/
theorem runDownload_duplicate_names :
    (runDownload configTwice (scheduleOne 2)).main = .returned none ∧
    (runDownload configTwice (scheduleOne 2)).world.zip.names
      = ["r0-1.0.tgz".toList, "r0-1.0.tgz".toList, defaultOpsFile] ∧
    (runDownload configPatchNamed (scheduleOne 1)).main = .returned none ∧
    (runDownload configPatchNamed (scheduleOne 1)).world.zip.names
      = [defaultOpsFile, defaultOpsFile] := by
  decide!

/-- C11, amended: when the file names the releases of a run resolve to are pairwise
distinct and none of them is local-release.yml, the names of the entries of the archive are
pairwise distinct at every point of every run, and whenever the archive ends with an entry
called local-release.yml no entry before it has that name. -/
theorem runDownload_distinct_names (cfg : Config) (sched : List Choice)
    (h : (cfg.releases.filterMap Job.entryName ++ [defaultOpsFile]).Nodup) :
    (runDownload cfg sched).world.zip.names.Nodup ∧
    ∀ (z : ZipWriter) (e : Entry), (runDownload cfg sched).world.zip = z ++ [e] →
      e.header.Name = defaultOpsFile → ∀ x ∈ z, x.header.Name ≠ defaultOpsFile := by
  have hinv := named_run cfg sched _ (named_init cfg)
  have hnodup : (runDownload cfg sched).world.zip.names.Nodup := by
    rw [List.nodup_iff_count_le_one]
    intro a
    have h1 := named_count cfg _ hinv a
    have h2 := List.nodup_iff_count_le_one.mp h a
    rw [← count_inst] at h2
    rw [← count_inst]
    exact h1.trans h2
  refine ⟨hnodup, fun z e hz he x hx hxn => ?_⟩
  rw [hz] at hnodup
  simp only [ZipWriter.names, List.map_append, List.map_cons, List.map_nil] at hnodup
  rw [List.nodup_append] at hnodup
  exact hnodup.2.2 (List.mem_map_of_mem _ hx) (List.mem_singleton.mpr (hxn.trans he.symm))

/-- C11 at the run of five releases r0 to r4: their file names are distinct, and so are the
names of the six entries at the end of the run. -/
theorem runDownload_distinct_names_witness :
    (config5.releases.filterMap Job.entryName ++ [defaultOpsFile]).Nodup ∧
    (runDownload config5 schedule5).world.zip.names.Nodup ∧
    (runDownload config5 schedule5).world.zip.names.length = 6 :=
  ⟨by decide!, (runDownload_distinct_names config5 schedule5 (by decide!)).1, by decide!⟩

/-! ## The hooks and the status check -/

theorem pack_congr (env : Env) (release : Release) (p q : Prepared) (z : ZipWriter)
    (hf : p.filename = q.filename) (ht : p.ft = q.ft) (hr : packReader p = packReader q) :
    pack env release p z = pack env release q z := by
  unfold pack createEntry
  rw [hf, ht, hr]

theorem download_hooks (env : Env) (release : Release)
    (hooks : Int → Option Hook × Option Hook)
    (hid : ∀ size r, applyHook (hooks size).1 r = r ∧ applyHook (hooks size).2 r = r) :
    match download env release hooks, download env release noHooks with
    | .error e, .error e2 => e = e2
    | .ok p, .ok q => p.filename = q.filename ∧ p.ft = q.ft ∧ packReader p = packReader q
    | _, _ => False := by
  unfold download
  cases env.Get with
  | error e => simp
  | ok resp =>
    simp only
    by_cases hs : resp.StatusCode > 302
    · simp [hs]
    · have h1 := (hid resp.ContentLength resp.Body).1
      have h2 : applyHook (noHooks resp.ContentLength).1 resp.Body = resp.Body := rfl
      simp only [hs, if_false, h1, h2]
      cases (ioCopy env.copyTemp resp.Body).2 with
      | some e => simp
      | none =>
        simp only
        cases (checkSha1 env.hashRead (File.empty.write (ioCopy env.copyTemp resp.Body).1)
          release.SHA1).1 with
        | some e => simp
        | none =>
          simp only
          cases env.Seek with
          | some e => simp
          | none =>
            refine ⟨rfl, rfl, ?_⟩
            have := (hid resp.ContentLength
              (checkSha1 env.hashRead (File.empty.write (ioCopy env.copyTemp resp.Body).1)
                release.SHA1).2.rewind.reader).2
            simpa [packReader, applyHook] using this

theorem DownloadAndCompress_hooks (env : Env) (release : Release)
    (hooks : Int → Option Hook × Option Hook) (w : World)
    (hid : ∀ size r, applyHook (hooks size).1 r = r ∧ applyHook (hooks size).2 r = r) :
    DownloadAndCompress env release hooks w = DownloadAndCompress env release noHooks w := by
  have hd := download_hooks env release hooks hid
  unfold DownloadAndCompress fetch
  cases HasPrefix release.URL "http".toList with
  | false => rfl
  | true =>
    simp only [Bool.not_true, Bool.false_eq_true, if_false]
    cases env.TempFile with
    | some e => rfl
    | none =>
      simp only
      cases h1 : download env release hooks with
      | error e =>
        cases h2 : download env release noHooks with
        | error e2 =>
          rw [h1, h2] at hd
          simp only at hd
          rw [hd]
        | ok q => rw [h1, h2] at hd; exact hd.elim
      | ok p =>
        cases h2 : download env release noHooks with
        | error e2 => rw [h1, h2] at hd; exact hd.elim
        | ok q =>
          rw [h1, h2] at hd
          simp only at hd
          simp only [pack_congr env release p q _ hd.1 hd.2.1 hd.2.2]

theorem DownloadAndCompress_eq_ok (env : Env) (release : Release)
    (hooks : Int → Option Hook × Option Hook) (w w1 : World) (op : OpDefinition)
    (hurl : HasPrefix release.URL "http".toList = true)
    (h : DownloadAndCompress env release hooks w = (.returned op none, w1)) :
    ∃ (p : Prepared) (hdr : FileHeader), download env release hooks = .ok p ∧
      hdr.Name = p.filename ∧ w1.zip = w.zip ++ [⟨hdr, (packReader p).data⟩] := by
  unfold DownloadAndCompress at h
  rw [fetch_http _ _ _ _ hurl] at h
  cases hT : env.TempFile with
  | some e => simp [hT] at h
  | none =>
    cases hD : download env release hooks with
    | error e => simp [hT, hD] at h
    | ok p =>
      simp only [hT, hD] at h
      by_cases hm : w.mux = true
      · simp [hm] at h
      · simp only [hm, if_false, Bool.false_eq_true, Prod.mk.injEq, Outcome.returned.injEq] at h
        obtain ⟨⟨hop, herr⟩, hw⟩ := h
        have hpack : pack env release p w.zip
            = ((op, none), (pack env release p w.zip).2) := by
          rw [← hop, ← herr]
        obtain ⟨-, -, hdr, hn, -, hz⟩ := pack_eq_ok env release p w.zip _ op hpack
        refine ⟨p, hdr, rfl, hn, ?_⟩
        rw [← hw]
        exact hz

/-- C12: hooks that hand their reader back unchanged, absent ones included, are not seen:
the call ends as it does with both hooks nil, in the same world; and when the call for a
network release succeeds, the archive has gained one entry, under the resolved file name,
whose bytes are the bytes of the response body. -/
theorem DownloadAndCompress_hooks_observational (env : Env) (release : Release)
    (hooks : Int → Option Hook × Option Hook) (w : World)
    (hid : ∀ size r, applyHook (hooks size).1 r = r ∧ applyHook (hooks size).2 r = r) :
    DownloadAndCompress env release hooks w = DownloadAndCompress env release noHooks w ∧
    ∀ op w1, HasPrefix release.URL "http".toList = true →
      DownloadAndCompress env release hooks w = (.returned op none, w1) →
      ∃ (resp : Response) (hdr : FileHeader), env.Get = .ok resp ∧
        hdr.Name = resolveFilename release (sourceFilename env resp) ∧
        w1.zip = w.zip ++ [⟨hdr, resp.Body.data⟩] := by
  refine ⟨DownloadAndCompress_hooks env release hooks w hid, fun op w1 hurl h => ?_⟩
  obtain ⟨p, hdr, hD, hn, hz⟩ := DownloadAndCompress_eq_ok env release hooks w w1 op hurl h
  obtain ⟨resp, hG, -, hcopy, -, -, hname, hpos, hhook⟩ := download_eq_ok env release hooks p hD
  refine ⟨resp, hdr, hG, hn.trans hname, ?_⟩
  rw [hz]
  have hdata : p.ft.data = resp.Body.data := by
    rw [(hid _ _).1] at hcopy
    unfold ioCopy at hcopy
    cases hc : env.copyTemp with
    | some e => rw [hc] at hcopy; simp at hcopy
    | none =>
      rw [hc] at hcopy
      simp only [Prod.mk.injEq] at hcopy
      exact hcopy.1.symm
  have hreader : (packReader p).data = resp.Body.data := by
    unfold packReader
    rw [hhook, (hid _ _).2]
    simp [File.reader, hpos, hdata]
  rw [hreader]

/-- C12 for the identity hooks and a server that answers `abc`: the call ends as with nil
hooks and the entry holds `abc`. -/
theorem DownloadAndCompress_hooks_observational_witness :
    DownloadAndCompress (Env.serving "/bar.tgz".toList [97, 98, 99])
        (Release.sample "bar".toList) idHooks World.fresh
      = DownloadAndCompress (Env.serving "/bar.tgz".toList [97, 98, 99])
        (Release.sample "bar".toList) noHooks World.fresh ∧
    ((DownloadAndCompress (Env.serving "/bar.tgz".toList [97, 98, 99])
        (Release.sample "bar".toList) idHooks World.fresh).2.zip.map
          (fun e => (e.header.Name, e.data)))
      = [("bar-1.0.tgz".toList, [97, 98, 99])] :=
  ⟨(DownloadAndCompress_hooks_observational (Env.serving "/bar.tgz".toList [97, 98, 99])
      (Release.sample "bar".toList) idHooks World.fresh (fun _ _ => ⟨rfl, rfl⟩)).1,
   by decide⟩

theorem DownloadAndCompress_congr (env env2 : Env) (release : Release)
    (hooks : Int → Option Hook × Option Hook) (w : World)
    (hT : env2.TempFile = env.TempFile)
    (hD : download env2 release hooks = download env release hooks)
    (hP : ∀ p z, pack env2 release p z = pack env release p z) :
    DownloadAndCompress env2 release hooks w = DownloadAndCompress env release hooks w := by
  unfold DownloadAndCompress fetch
  rw [hT, hD]
  simp only [hP]

/-- C14: for a network release whose request is answered, a status code above 302 makes
DownloadAndCompress return the empty fragment with the error "non valid status: " followed
by the status, the archive left as it was; with a status code of 302 or less the call does
what it does when the same response carries the code 200. -/
theorem DownloadAndCompress_status (env : Env) (release : Release)
    (hooks : Int → Option Hook × Option Hook) (w : World) (resp : Response)
    (hurl : HasPrefix release.URL "http".toList = true) (hT : env.TempFile = none)
    (hG : env.Get = .ok resp) :
    (resp.StatusCode > 302 →
      (DownloadAndCompress env release hooks w).1
          = .returned OpDefinition.zero (some ("non valid status: ".toList ++ resp.Status)) ∧
        (DownloadAndCompress env release hooks w).2.zip = w.zip) ∧
    (resp.StatusCode ≤ 302 →
      DownloadAndCompress env release hooks w
        = DownloadAndCompress { env with Get := .ok { resp with StatusCode := 200 } }
            release hooks w) := by
  constructor
  · intro hs
    have hD : download env release hooks
        = .error ("non valid status: ".toList ++ resp.Status) := by
      unfold download
      rw [hG]
      simp only
      rw [if_pos hs]
    unfold DownloadAndCompress
    rw [fetch_http _ _ _ _ hurl, hT]
    simp only
    rw [hD]
    exact ⟨rfl, rfl⟩
  · intro hs
    have hD : download env release hooks
        = download { env with Get := .ok { resp with StatusCode := 200 } } release hooks := by
      unfold download
      rw [hG]
      simp only
      rw [if_neg (by omega), if_neg (by decide)]
      rfl
    exact (DownloadAndCompress_congr env
      { env with Get := .ok { resp with StatusCode := 200 } } release hooks w rfl hD.symm
      (fun p z => rfl)).symm

/-- C14 at the codes 404 and 302: the first is refused, the second goes through as 200
does and the body is packed. -/
theorem DownloadAndCompress_status_witness :
    (DownloadAndCompress (Job.bad "r0".toList).env (Release.sample "r0".toList) noHooks
        World.fresh).1
      = .returned OpDefinition.zero (some "non valid status: 404 Not Found".toList) ∧
    (DownloadAndCompress (Job.bad "r0".toList).env (Release.sample "r0".toList) noHooks
        World.fresh).2.zip = [] ∧
    DownloadAndCompress (Env.found "/r0.tgz".toList [1, 2, 3]) (Release.sample "r0".toList)
        noHooks World.fresh
      = DownloadAndCompress
          { Env.found "/r0.tgz".toList [1, 2, 3] with
            Get := .ok { Response.found [1, 2, 3] with StatusCode := 200 } }
          (Release.sample "r0".toList) noHooks World.fresh ∧
    (DownloadAndCompress (Env.found "/r0.tgz".toList [1, 2, 3]) (Release.sample "r0".toList)
        noHooks World.fresh).1
      = .returned (opDefinition (Release.sample "r0".toList) "r0-1.0.tgz".toList) none :=
  ⟨((DownloadAndCompress_status (Job.bad "r0".toList).env (Release.sample "r0".toList) noHooks
      World.fresh Response.notFound (by decide) rfl rfl).1 (by decide)).1,
   ((DownloadAndCompress_status (Job.bad "r0".toList).env (Release.sample "r0".toList) noHooks
      World.fresh Response.notFound (by decide) rfl rfl).1 (by decide)).2,
   (DownloadAndCompress_status (Env.found "/r0.tgz".toList [1, 2, 3])
      (Release.sample "r0".toList) noHooks World.fresh (Response.found [1, 2, 3])
      (by decide) rfl rfl).2 (by decide),
   by decide⟩

/-- C13: for a patch document of `L` bytes (a Go slice, so `L` is below 2^63) the header
declares the 64-bit size `L` and the 32-bit size the smaller of `L` and 2^32 - 1: `L` itself
when it fits, the maximum, not `L` modulo 2^32, when it does not. -/
theorem patchHeader_size (opDefsYml : Bytes) (h : opDefsYml.length < 2 ^ 63) :
    (patchHeader opDefsYml).UncompressedSize64 = opDefsYml.length ∧
    (patchHeader opDefsYml).UncompressedSize = min opDefsYml.length (2 ^ 32 - 1) ∧
    (opDefsYml.length ≤ 2 ^ 32 - 1 →
      (patchHeader opDefsYml).UncompressedSize = opDefsYml.length) ∧
    (opDefsYml.length > 2 ^ 32 - 1 → (patchHeader opDefsYml).UncompressedSize = 2 ^ 32 - 1) := by
  have h64 : opDefsYml.length % 2 ^ 64 = opDefsYml.length := Nat.mod_eq_of_lt (by omega)
  have hshift : (1 <<< 32 : Nat) = 2 ^ 32 := by decide
  have h1 : (patchHeader opDefsYml).UncompressedSize64 = opDefsYml.length := by
    unfold patchHeader
    exact h64
  have h2 : (patchHeader opDefsYml).UncompressedSize
      = if opDefsYml.length > 2 ^ 32 - 1 then 2 ^ 32 - 1 else opDefsYml.length % 2 ^ 32 := by
    unfold patchHeader
    simp only [h64, hshift]
  refine ⟨h1, ?_, ?_, ?_⟩
  · rw [h2]
    split
    · omega
    · rw [Nat.mod_eq_of_lt (by omega)]
      omega
  · intro hle
    rw [h2, if_neg (by omega), Nat.mod_eq_of_lt (by omega)]
  · intro hgt
    rw [h2, if_pos hgt]

/-- C13 at a document of 2^32 bytes: the 64-bit size is 4294967296 and the 32-bit size is
capped at 4294967295, where truncation would give 0. -/
theorem patchHeader_size_witness :
    (patchHeader (List.replicate (2 ^ 32) 0)).UncompressedSize64 = 2 ^ 32 ∧
    (patchHeader (List.replicate (2 ^ 32) 0)).UncompressedSize = 2 ^ 32 - 1 :=
  ⟨(patchHeader_size (List.replicate (2 ^ 32) 0)
      (lt_of_eq_of_lt (List.length_replicate _ _) (by decide))).1.trans
      (List.length_replicate _ _),
   (patchHeader_size (List.replicate (2 ^ 32) 0)
      (lt_of_eq_of_lt (List.length_replicate _ _) (by decide))).2.2.2
      (lt_of_lt_of_eq (by decide) (List.length_replicate _ _).symm)⟩
/-! ## The arguments of a command -/

theorem utf8Char_ne_nil (c : Char) : utf8Char c ≠ [] := by
  unfold utf8Char
  simp only
  split_ifs <;> simp

theorem toNat_ofNat_byte (b : Nat) (h : b < 192) : (Char.ofNat b).toNat = b := by
  unfold Char.ofNat
  rw [dif_pos (Or.inl (by omega))]
  rfl

theorem utf8Char_last (c q : Char) (hq : q.toNat < 0x80) :
    ∃ b, (utf8Char c).getLast? = some b ∧ (Char.ofNat b = q ↔ c = q) := by
  have key : ∀ r, 128 ≤ r → r < 192 → ¬ Char.ofNat r = q ∧ ¬ c.toNat ≤ 0x7f → 
      (Char.ofNat r = q ↔ c = q) := by
    intro r h1 h2 h
    constructor
    · intro h3; exact absurd h3 h.1
    · intro h3; subst h3; exact absurd (by omega) h.2
  have ne : ∀ r, 128 ≤ r → r < 192 → ¬ Char.ofNat r = q := by
    intro r h1 h2 h3
    have := toNat_ofNat_byte r h2
    rw [h3] at this
    omega
  unfold utf8Char
  simp only
  split_ifs with h1 h2 h3
  · exact ⟨c.toNat, rfl, by rw [Char.ofNat_toNat]⟩
  · exact ⟨0x80 + c.toNat % 64, rfl, key _ (by omega) (by omega) ⟨ne _ (by omega) (by omega), h1⟩⟩
  · exact ⟨0x80 + c.toNat % 64, rfl, key _ (by omega) (by omega) ⟨ne _ (by omega) (by omega), h1⟩⟩
  · exact ⟨0x80 + c.toNat % 64, rfl, key _ (by omega) (by omega) ⟨ne _ (by omega) (by omega), h1⟩⟩

theorem utf8_append (s t : Str) : utf8 (s ++ t) = utf8 s ++ utf8 t := by
  simp [utf8]

theorem utf8_eq_nil (s : Str) : utf8 s = [] ↔ s = [] := by
  cases s with
  | nil => simp [utf8]
  | cons c s =>
    have := utf8Char_ne_nil c
    simp [utf8, this]

theorem utf8_ascii (q : Char) (hq : q.toNat < 0x80) : utf8Char q = [q.toNat] := by
  unfold utf8Char
  simp only
  rw [if_pos (by omega)]

theorem closing_eq (q : Char) (hq : q.toNat < 0x80) (t : Str) :
    closing t [q] = some (closesGroup q t) := by
  unfold closing closesGroup
  rcases List.eq_nil_or_concat t with rfl | ⟨init, c, rfl⟩
  · simp [utf8]
  · rw [List.concat_eq_append]
    obtain ⟨b, hb, hbq⟩ := utf8Char_last c q hq
    have hlast : (utf8 (init ++ [c]))[(utf8 (init ++ [c])).length - 1]? = some b := by
      rw [← List.getLast?_eq_getElem?, utf8_append,
        List.getLast?_append_of_ne_nil _ (by simpa [utf8] using utf8Char_ne_nil c)]
      simpa [utf8] using hb
    rw [hlast]
    by_cases hc : c = q
    · subst hc
      have hb2 : byteString b = [c] := by
        unfold byteString
        rw [hbq.mpr rfl]
      have hlen : (utf8 (init ++ [c])).length > 1 ↔ init ≠ [] := by
        rw [utf8_append]
        have : utf8 [c] = [c.toNat] := by simpa [utf8] using utf8_ascii c hq
        rw [this]
        simp only [List.length_append, List.length_singleton]
        have h1 := utf8_eq_nil init
        have h2 := @List.length_pos _ (utf8 init)
        constructor
        · intro h h3
          rw [h1.mpr h3] at h
          simp at h
        · intro h
          have := h2.mpr (fun h3 => h (h1.mp h3))
          omega
      by_cases hi : init = []
      · subst hi
        rw [if_neg (by rw [hlen]; simp)]
        simp
      · rw [if_pos (hlen.mpr hi)]
        have : (init ++ [c]).length > 1 := by
          have := List.length_pos.mpr hi
          simp
          omega
        simp only [hb2, beq_self_eq_true, this, decide_True, Bool.true_and,
          List.getLast?_concat]
    · have hb2 : (byteString b == [q]) = false := by
        unfold byteString
        simpa using fun h => hc (hbq.mp h)
      have hl : ((init ++ [c]).getLast? == some q) = false := by
        simpa using hc
      simp only [hb2, hl, Bool.and_false]
      split <;> rfl

theorem quote_ascii (q : Char) (h : [q] = doubleQuote ∨ [q] = singleQuote) :
    q.toNat < 0x80 := by
  rcases h with h | h <;>
  · injection h with h
    subst h
    decide

theorem opensGroup_iff (t : Str) :
    opensGroup t = true ↔
      ∃ q rest, t = q :: rest ∧ ([q] = doubleQuote ∨ [q] = singleQuote) := by
  unfold opensGroup HasPrefix doubleQuote singleQuote
  cases t with
  | nil => simp
  | cons c rest =>
    simp only [List.isPrefixOf, Bool.and_true, Bool.or_eq_true, beq_iff_eq, List.cons.injEq,
      and_true]
    constructor
    · rintro (h | h)
      · exact ⟨c, rest, ⟨rfl, rfl⟩, Or.inl h.symm⟩
      · exact ⟨c, rest, ⟨rfl, rfl⟩, Or.inr h.symm⟩
    · rintro ⟨q, r, ⟨h1, _⟩, h | h⟩
      · exact Or.inl (h1 ▸ h.symm)
      · exact Or.inr (h1 ▸ h.symm)

theorem sliceStep_plain (fc : List Str) (t : Str) (h : opensGroup t = false) :
    sliceStep ⟨fc, [], []⟩ t = some ⟨fc ++ [t], [], []⟩ := by
  unfold opensGroup at h
  rw [Bool.or_eq_false_iff] at h
  unfold sliceStep
  simp [h.1, h.2]

theorem sliceStep_open (fc : List Str) (q : Char) (rest : Str)
    (hq : [q] = doubleQuote ∨ [q] = singleQuote) :
    sliceStep ⟨fc, [], []⟩ (q :: rest)
      = some (if closesGroup q (q :: rest) then ⟨fc ++ [q :: rest], [], []⟩
          else ⟨fc, q :: rest, [q]⟩) := by
  have hopen : (!HasPrefix (q :: rest) doubleQuote && !HasPrefix (q :: rest) singleQuote
      && ([] : Str) == []) = false := by
    have := (opensGroup_iff (q :: rest)).mpr ⟨q, rest, rfl, hq⟩
    unfold opensGroup at this
    rcases Bool.or_eq_true _ _ |>.mp this with h | h <;> simp [h]
  have hfirst : (utf8 (q :: rest))[0]? = some q.toNat := by
    have : utf8 (q :: rest) = q.toNat :: utf8 rest := by
      simp [utf8, utf8_ascii q (quote_ascii q hq)]
    rw [this]
    simp
  unfold sliceStep
  dsimp only
  rw [if_neg (by rw [hopen]; exact Bool.false_ne_true)]
  simp only [beq_self_eq_true, if_true, hfirst, byteString,
    Char.ofNat_toNat, closing_eq q (quote_ascii q hq)]
  cases closesGroup q (q :: rest) <;> rfl

theorem sliceStep_inside (fc : List Str) (text : Str) (q : Char) (t : Str)
    (hq : [q] = doubleQuote ∨ [q] = singleQuote) (ht : text ≠ []) :
    sliceStep ⟨fc, text, [q]⟩ t
      = some (if closesGroup q t then ⟨fc ++ [text ++ ' ' :: t], [], []⟩
          else ⟨fc, text ++ ' ' :: t, [q]⟩) := by
  have htext : (text == []) = false := by simpa using ht
  unfold sliceStep
  simp only [htext, Bool.and_false, Bool.false_eq_true, if_false, closing_eq q (quote_ascii q hq)]
  have : (([q] : Str) == []) = false := rfl
  simp only [this, Bool.false_eq_true, if_false]
  rw [closing_eq q (quote_ascii q hq)]
  cases closesGroup q t <;> rfl

theorem sliceStep_total (st : Slicer) (t : Str) (h : st.ok) :
    ∃ st2, sliceStep st t = some st2 ∧ st2.ok := by
  obtain ⟨fc, text, identifier⟩ := st
  rcases h with ⟨h1, h2⟩ | ⟨h1, h2⟩
  · simp only at h1 h2
    subst h1 h2
    cases ho : opensGroup t with
    | false => exact ⟨_, sliceStep_plain fc t ho, Or.inl ⟨rfl, rfl⟩⟩
    | true =>
      obtain ⟨q, rest, rfl, hq⟩ := (opensGroup_iff t).mp ho
      refine ⟨_, sliceStep_open fc q rest hq, ?_⟩
      cases closesGroup q (q :: rest)
      · exact Or.inr ⟨by simp, hq⟩
      · exact Or.inl ⟨rfl, rfl⟩
  · simp only at h1 h2
    have hq : ∃ q, identifier = [q] ∧ ([q] = doubleQuote ∨ [q] = singleQuote) := by
      rcases h2 with h | h
      · exact ⟨_, h, Or.inl rfl⟩
      · exact ⟨_, h, Or.inr rfl⟩
    obtain ⟨q, rfl, hq⟩ := hq
    refine ⟨_, sliceStep_inside fc text q t hq h1, ?_⟩
    cases closesGroup q t
    · exact Or.inr ⟨by simp, h2⟩
    · exact Or.inl ⟨rfl, rfl⟩

theorem sliceLoop_total (raws : List Str) (st : Slicer) (h : st.ok) :
    ∃ st2, sliceLoop raws st = some st2 ∧ st2.ok := by
  induction raws generalizing st with
  | nil => exact ⟨st, rfl, h⟩
  | cons raw rest ih =>
    obtain ⟨st1, h1, hok⟩ := sliceStep_total st (TrimSpace raw) h
    obtain ⟨st2, h2, hok2⟩ := ih st1 hok
    exact ⟨st2, by rw [sliceLoop, h1]; exact h2, hok2⟩

theorem sliceLoop_eq (raws : List Str) (st : Slicer) :
    sliceLoop raws st = sliceTokens (raws.map TrimSpace) st := by
  induction raws generalizing st with
  | nil => rfl
  | cons raw rest ih =>
    rw [sliceLoop, List.map_cons, sliceTokens]
    cases sliceStep st (TrimSpace raw) with
    | none => rfl
    | some st1 => exact ih st1

theorem sliceTokens_append (a b : List Str) (st : Slicer) :
    sliceTokens (a ++ b) st = (sliceTokens a st).bind (sliceTokens b) := by
  induction a generalizing st with
  | nil => rfl
  | cons t a ih =>
    rw [List.cons_append, sliceTokens, sliceTokens]
    cases sliceStep st t with
    | none => rfl
    | some st1 => exact ih st1

theorem spaced_cons (t : Str) (ts : List Str) : spaced (t :: ts) = ' ' :: t ++ spaced ts := by
  simp [spaced]

theorem Join_cons (t : Str) (ts : List Str) : Join (t :: ts) = t ++ spaced ts := by
  induction ts generalizing t with
  | nil => simp [Join, spaced, List.intercalate]
  | cons u ts ih =>
    have h := ih u
    unfold Join List.intercalate at h ⊢
    rw [List.intersperse, List.flatten, List.flatten, h, spaced_cons]
    · simp
    · simp

theorem spaced_Join (b : List Str) (h : b ≠ []) : spaced [Join b] = spaced b := by
  cases b with
  | nil => exact absurd rfl h
  | cons t ts => rw [Join_cons, spaced_cons, spaced_cons]; simp [spaced]

theorem Join_eq_tail (ts : List Str) : Join ts = (spaced ts).tail := by
  cases ts with
  | nil => rfl
  | cons t ts => rw [Join_cons, spaced_cons]; rfl

theorem sliceTokens_group (q : Char) (hq : [q] = doubleQuote ∨ [q] = singleQuote)
    (ts : List Str) (fc : List Str) (text : Str) (ht : text ≠ []) (h : closedBy q ts = true) :
    sliceTokens ts ⟨fc, text, [q]⟩ = some ⟨fc ++ [text ++ spaced ts], [], []⟩ := by
  induction ts generalizing text with
  | nil => simp [closedBy] at h
  | cons t ts ih =>
    rw [sliceTokens, sliceStep_inside fc text q t hq ht, spaced_cons]
    unfold closedBy at h
    cases ts with
    | nil =>
      simp only [List.isEmpty_nil, if_true] at h
      simp [h, sliceTokens, spaced]
    | cons u ts =>
      simp only [List.isEmpty_cons, Bool.false_eq_true, if_false, Bool.and_eq_true,
        Bool.not_eq_true'] at h
      simp only [h.1, Bool.false_eq_true, if_false]
      rw [ih (text ++ ' ' :: t) (by simp) h.2]
      simp

theorem sliceTokens_block (b : List Str) (fc : List Str) (h : IsBlock b = true) :
    sliceTokens b ⟨fc, [], []⟩ = some ⟨fc ++ [Join b], [], []⟩ := by
  cases b with
  | nil => simp [IsBlock] at h
  | cons t ts =>
    unfold IsBlock at h
    cases ho : opensGroup t with
    | false =>
      simp only [ho, Bool.false_eq_true, if_false, List.isEmpty_iff] at h
      subst h
      rw [sliceTokens, sliceStep_plain fc t ho]
      simp [sliceTokens, Join, List.intercalate]
    | true =>
      obtain ⟨q, rest, rfl, hq⟩ := (opensGroup_iff t).mp ho
      simp only [ho, if_true, List.head?_cons] at h
      rw [sliceTokens, sliceStep_open fc q rest hq, Join_cons]
      unfold closedBy at h
      cases ts with
      | nil =>
        simp only [List.isEmpty_nil, if_true] at h
        simp [h, sliceTokens, spaced]
      | cons u ts =>
        simp only [List.isEmpty_cons, Bool.false_eq_true, if_false, Bool.and_eq_true,
          Bool.not_eq_true'] at h
        simp only [h.1, Bool.false_eq_true, if_false]
        exact sliceTokens_group q hq (u :: ts) fc (q :: rest) (by simp) h.2

theorem sliceTokens_blocks (blocks : List (List Str)) (fc : List Str)
    (h : ∀ b ∈ blocks, IsBlock b = true) :
    sliceTokens blocks.flatten ⟨fc, [], []⟩ = some ⟨fc ++ blocks.map Join, [], []⟩ := by
  induction blocks generalizing fc with
  | nil => simp [sliceTokens]
  | cons b blocks ih =>
    rw [List.flatten, sliceTokens_append, sliceTokens_block b fc (h b (List.mem_cons_self _ _))]
    simp only [Option.bind]
    rw [ih (fc ++ [Join b]) (fun x hx => h x (List.mem_cons_of_mem _ hx))]
    simp

theorem spaced_blocks (blocks : List (List Str)) (h : ∀ b ∈ blocks, IsBlock b = true) :
    spaced (blocks.map Join) = spaced blocks.flatten := by
  induction blocks with
  | nil => rfl
  | cons b blocks ih =>
    have hb : b ≠ [] := by
      intro hb
      have := h b (List.mem_cons_self _ _)
      rw [hb] at this
      simp [IsBlock] at this
    have h1 := spaced_Join b hb
    have h2 := ih (fun x hx => h x (List.mem_cons_of_mem _ hx))
    simp only [spaced, List.map_cons, List.flatMap_cons, List.flatten, List.flatMap_append,
      List.flatMap_nil, List.append_nil] at h1 h2 ⊢
    rw [h1, h2]

/-- C17, which the code does not meet.  In `echo " hi "` and in `echo "hi "` the quoted
group is closed by a later piece that ends in the same quote, the quote alone; the test
`len(splitCommand) > 1` keeps that piece from closing the group, the text gathered so far
is dropped when the loop ends, and the function returns `echo` alone, so the joins
differ. -/
theorem createCommandSlice_lone_quote :
    tokens loneQuoteCommand = ["echo".toList, doubleQuote, "hi".toList, doubleQuote] ∧
    opensGroup doubleQuote = true ∧ HasSuffix doubleQuote doubleQuote = true ∧
    createCommandSlice loneQuoteCommand = some ["echo".toList] ∧
    Join ["echo".toList] ≠ Join (tokens loneQuoteCommand) ∧
    tokens trailingQuoteCommand = ["echo".toList, doubleQuote ++ "hi".toList, doubleQuote] ∧
    opensGroup (doubleQuote ++ "hi".toList) = true ∧
    createCommandSlice trailingQuoteCommand = some ["echo".toList] ∧
    Join ["echo".toList] ≠ Join (tokens trailingQuoteCommand) := by
  decide

/-- What createCommandSlice does do: it returns for every command, never reading a byte
out of range; and when the trimmed pieces of the command split into blocks, each either one
piece that starts with no quote or a group running from a piece that starts with a quote to
the first piece that passes the closing test of the code (more than one character, ending in
that quote), the arguments are the blocks, each joined by single spaces with its quotes
kept, and joining the arguments by single spaces gives the pieces joined by single
spaces. -/
theorem createCommandSlice_blocks (command : Str) :
    (∃ args, createCommandSlice command = some args) ∧
    ∀ blocks : List (List Str), (∀ b ∈ blocks, IsBlock b = true) →
      tokens command = blocks.flatten →
      createCommandSlice command = some (blocks.map Join) ∧
        Join (blocks.map Join) = Join (tokens command) := by
  refine ⟨?_, fun blocks hb ht => ⟨?_, ?_⟩⟩
  · obtain ⟨st, h, _⟩ := sliceLoop_total (Split command ' ') ⟨[], [], []⟩ (Or.inl ⟨rfl, rfl⟩)
    exact ⟨st.finalCommands, by rw [createCommandSlice, h]; rfl⟩
  · unfold tokens at ht
    rw [createCommandSlice, sliceLoop_eq, ht, sliceTokens_blocks blocks [] hb]
    rfl
  · rw [ht, Join_eq_tail, Join_eq_tail, spaced_blocks blocks hb]

/-- The command `echo "a b" c` gives three arguments, the quoted group in one piece. -/
theorem createCommandSlice_blocks_witness :
    (∀ b ∈ quotedBlocks, IsBlock b = true) ∧ tokens quotedCommand = quotedBlocks.flatten ∧
    createCommandSlice quotedCommand
      = some ["echo".toList, doubleQuote ++ "a b".toList ++ doubleQuote, "c".toList] ∧
    Join (quotedBlocks.map Join) = Join (tokens quotedCommand) :=
  ⟨by decide, by decide,
    ((createCommandSlice_blocks quotedCommand).2 quotedBlocks (by decide) (by decide)).1.trans
      (by decide),
    ((createCommandSlice_blocks quotedCommand).2 quotedBlocks (by decide) (by decide)).2⟩

/-! ## The number of workers -/

theorem workerStep_workers (i k : Nat) (s : State) :
    (workerStep i k s).workers.length = s.workers.length := by
  unfold workerStep
  repeat' split
  all_goals simp

theorem mainStep_workers (cfg : Config) (takeErr : Bool) (s : State) :
    (mainStep cfg takeErr s).workers.length = s.workers.length := by
  unfold mainStep
  repeat' split
  all_goals simp

theorem step_workers (cfg : Config) (c : Choice) (s : State) :
    (step cfg c s).workers.length = s.workers.length := by
  cases c with
  | main => exact mainStep_workers cfg false s
  | mainErr => exact mainStep_workers cfg true s
  | worker i k => exact workerStep_workers i k s

theorem run_workers (cfg : Config) (sched : List Choice) (s : State) :
    (run cfg sched s).workers.length = s.workers.length := by
  induction sched generalizing s with
  | nil => rfl
  | cons c sched ih =>
    unfold run at ih ⊢
    rw [List.foldl_cons, ih, step_workers]

theorem runDownload_workers (cfg : Config) (sched : List Choice) :
    (runDownload cfg sched).workers.length = cfg.Parallel.toNat := by
  unfold runDownload
  rw [run_workers]
  simp [State.init]

/-- C15: Execute starts 3 workers when the configured parallelism is 0 or less and as
many as configured otherwise, so at least one; and with a parallelism of 0 or less it
does, under every schedule, what it does with a parallelism of 3. -/
theorem Execute_parallel (c : BrdCommand) (sched : List Choice) :
    (c.Parallel ≤ 0 → Execute c sched = Execute { c with Parallel := 3 } sched) ∧
    ∀ s, Execute c sched = .ok s →
      (s.workers.length : Int) = (if c.Parallel ≤ 0 then 3 else c.Parallel) ∧
        1 ≤ s.workers.length := by
  constructor
  · intro hp
    unfold Execute
    simp [hp]
  · intro s hs
    unfold Execute at hs
    dsimp only at hs
    split at hs
    · exact Except.noConfusion hs
    · split at hs
      · exact Except.noConfusion hs
      · injection hs with hs
        have hlen := runDownload_workers
          ((if c.Parallel ≤ 0 then { c with Parallel := 3 } else c).config ‹_›) sched
        rw [hs] at hlen
        by_cases hp : c.Parallel ≤ 0
        · simp only [hp, if_true, BrdCommand.config] at hlen ⊢
          rw [hlen]
          decide
        · simp only [hp, if_false, BrdCommand.config] at hlen ⊢
          rw [hlen]
          omega

/-- C15 at a parallelism of -2 over five releases: the run is the run with three
workers, and three workers are there at its end. -/
theorem Execute_parallel_witness :
    Execute (BrdCommand.sample (-2)) schedule5 = Execute (BrdCommand.sample 3) schedule5 ∧
    (Execute (BrdCommand.sample (-2)) schedule5).toOption.map (fun s => s.workers.length)
      = some 3 :=
  ⟨(Execute_parallel (BrdCommand.sample (-2)) schedule5).1 (by decide), by decide!⟩
/-! ## Running a script on the directors -/

theorem privilegeIfNeeded_on (a : CommandRunner) (commands : List Str)
    (h : a.boshCommanderScript.Sudo = true) :
    privilegeIfNeeded a commands = commands.map (fun command => "sudo ".toList ++ command) := by
  unfold privilegeIfNeeded
  cases commands with
  | nil => simp
  | cons c cs => simp [h]

theorem privilegeIfNeeded_off (a : CommandRunner) (commands : List Str)
    (h : a.boshCommanderScript.Sudo = false) : privilegeIfNeeded a commands = commands := by
  unfold privilegeIfNeeded
  simp [h]

/-- Whenever `Run` gets as far as the instances, it leaves the runner with the script
that `privilegeIfNeeded` has written. -/
theorem Run_script (a : CommandRunner) (director : BoshDirector)
    (boshSshInstances : List BoshSshInstance) (hg : director.GenerateDirector = none)
    (hf : director.FindBoshSshInstances = .ok boshSshInstances) :
    (Run a director).2.1.boshCommanderScript =
      { Sudo := a.boshCommanderScript.Sudo,
        Script := privilegeIfNeeded a a.boshCommanderScript.Script,
        AfterAll := privilegeIfNeeded a a.boshCommanderScript.AfterAll } := by
  unfold Run
  rw [hg, hf]
  dsimp only
  have hp : ∀ cs, privilegeIfNeeded
      ⟨{ a.boshCommanderScript with Script := privilegeIfNeeded a a.boshCommanderScript.Script }⟩ cs
      = privilegeIfNeeded a cs := fun cs => rfl
  split
  · split <;> simp [hp]
  · simp [hp]

/-- In privileged mode every `Run` that gets as far as the instances prefixes the stored
commands once more. -/
theorem Run_script_sudo (a : CommandRunner) (director : BoshDirector)
    (boshSshInstances : List BoshSshInstance) (hg : director.GenerateDirector = none)
    (hf : director.FindBoshSshInstances = .ok boshSshInstances)
    (hs : a.boshCommanderScript.Sudo = true) :
    (Run a director).2.1.boshCommanderScript =
      { Sudo := true,
        Script := a.boshCommanderScript.Script.map (fun command => "sudo ".toList ++ command),
        AfterAll :=
          a.boshCommanderScript.AfterAll.map (fun command => "sudo ".toList ++ command) } := by
  rw [Run_script a director boshSshInstances hg hf, privilegeIfNeeded_on a _ hs,
    privilegeIfNeeded_on a _ hs, hs]

/-- With privileged mode off `Run` leaves the stored script as it was. -/
theorem Run_script_plain (a : CommandRunner) (director : BoshDirector)
    (hs : a.boshCommanderScript.Sudo = false) : (Run a director).2.1 = a := by
  cases hg : director.GenerateDirector with
  | some err => unfold Run; rw [hg]
  | none =>
    cases hf : director.FindBoshSshInstances with
    | error err => unfold Run; rw [hg, hf]
    | ok boshSshInstances =>
      have := Run_script a director boshSshInstances hg hf
      rw [privilegeIfNeeded_off a _ hs, privilegeIfNeeded_off a _ hs] at this
      cases h : (Run a director).2.1 with
      | mk s =>
        rw [h] at this
        simp only at this
        rw [this]

/-- C16, the defect: with the script `ls` (after all: `id`) in privileged mode and two
directors that each have one running instance, the first director is sent `sudo ls` and
`sudo id` but the second is sent `sudo sudo ls` and `sudo sudo id`, because
privilegeIfNeeded has rewritten the runner's stored script, which ends as `sudo sudo ls`. -/
theorem runOnEnvs_sudo_twice :
    (runOnEnvs (NewCommandRunner Script.sample) [.ok BoshDirector.up, .ok BoshDirector.up]).1
      = [[["sudo".toList, "ls".toList], ["sudo".toList, "id".toList]],
         [["sudo".toList, "sudo".toList, "ls".toList],
          ["sudo".toList, "sudo".toList, "id".toList]]] ∧
    (Run (NewCommandRunner Script.sample) BoshDirector.up).2.1.boshCommanderScript
      = { Sudo := true, Script := ["sudo ls".toList], AfterAll := ["sudo id".toList] } ∧
    (runOnEnvs (NewCommandRunner Script.sample)
        [.ok BoshDirector.up, .ok BoshDirector.up]).2.1.boshCommanderScript
      = { Sudo := true, Script := ["sudo sudo ls".toList],
          AfterAll := ["sudo sudo id".toList] } := by
  decide
/-! ## The variables of the command line -/

/-! ### The variables of the command line -/

theorem SplitN2_eq (s : Str) (sep : Char) :
    SplitN2 s sep =
      match s.dropWhile (fun c => c != sep) with
      | [] => [s.takeWhile (fun c => c != sep)]
      | _ :: b => [s.takeWhile (fun c => c != sep), b] := by
  unfold SplitN2
  rw [List.span_eq_take_drop]
  cases List.dropWhile (fun c => c != sep) s <;> rfl

theorem takeWhile_ne (name value : Str) (sep : Char) (h : sep ∉ name) :
    (name ++ sep :: value).takeWhile (fun c => c != sep) = name ∧
    (name ++ sep :: value).dropWhile (fun c => c != sep) = sep :: value := by
  induction name with
  | nil => simp [List.takeWhile, List.dropWhile]
  | cons c name ih =>
    have hc : (c != sep) = true := by
      simp only [bne_iff_ne, ne_eq]
      intro hc
      exact h (by simp [hc])
    have hn : sep ∉ name := fun hn => h (List.mem_cons_of_mem _ hn)
    have ih := ih hn
    simp only [List.cons_append, List.takeWhile_cons, List.dropWhile_cons, hc, if_true]
    exact ⟨by rw [ih.1], ih.2⟩

theorem dropWhile_ne_head (s : Str) (sep c : Char) (rest : Str)
    (h : s.dropWhile (fun c => c != sep) = c :: rest) : c = sep := by
  induction s with
  | nil => simp at h
  | cons d s ih =>
    rw [List.dropWhile_cons] at h
    by_cases hd : (d != sep) = true
    · rw [if_pos hd] at h
      exact ih h
    · rw [if_neg hd] at h
      injection h with h1 h2
      subst h1
      simpa using hd

theorem sep_not_mem_takeWhile (s : Str) (sep : Char) :
    sep ∉ s.takeWhile (fun c => c != sep) := by
  intro hmem
  have := List.mem_takeWhile_imp hmem
  simp at this

theorem wellFormedVar_iff (kvRaw : Str) :
    WellFormedVar kvRaw ↔
      (SplitN2 kvRaw '=').length = 2 ∧ (SplitN2 kvRaw '=').getD 0 [] ≠ [] ∧
        (SplitN2 kvRaw '=').getD 1 [] ≠ [] := by
  rw [SplitN2_eq]
  constructor
  · rintro ⟨name, value, rfl, hn, hne, hv⟩
    obtain ⟨h1, h2⟩ := takeWhile_ne name value '=' hne
    rw [h1, h2]
    exact ⟨rfl, by simpa using hn, by simpa using hv⟩
  · intro h
    cases hd : kvRaw.dropWhile (fun c => c != '=') with
    | nil => rw [hd] at h; simp at h
    | cons c b =>
      rw [hd] at h
      have hc := dropWhile_ne_head kvRaw '=' c b hd
      subst hc
      have hsplit := List.takeWhile_append_dropWhile (fun c => c != '=') kvRaw
      rw [hd] at hsplit
      refine ⟨kvRaw.takeWhile (fun c => c != '='), b, hsplit.symm, ?_,
        sep_not_mem_takeWhile kvRaw '=', ?_⟩
      · simpa using h.2.1
      · simpa using h.2.2

theorem SplitN2_two (kvRaw : Str) (h : (SplitN2 kvRaw '=').length = 2) :
    (SplitN2 kvRaw '=').getD 0 [] = varName kvRaw ∧
    (SplitN2 kvRaw '=').getD 1 [] = varValue kvRaw := by
  rw [SplitN2_eq] at h ⊢
  unfold varName varValue
  cases hd : List.dropWhile (fun c => c != '=') kvRaw with
  | nil => rw [hd] at h; simp at h
  | cons c b => simp

theorem lookup_map (l : List Str) (name : Str) :
    (l.map (fun kv => (varName kv, varValue kv))).lookup name
      = (l.find? (fun kv => varName kv == name)).map varValue := by
  induction l with
  | nil => rfl
  | cons kv l ih =>
    simp only [List.map_cons, List.lookup_cons, List.find?_cons]
    by_cases h : varName kv = name
    · subst h
      simp
    · have h1 : (name == varName kv) = false := by simpa using fun h2 => h h2.symm
      have h2 : (varName kv == name) = false := by simpa using h
      rw [h1, h2]
      exact ih

theorem convertVarsLoop_spec (l : List Str) (m : VarsMap) :
    ((∀ kv ∈ l, WellFormedVar kv) ∧
      convertVarsLoop l m
        = ((l.map (fun kv => (varName kv, varValue kv))).reverse ++ m, none)) ∨
    (∃ pre kv post err, l = pre ++ kv :: post ∧ (∀ x ∈ pre, WellFormedVar x) ∧
      ¬ WellFormedVar kv ∧ err ∈ varErrors kv ∧ (convertVarsLoop l m).2 = some err) := by
  induction l generalizing m with
  | nil => exact Or.inl ⟨by simp, rfl⟩
  | cons kv l ih =>
    by_cases hwf : WellFormedVar kv
    · obtain ⟨h1, h2, h3⟩ := (wellFormedVar_iff kv).mp hwf
      obtain ⟨hn, hv⟩ := SplitN2_two kv h1
      have hstep : convertVarsLoop (kv :: l) m
          = convertVarsLoop l (m.set (varName kv) (varValue kv)) := by
        rw [convertVarsLoop]
        simp only [h1, ne_eq, not_true_eq_false, if_false]
        rw [if_neg (by simpa using h2), if_neg (by simpa using h3), hn, hv]
      rcases ih (m.set (varName kv) (varValue kv)) with ⟨hall, heq⟩ | ⟨pre, x, post, err, hl, hpre, hx, herr, hres⟩
      · left
        refine ⟨?_, ?_⟩
        · intro y hy
          rcases List.mem_cons.mp hy with rfl | hy
          · exact hwf
          · exact hall y hy
        · rw [hstep, heq]
          simp [VarsMap.set]
      · right
        refine ⟨kv :: pre, x, post, err, by simp [hl], ?_, hx, herr, by rw [hstep]; exact hres⟩
        intro y hy
        rcases List.mem_cons.mp hy with rfl | hy
        · exact hwf
        · exact hpre y hy
    · have hnot := fun h => hwf ((wellFormedVar_iff kv).mpr h)
      have herr : ∃ err, err ∈ varErrors kv ∧ (convertVarsLoop (kv :: l) m).2 = some err := by
        rw [convertVarsLoop]
        by_cases h1 : (SplitN2 kv '=').length = 2
        · simp only [h1, ne_eq, not_true_eq_false, if_false]
          by_cases h2 : (SplitN2 kv '=').getD 0 [] = []
          · rw [if_pos (by rw [h2]; rfl)]
            exact ⟨_, List.mem_cons_of_mem _ (List.mem_cons_self _ _), rfl⟩
          · rw [if_neg (by simpa using h2)]
            by_cases h3 : (SplitN2 kv '=').getD 1 [] = []
            · rw [if_pos (by rw [h3]; rfl)]
              exact ⟨_, List.mem_cons_of_mem _ (List.mem_cons_of_mem _ (List.mem_cons_self _ _)),
                rfl⟩
            · exact absurd ⟨h1, h2, h3⟩ hnot
        · simp only [ne_eq, h1, not_false_eq_true, if_true]
          exact ⟨_, List.mem_cons_self _ _, rfl⟩
      obtain ⟨err, he, hres⟩ := herr
      exact Or.inr ⟨[], kv, l, err, rfl, by simp, hwf, he, hres⟩

/-- C18: convertVarsKV succeeds exactly when every entry has an equals sign with a non-empty
name before the first one and a non-empty remainder after it; on success each name is bound to
the whole remainder of the last entry with that name; on failure the error is one of the three
messages quoting the first entry that is not well formed. -/
theorem convertVarsKV_spec (l : List Str) :
    ((convertVarsKV l).2 = none ↔ ∀ kv ∈ l, WellFormedVar kv) ∧
    ((convertVarsKV l).2 = none →
      ∀ name, (convertVarsKV l).1.get name
        = (l.reverse.find? (fun kv => varName kv == name)).map varValue) ∧
    (∀ err, (convertVarsKV l).2 = some err →
      ∃ pre kv post, l = pre ++ kv :: post ∧ (∀ x ∈ pre, WellFormedVar x) ∧
        ¬ WellFormedVar kv ∧ err ∈ varErrors kv) := by
  unfold convertVarsKV
  rcases convertVarsLoop_spec l [] with ⟨hall, heq⟩ | ⟨pre, kv, post, err, hl, hpre, hkv, herr, hres⟩
  · refine ⟨⟨fun _ => hall, fun _ => by rw [heq]⟩, ?_, ?_⟩
    · intro _ name
      rw [heq]
      simp only [VarsMap.get, List.append_nil, ← List.map_reverse]
      exact lookup_map l.reverse name
    · intro err h
      rw [heq] at h
      cases h
  · refine ⟨⟨fun h => ?_, fun h => ?_⟩, fun h => ?_, ?_⟩
    · rw [hres] at h
      cases h
    · exact absurd (h kv (by simp [hl])) hkv
    · rw [hres] at h
      cases h
    · intro err2 h
      rw [hres] at h
      injection h with h
      subst h
      exact ⟨pre, kv, post, hl, hpre, hkv, herr⟩

/-- C18 at a concrete command line: a later entry overrides an earlier one and the value keeps
its own equals signs. -/
theorem convertVarsKV_spec_witness :
    (convertVarsKV ["a=b".toList, "c=d=e".toList, "a=z".toList]).2 = none ∧
    (convertVarsKV ["a=b".toList, "c=d=e".toList, "a=z".toList]).1.get "a".toList
      = some "z".toList ∧
    (convertVarsKV ["a=b".toList, "c=d=e".toList, "a=z".toList]).1.get "c".toList
      = some "d=e".toList :=
  ⟨by decide,
   ((convertVarsKV_spec ["a=b".toList, "c=d=e".toList, "a=z".toList]).2.1 (by decide)
      "a".toList).trans (by decide),
   ((convertVarsKV_spec ["a=b".toList, "c=d=e".toList, "a=z".toList]).2.1 (by decide)
      "c".toList).trans (by decide)⟩

end Bopt
